import Mathlib

set_option linter.unusedVariables false

/-!
Verification of the einsum core of
`tensorflow/python/ops/special_math_ops.py`: the equation resolver,
the contraction-order optimizers (dynamic programming with connected-subgraph
decomposition, and greedy), the pairwise reduction executor
(`_einsum_reduction`), the exponential-space fallback and the `einsum` driver.

The tensor/array type and its elementwise kernels (multiply, sum, matmul,
transpose, reshape, shape query, trace) are external collaborators of the core
(they live elsewhere in the repository); they are modelled here from the spec
with standard semantics, marked `Modelled from the spec:` below.  Machine
floats of the cost model are modelled by exact naturals, and tensor entries by
exact integers, matching the spec's "exact, non-floating-point-order-sensitive
semantics".

Python sets iterate in an implementation-defined order; wherever the source
iterates over a set (`set(...)`, `frozenset`), the model fixes the sorted
order (for small-int sets this matches CPython's behaviour; for character sets
CPython's order is hash-dependent, and the choice is documented at each use).
-/

/-- A multi-index: one coordinate per axis, outermost first. -/
abbrev Idx := List Nat

/-- Modelled from the spec: the external tensor type ("the underlying
tensor/array type and its storage" is an external collaborator, and shape
values "may be statically known or only known at execution time").  A tensor
carries its runtime shape, its static shape whose entries may be deferred
(`none`), and integer entries addressed by multi-index.  Entries at
out-of-range indices are irrelevant; tensors are compared on in-range indices
only. -/
structure Tensor where
  shape : List Nat
  static : List (Option Nat)
  data : Idx → Int

/-- The static shape is consistent with the runtime shape: same rank, and
every statically known dimension matches the runtime dimension. -/
def Tensor.WF (t : Tensor) : Prop :=
  t.static.length = t.shape.length ∧
    ∀ i v, t.static.get? i = some (some v) → t.shape.get? i = some v

/-- A tensor whose static shape is fully known (no deferred dimensions). -/
def Tensor.fullyKnown (t : Tensor) : Prop := t.static = t.shape.map some

/-- `idx` is a valid multi-index for `shape`. -/
def idxOk (shape : List Nat) (idx : Idx) : Bool :=
  idx.length == shape.length && (idx.zip shape).all fun p => p.1 < p.2

/-- Extensional tensor equality: same runtime shape and equal entries at every
valid multi-index. -/
def TensorEqv (t₁ t₂ : Tensor) : Prop :=
  t₁.shape = t₂.shape ∧ ∀ idx, idxOk t₁.shape idx → t₁.data idx = t₂.data idx

/-- All valid multi-indices of a shape, in row-major order. -/
def allIdx : List Nat → List Idx
  | [] => [[]]
  | d :: ds => (List.range d).flatMap fun i => (allIdx ds).map (i :: ·)

/-- Executable extensional equality test (complete for valid indices). -/
def tensorBeq (t₁ t₂ : Tensor) : Bool :=
  t₁.shape == t₂.shape && (allIdx t₁.shape).all fun idx => t₁.data idx == t₂.data idx

/-- Errors of the core, following the spec's taxonomy (§7).  Static shape
errors raised inside the external reshape/matmul/multiply primitives are all
reported as `shapeMismatch`. -/
inductive Err where
  | badFormat | arity | badEllipsis | dupAxis | rankMismatch | shapeMismatch
  | invalidEquation | dimMismatch | indexErr | dpFail | assertFail | unknownOutput
deriving DecidableEq, Repr

/-- Stable insertion into an already `le`-sorted list: the new element goes
after every existing element that compares `le` to it, so equal elements keep
their original relative order. -/
def insSorted (le : α → α → Bool) (x : α) : List α → List α
  | [] => [x]
  | y :: ys => if le y x then y :: insSorted le x ys else x :: y :: ys

/-- Python's `sorted`: a stable ascending sort, built structurally (insertion
sort) so that it evaluates inside the kernel. -/
def pySorted (le : α → α → Bool) (l : List α) : List α :=
  l.foldl (fun acc x => insSorted le x acc) []

/-- Inserting permutes: `insSorted le x l` is `x :: l` up to order. -/
theorem perm_insSorted (le : α → α → Bool) (x : α) :
    ∀ l : List α, (insSorted le x l).Perm (x :: l) := by
  intro l
  induction l with
  | nil => simp [insSorted]
  | cons y ys ih =>
    simp only [insSorted]
    split
    · exact (ih.cons y).trans (List.Perm.swap x y ys)
    · exact List.Perm.refl _

/-- `pySorted` permutes its input. -/
theorem perm_pySorted (le : α → α → Bool) (l : List α) : (pySorted le l).Perm l := by
  suffices h : ∀ acc : List α, (l.foldl (fun acc x => insSorted le x acc) acc).Perm (acc ++ l) by
    simpa [pySorted] using h []
  induction l with
  | nil => intro acc; simp
  | cons x xs ih =>
    intro acc
    simp only [List.foldl_cons]
    refine (ih (insSorted le x acc)).trans ?_
    refine (List.Perm.append_right xs (perm_insSorted le x acc)).trans ?_
    exact List.perm_middle.symm

/-- Membership through `pySorted`. -/
theorem mem_pySorted {le : α → α → Bool} {a : α} {l : List α} :
    a ∈ pySorted le l ↔ a ∈ l :=
  (perm_pySorted le l).mem_iff

/-- Row-major flattening of a multi-index. -/
def flat : List Nat → Idx → Nat
  | [], _ => 0
  | _ :: _, [] => 0
  | _ :: ds, i :: is => i * ds.prod + flat ds is

/-- Row-major unflattening of a linear index. -/
def unflat : List Nat → Nat → Idx
  | [], _ => []
  | _ :: ds, k => k / ds.prod :: unflat ds (k % ds.prod)

/-- A shape value as the executor sees it: either statically known, or the
runtime value behind a deferred dimension (obtained from a shape query).  The
constructor records the runtime value in both cases so execution semantics
stay meaningful; only `known` takes part in static checking. -/
inductive MDim where
  | known : Nat → MDim
  | dynVal : Nat → MDim
deriving DecidableEq, Repr

/-- The runtime value of a mixed shape entry. -/
def MDim.rt : MDim → Nat
  | .known n => n
  | .dynVal n => n

/-- The static view of a mixed shape entry. -/
def MDim.st : MDim → Option Nat
  | .known n => some n
  | .dynVal _ => none

/-- Whether a mixed shape entry is statically known. -/
def MDim.isKnown : MDim → Bool
  | .known _ => true
  | .dynVal _ => false

/-- Embeds `_get_shape`: the static shape with deferred entries replaced by
runtime shape queries. -/
def getShapeM (t : Tensor) : List MDim :=
  (t.static.zip t.shape).map fun p =>
    match p.1 with
    | some v => .known v
    | none => .dynVal p.2

/-- Embeds `_total_size`: the product of mixed shape values; statically known
only when every factor is. -/
def totalSize (l : List MDim) : MDim :=
  if l.all MDim.isKnown then .known (l.map MDim.rt).prod else .dynVal (l.map MDim.rt).prod

/-- Modelled from the spec: the external transpose-by-permutation primitive.
Axis `i` of the result is axis `perm[i]` of the input.  All call sites in the
source pass genuine permutations, so the primitive is modelled total. -/
def transposeT (t : Tensor) (perm : List Nat) : Tensor :=
  { shape := perm.map (t.shape.getD · 0)
    static := perm.map (t.static.getD · none)
    data := fun idx => t.data ((List.range t.shape.length).map fun j => idx.getD (perm.indexOf j) 0) }

/-- Modelled from the spec: the external expand-dims primitive; inserts a
size-1 axis at the given position. -/
def expandDimsT (t : Tensor) (pos : Nat) : Tensor :=
  { shape := t.shape.insertIdx pos 1
    static := t.static.insertIdx pos (some 1)
    data := fun idx => t.data (idx.eraseIdx pos) }

/-- Broadcast combination of two statically known dimensions (`none` = clash). -/
def bcastNat (a b : Nat) : Option Nat :=
  if a = b then some a else if a = 1 then some b else if b = 1 then some a else none

/-- Static broadcast combination; clashes are only detectable when both sides
are statically known. -/
def bcastStatic : Option Nat → Option Nat → Option (Option Nat)
  | some a, some b => (bcastNat a b).map some
  | none, some b => some (if b = 1 then none else some b)
  | some a, none => some (if a = 1 then none else some a)
  | none, none => some none

/-- Adjust a result multi-index to an operand's coordinates for broadcasting:
drop the leading extra axes, then zero the coordinate wherever the operand's
runtime dimension is 1. -/
def bcastIdx (shape : List Nat) (outRank : Nat) (idx : Idx) : Idx :=
  (shape.zip (idx.drop (outRank - shape.length))).map fun p => if p.1 = 1 then 0 else p.2

/-- Modelled from the spec: the external elementwise-multiply primitive with
numpy-style broadcasting (shorter rank is right-aligned); fails statically
when two statically known dimensions clash. -/
def mulT (t₁ t₂ : Tensor) : Except Err Tensor := do
  let r := max t₁.shape.length t₂.shape.length
  let sh₁ := List.replicate (r - t₁.shape.length) 1 ++ t₁.shape
  let sh₂ := List.replicate (r - t₂.shape.length) 1 ++ t₂.shape
  let st₁ := List.replicate (r - t₁.static.length) (some 1) ++ t₁.static
  let st₂ := List.replicate (r - t₂.static.length) (some 1) ++ t₂.static
  let stz := (st₁.zip st₂).mapM fun p => bcastStatic p.1 p.2
  match stz with
  | none => .error .shapeMismatch
  | some st =>
    let sh := (sh₁.zip sh₂).map fun p => max p.1 p.2
    .ok { shape := sh, static := st
          data := fun idx => t₁.data (bcastIdx t₁.shape r idx) * t₂.data (bcastIdx t₂.shape r idx) }

/-- Modelled from the spec: the external (batched) matrix-multiply primitive.
Both operands must have equal rank at least 2; batch dimensions and the inner
dimension must agree wherever statically known. -/
def matmulT (t₁ t₂ : Tensor) : Except Err Tensor := do
  let r := t₁.shape.length
  if r < 2 ∨ t₂.shape.length ≠ r then .error .shapeMismatch else
  let okPair : Option Nat → Option Nat → Bool := fun a b =>
    match a, b with
    | some x, some y => x == y
    | _, _ => true
  if ¬ ((t₁.static.take (r - 2)).zip (t₂.static.take (r - 2))).all (fun p => okPair p.1 p.2) then
    .error .shapeMismatch
  else if ¬ okPair (t₁.static.getD (r - 1) none) (t₂.static.getD (r - 2) none) then
    .error .shapeMismatch
  else
    let kk := t₁.shape.getD (r - 1) 0
    .ok { shape := t₁.shape.take (r - 2) ++ [t₁.shape.getD (r - 2) 0, t₂.shape.getD (r - 1) 0]
          static := ((t₁.static.take (r - 2)).zip (t₂.static.take (r - 2))).map
              (fun p => p.1.orElse fun _ => p.2) ++
            [t₁.static.getD (r - 2) none, t₂.static.getD (r - 1) none]
          data := fun idx =>
            let batch := idx.take (r - 2)
            let i := idx.getD (r - 2) 0
            let j := idx.getD (r - 1) 0
            ∑ x ∈ Finset.range kk, t₁.data (batch ++ [i, x]) * t₂.data (batch ++ [x, j]) }

/-- Modelled from the spec: summation over a single axis position. -/
def sumAxisT (t : Tensor) (p : Nat) : Tensor :=
  { shape := t.shape.eraseIdx p
    static := t.static.eraseIdx p
    data := fun idx => ∑ x ∈ Finset.range (t.shape.getD p 0), t.data (idx.insertIdx p x) }

/-- Modelled from the spec: the external summation-by-axis-set primitive
(`reduce_sum` with a list of axis positions); axes are eliminated from the
highest position down so that the remaining positions are unaffected. -/
def reduceSumT (t : Tensor) (axes : List Nat) : Tensor :=
  (pySorted (fun a b => b ≤ a) axes).foldl sumAxisT t

/-- Modelled from the spec: `math_ops.trace`, the sum of the diagonal entries
of the innermost two axes; fails when the static rank is below 2. -/
def traceT (t : Tensor) : Except Err Tensor :=
  if t.static.length < 2 then .error .shapeMismatch else
  let r := t.shape.length
  let m := t.shape.getD (r - 2) 0
  let n := t.shape.getD (r - 1) 0
  .ok { shape := t.shape.take (r - 2)
        static := t.static.take (r - 2)
        data := fun idx => ∑ i ∈ Finset.range (min m n), t.data (idx ++ [i, i]) }

/-- Modelled from the spec: the core of the external reshape-by-shape
primitive (row-major).  No static checking here; see `reshapeIfNecessary`. -/
def reshapeRaw (t : Tensor) (rtShape : List Nat) (stShape : List (Option Nat)) : Tensor :=
  { shape := rtShape
    static := stShape
    data := fun idx => t.data (unflat t.shape (flat rtShape idx)) }

/-- Embeds `_reshape_if_necessary` for the executor's mixed-shape targets.
The reshape is skipped when every target entry is statically known and equal
to the (known) current entry, mirroring the source's `d0 == d1` test (a
deferred current entry or a runtime target entry never compares equal).
When the target is fully known and the input's static shape is fully known,
the element-count check of the external reshape primitive applies; a target
containing runtime values is passed as a tensor and checked only at run
time. -/
def reshapeIfNecessary (t : Tensor) (ns : List MDim) : Except Err Tensor :=
  if ns.length = t.static.length ∧
      ((t.static.zip ns).all fun p =>
        match p.1, p.2 with
        | some a, .known b => a == b
        | _, _ => false) then
    .ok t
  else if ns.all MDim.isKnown ∧ t.static.all Option.isSome ∧
      t.shape.prod ≠ (ns.map MDim.rt).prod then
    .error .shapeMismatch
  else
    .ok (reshapeRaw t (ns.map MDim.rt) (ns.map MDim.st))

/-! ## Equation parser (`_einsum_parse_and_resolve_equation`) -/

/-- Characters allowed in the inputs part of the equation regex. -/
def isEqLetter (c : Char) : Bool :=
  ('a' ≤ c && c ≤ 'z') || ('A' ≤ c && c ≤ 'Z')

/-- `string.ascii_letters`, used to draw fresh ellipsis labels. -/
def asciiLetters : List Char :=
  ((List.range 26).map fun i => Char.ofNat ('a'.toNat + i)) ++
    ((List.range 26).map fun i => Char.ofNat ('A'.toNat + i))

/-- Sorted-order comparison on characters (Python sorts by code point). -/
def charLe (a b : Char) : Bool := a ≤ b


/-- The model of iterating over a Python `set` of characters: distinct
elements in sorted order.  (CPython's actual order is hash-dependent; the
sorted order is fixed here and every theorem sensitive to it says so.) -/
def pySet (l : List Char) : List Char := pySorted charLe l.dedup

/-- Splits the space-stripped equation at `->` following the source regex
`^([a-zA-Z,.]+)(->[a-zA-Z.]*)?$`: the inputs part is nonempty over
`[a-zA-Z,.]`, an optional arrow, and an output over `[a-zA-Z.]`. -/
def arrowSplit (l : List Char) : Option (List Char × Option (List Char)) :=
  let pre := l.takeWhile (· ≠ '-')
  let rest := l.drop pre.length
  let preOk := pre ≠ [] && pre.all fun c => isEqLetter c || c == ',' || c == '.'
  match rest with
  | [] => if preOk then some (l, none) else none
  | '-' :: '>' :: out =>
    if preOk && out.all (fun c => isEqLetter c || c == '.') then some (pre, some out) else none
  | _ => none

/-- Does the (uncleaned) character list contain the two-character arrow? -/
def hasArrow : List Char → Bool
  | '-' :: '>' :: _ => true
  | _ :: rest => hasArrow rest
  | [] => false

/-- Does the character list contain a `...` ellipsis? -/
def hasDots3 : List Char → Bool
  | '.' :: '.' :: '.' :: _ => true
  | _ :: rest => hasDots3 rest
  | [] => false

/-- Splits at the first `...` occurrence, if any. -/
def splitDots3 : List Char → Option (List Char × List Char)
  | '.' :: '.' :: '.' :: rest => some ([], rest)
  | c :: rest => (splitDots3 rest).map fun p => (c :: p.1, p.2)
  | [] => none

/-- Replaces every (non-overlapping, left-to-right) `...` by `rep`,
mirroring Python `str.replace`. -/
def replaceDots3 (rep : List Char) : List Char → List Char
  | '.' :: '.' :: '.' :: rest => rep ++ replaceDots3 rep rest
  | c :: rest => c :: replaceDots3 rep rest
  | [] => []

/-- Ellipsis resolution for one operand (`ax.split('...')` and the
surrounding checks).  `unused` is the shared pool of fresh labels.  Returns
the resolved labels and the replacement used, or an error. -/
def resolveEllipsisOne (unused : List Char) (rank : Nat) (ax : List Char) :
    Except Err (List Char × List Char) :=
  match splitDots3 ax with
  | none => .ok (ax, [])
  | some (p₁, rest) =>
    if hasDots3 rest then .error .badEllipsis else
    let explicitCount := p₁.length + rest.length
    if rank < explicitCount then .error .badEllipsis else
    let n := rank - explicitCount
    if unused.length < n then .error .badEllipsis else
    let rep := unused.drop (unused.length - n)
    .ok (p₁ ++ rep ++ rest, rep)

/-- Ellipsis resolution over all operands, in source order, tracking the
longest replacement so far (`ellipsis_axes`, updated only on strict
increase). -/
def resolveEllipsisFold (unused : List Char) (ranksAxes : List (Nat × List Char)) :
    Except Err (List (List Char) × List Char) :=
  ranksAxes.foldlM
    (fun acc p => do
      let (ax', rep) ← resolveEllipsisOne unused p.1 p.2
      .ok (acc.1 ++ [ax'], if acc.2.length < rep.length then rep else acc.2))
    (([] : List (List Char)), ([] : List Char))

/-- Embeds `_einsum_parse_and_resolve_equation`.  `staticShapes` are the
operands' static shapes (`x.get_shape()`); the model restricts to tensors of
known rank, so the source's unknown-rank failure branch cannot arise.
Returns the resolved per-operand label strings and the output labels. -/
def parseEq (equation : List Char) (staticShapes : List (List (Option Nat))) :
    Except Err (List (List Char) × List Char) := do
  let eq := equation.filter (· ≠ ' ')
  match arrowSplit eq with
  | none => .error .badFormat
  | some (inPart, outPart) =>
    let inputAxisLabels := inPart.splitOn ','
    let outputAxisLabels : Option (List Char) := outPart
    if staticShapes.length ≠ inputAxisLabels.length then .error .arity else
    let (inputAxisLabels, outputAxisLabels, ellipsisAxes) ←
      if hasDots3 eq then do
        let unused := asciiLetters.filter (· ∉ inputAxisLabels.flatten)
        let (resolved, ellipsisAxes) ←
          resolveEllipsisFold unused ((staticShapes.map List.length).zip inputAxisLabels)
        if resolved.any (fun ax => ax.contains '.') then .error .badEllipsis else
        match outputAxisLabels with
        | some out =>
          let out' := replaceDots3 ellipsisAxes out
          if out'.contains '.' then .error .badEllipsis else
          .ok (resolved, some out', ellipsisAxes)
        | none => .ok (resolved, none, ellipsisAxes)
      else
        .ok (inputAxisLabels, outputAxisLabels, [])
    match outputAxisLabels with
    | some out => .ok (inputAxisLabels, out)
    | none =>
      let all := inputAxisLabels.flatten
      let axisLabels := pySorted charLe (all.dedup.filter (· ∉ ellipsisAxes))
      let countOf : Char → Nat := fun ax => all.count ax
      .ok (inputAxisLabels, ellipsisAxes ++ axisLabels.filter (fun ax => countOf ax == 1))

/-! ## Contraction trees and the subgraph decomposition -/

/-- Contraction trees: the nested 2-tuples of operand indices built by the
DP optimizer (`(e1, e2)` with integer leaves). -/
inductive CTree where
  | leaf : Nat → CTree
  | node : CTree → CTree → CTree
deriving DecidableEq, Repr

/-- Number of internal nodes of a contraction tree. -/
def CTree.isize : CTree → Nat
  | .leaf _ => 0
  | .node a b => a.isize + b.isize + 1

/-- Leaf indices of a contraction tree, left to right. -/
def CTree.leaves : CTree → List Nat
  | .leaf n => [n]
  | .node a b => a.leaves ++ b.leaves

/-- Embeds the adjacency test of `_find_subgraphs`: operands `x` and `y`
share at least one label that is not an output label. -/
def sharesSummable (ilabels : List (List Char)) (olabels : List Char) (x y : Nat) : Bool :=
  (ilabels.getD x []).any fun c => (ilabels.getD y []).contains c && !olabels.contains c

/-- The breadth-first inner loop of `_find_subgraphs` over `(unused, q, g)`.
`unused` is kept ascending, modelling CPython's small-int set order; the
neighbour set `n` is iterated in that order too, and appended to the back of
the queue (`q.extend(n)`).  The loop is written structurally over a fuel
argument so it evaluates in the kernel; each iteration lowers
`unused.length + q.length` by one, so the callers' fuel of
`unused.length + q.length` is never exhausted. -/
def bfsInner (ilabels : List (List Char)) (olabels : List Char) :
    Nat → List Nat → List Nat → List Nat → List Nat × List Nat
  | _, unused, [], g => (unused, g)
  | 0, unused, q, g => (unused, g)
  | fuel + 1, unused, x :: q, g =>
    let nb := unused.filter (sharesSummable ilabels olabels x)
    let unused' := unused.filter fun y => !(sharesSummable ilabels olabels x y)
    bfsInner ilabels olabels fuel unused' (q ++ nb) (g ++ [x])

/-- After the inner BFS, the unused pool has not grown. -/
theorem bfsInner_unused_le (ilabels : List (List Char)) (olabels : List Char) :
    ∀ fuel unused q g, (bfsInner ilabels olabels fuel unused q g).1.length ≤ unused.length := by
  intro fuel
  induction fuel with
  | zero => intro unused q g; cases q <;> simp [bfsInner]
  | succ fuel ih =>
    intro unused q g
    cases q with
    | nil => simp [bfsInner]
    | cons x q =>
      rw [bfsInner]
      refine le_trans (ih _ _ _) ?_
      simpa using List.length_filter_le _ unused

/-- The outer loop of `_find_subgraphs`: pop the least unused index, flood
its component, repeat.  Structural over a fuel argument; every iteration
strictly shrinks `unused`, so fuel `unused.length` is never exhausted. -/
def fsOuter (ilabels : List (List Char)) (olabels : List Char) :
    Nat → List Nat → List (List Nat)
  | _, [] => []
  | 0, _ :: _ => []
  | fuel + 1, u :: rest =>
    let r := bfsInner ilabels olabels (rest.length + 1) rest [u] []
    r.2 :: fsOuter ilabels olabels fuel r.1

/-- Embeds `_find_subgraphs`. -/
def findSubgraphs (ilabels : List (List Char)) (olabels : List Char) : List (List Nat) :=
  fsOuter ilabels olabels ilabels.length (List.range ilabels.length)

/-! ## The dynamic-programming optimizer -/

/-- A DP memo entry: `x[m][s] = (shape, labels, cost, contraction)`. -/
structure DpEntry where
  shape : List Nat
  labels : List Char
  cost : Nat
  tree : CTree
deriving DecidableEq, Repr

/-- Subset keys (Python `frozenset`s of positions), modelled as ascending
duplicate-free lists. -/
abbrev SKey := List Nat

/-- Canonical union of two subset keys. -/
def skeyUnion (a b : SKey) : SKey := pySorted (fun x y => x ≤ y) ((a ++ b).dedup)

/-- Disjointness of two subset keys (`len(s1 & s2) == 0`). -/
def skeyDisjoint (a b : SKey) : Bool := a.all fun x => !b.contains x

/-- One memo level `x[m]`: an insertion-ordered association list, modelling
a Python dict. -/
abbrev DpLevel := List (SKey × DpEntry)

/-- Lookup in a memo level. -/
def dpLookup (lvl : DpLevel) (s : SKey) : Option DpEntry :=
  (lvl.find? fun p => p.1 == s).map (·.2)

/-- The comparison `total_cost < min(current_best, cost_limit)`; the cost
limit defaults to `np.inf`, modelled as `none`. -/
def costBeats (c : Nat) (best : Nat) (limit : Option Nat) : Bool :=
  match limit with
  | none => c < best
  | some lim => c < min best lim

/-- Embeds the memo update guarded by
`if s not in x[m] or total_cost < min(x[m][s][2], cost_limit)`: a first
candidate for a subset is stored unconditionally (whatever its cost); a later
candidate replaces the stored entry only when strictly cheaper than both the
stored cost and the cost limit. -/
def dpStore (limit : Option Nat) (lvl : DpLevel) (s : SKey) (e : DpEntry) : DpLevel :=
  match dpLookup lvl s with
  | none => lvl ++ [(s, e)]
  | some old =>
    if costBeats e.cost old.cost limit then
      lvl.map fun p => if p.1 == s then (s, e) else p
    else lvl

/-- The combination rule shared by the DP transition and the greedy scan:
masks `m1`/`m2`, kept shape, kept labels, cost
`np.prod(d1) * np.prod([d for d, f in zip(d2, m2) if f])`, and whether the
pair shares any summable label. -/
structure CombineRes where
  shape : List Nat
  labels : List Char
  cost : Nat
  hasContraction : Bool
deriving DecidableEq, Repr

/-- See `CombineRes`. -/
def combineOp (olabels : List Char) (l1 : List Char) (d1 : List Nat)
    (l2 : List Char) (d2 : List Nat) : CombineRes :=
  let commonMem : Char → Bool := fun c => l1.contains c && l2.contains c
  let contractionMem : Char → Bool := fun c => commonMem c && !olabels.contains c
  let m1 := l1.map fun c => !contractionMem c
  let m2 := l2.map fun c => !commonMem c
  let keepN : List Nat → List Bool → List Nat := fun d m => ((d.zip m).filter (·.2)).map (·.1)
  let keepC : List Char → List Bool → List Char := fun l m => ((l.zip m).filter (·.2)).map (·.1)
  { shape := keepN d1 m1 ++ keepN d2 m2
    labels := keepC l1 m1 ++ keepC l2 m2
    cost := d1.prod * (keepN d2 m2).prod
    hasContraction := l1.any contractionMem }

/-- Embeds the candidate combination inside `_einsum_optimize_dp_connected`:
`none` when the two entries share no summable label (intermediate outer
products are ignored). -/
def dpCombine (olabels : List Char) (e₁ e₂ : DpEntry) : Option DpEntry :=
  let c := combineOp olabels e₁.labels e₁.shape e₂.labels e₂.shape
  if c.hasContraction then
    some ⟨c.shape, c.labels, c.cost + e₁.cost + e₂.cost, .node e₁.tree e₂.tree⟩
  else none

/-- Level `x[1]`: singletons in index order. -/
def dpLevel1 (ishapes : List (List Nat)) (ilabels : List (List Char)) (tis : List Nat) : DpLevel :=
  (List.range ishapes.length).map fun j =>
    ([j], ⟨ishapes.getD j [], ilabels.getD j [], 0, .leaf (tis.getD j 0)⟩)

/-- Level access: `x[k]` for `k ≥ 1`. -/
def lvlAt (levels : List DpLevel) (k : Nat) : DpLevel := levels.getD (k - 1) []

/-- Builds level `x[m]` from the previous levels: for `k = 1 .. m/2`, try to
combine every entry of `x[m-k]` with every disjoint entry of `x[k]`, in
insertion order. -/
def dpBuildLevel (olabels : List Char) (limit : Option Nat)
    (built : List DpLevel) (m : Nat) : DpLevel :=
  List.foldl
    (fun acc k =>
      List.foldl
        (fun acc p₁ =>
          List.foldl
            (fun acc p₂ =>
              if skeyDisjoint p₁.1 p₂.1 then
                match dpCombine olabels p₁.2 p₂.2 with
                | some e => dpStore limit acc (skeyUnion p₁.1 p₂.1) e
                | none => acc
              else acc)
            acc (lvlAt built k))
        acc (lvlAt built (m - k)))
    [] (List.range' 1 (m / 2))

/-- All memo levels `x[1] .. x[n]` of `_einsum_optimize_dp_connected`. -/
def dpLevels (ishapes : List (List Nat)) (ilabels : List (List Char)) (olabels : List Char)
    (limit : Option Nat) (tis : List Nat) : List DpLevel :=
  (List.range' 2 (ishapes.length - 1)).foldl
    (fun built m => built ++ [dpBuildLevel olabels limit built m])
    [dpLevel1 ishapes ilabels tis]

/-- Embeds `_einsum_optimize_dp_connected`: returns the contraction tree of
the first (insertion-order) entry of the full-subset level
(`x[n][list(x[n].keys())[0]][3]`), failing where the source would raise an
IndexError because no full-subset entry exists. -/
def einsumOptimizeDpConnected (ishapes : List (List Nat)) (ilabels : List (List Char))
    (olabels : List Char) (limit : Option Nat) (tis : List Nat) : Except Err CTree :=
  match (lvlAt (dpLevels ishapes ilabels olabels limit tis) ishapes.length).head? with
  | some p => .ok p.2.tree
  | none => .error .dpFail

/-! ## The tree linearizer (`_tree_to_sequence`) -/

/-- Embeds the insertion-point computation of `_tree_to_sequence`:
`p = max([0] + [j+1 for j, n in enumerate(t2) if n < t])`. -/
def pyPos (t : Nat) (l : List Nat) : Nat :=
  l.enum.foldl (fun acc p => if p.2 < t then max acc (p.1 + 1) else acc) 0

/-- Measure for the linearizer loop: internal nodes pending in `t1`. -/
def plSize (l : List (CTree × CTree)) : Nat :=
  (l.map fun p => (CTree.node p.1 p.2).isize).sum

/-- The while-loop of `_tree_to_sequence` over the pending queue `t1` of
internal nodes, the ascending list `t2` of already-placed original leaves,
and the accumulator holding the emitted steps newest-first
(`seq.insert(0, seq_new)`).  Structural over a fuel argument that counts the
pending internal nodes.  Tuple children go to the front of the queue in
reversed order (`[t for t in x if type(t) == tuple][::-1]`) and are addressed
at live positions `0`/`1`; integer children are inserted into `t2` in
ascending order and addressed after the pending queue. -/
def t2sLoop : Nat → List (CTree × CTree) → List Nat → List (Nat × Nat) → List (Nat × Nat)
  | _, [], _, acc => acc
  | 0, _ :: _, _, acc => acc
  | fuel + 1, (a, b) :: rest, t2, acc =>
    match a, b with
    | .node a1 a2, .node b1 b2 =>
      t2sLoop fuel ((b1, b2) :: (a1, a2) :: rest) t2 ((0, 1) :: acc)
    | .node a1 a2, .leaf j =>
      let p := pyPos j t2
      t2sLoop fuel ((a1, a2) :: rest) (t2.insertIdx p j) ((0, p + (rest.length + 1)) :: acc)
    | .leaf i, .node b1 b2 =>
      let p := pyPos i t2
      t2sLoop fuel ((b1, b2) :: rest) (t2.insertIdx p i) ((0, p + (rest.length + 1)) :: acc)
    | .leaf i, .leaf j =>
      let lo := min i j
      let hi := max i j
      let p1 := pyPos lo t2
      let t2a := t2.insertIdx p1 lo
      let p2 := pyPos hi t2a
      t2sLoop fuel rest (t2a.insertIdx p2 hi) ((p1 + rest.length, p2 + rest.length) :: acc)

/-- Embeds `_tree_to_sequence`.  Every loop iteration consumes exactly one
internal node from the pending queue, so fuel `plSize [(a, b)]` (the number
of internal nodes) is exact: the loop empties the queue just as the fuel runs
out. -/
def treeToSequence : CTree → List (Nat × Nat)
  | .leaf _ => []
  | .node a b => t2sLoop (plSize [(a, b)]) [(a, b)] [] []

/-- Left-fold pairing of per-component trees
(`reduce(lambda c1, c2: (c1, c2), c)`). -/
def foldPair (acc : CTree) : List CTree → CTree
  | [] => acc
  | c :: rest => foldPair (.node acc c) rest

/-- Embeds `_einsum_optimize_dp`: optimize each connected subgraph,
pair the component trees by a left fold, and linearize. -/
def einsumOptimizeDp (ishapes : List (List Nat)) (ilabels : List (List Char))
    (olabels : List Char) (limit : Option Nat) : Except Err (List (Nat × Nat)) := do
  let comps := findSubgraphs ilabels olabels
  let trees ← comps.mapM fun g =>
    einsumOptimizeDpConnected (g.map fun j => ishapes.getD j [])
      (g.map fun j => ilabels.getD j []) olabels limit g
  match trees with
  | [] => .error .dpFail
  | c :: rest => .ok (treeToSequence (foldPair c rest))

/-! ## The greedy optimizer -/

/-- Pairs `(j, k)` with `j < k < n`, in row-major scan order. -/
def pairScan (n : Nat) : List (Nat × Nat) :=
  (List.range n).flatMap fun j => (List.range' (j + 1) (n - (j + 1))).map fun k => (j, k)

/-- A candidate selected by the greedy scan. -/
structure GreedyCand where
  cost : Nat
  j : Nat
  k : Nat
  shape : List Nat
  labels : List Char
deriving DecidableEq, Repr

/-- The candidate the scan builds for the pair of live positions `p`:
the cost-model cost, the recorded pair, and the combined shape/labels. -/
def candOf (olabels : List Char) (ishapes : List (List Nat)) (ilabels : List (List Char))
    (p : Nat × Nat) : GreedyCand :=
  let c := combineOp olabels (ilabels.getD p.1 []) (ishapes.getD p.1 [])
    (ilabels.getD p.2 []) (ishapes.getD p.2 [])
  ⟨c.cost, p.1, p.2, c.shape, c.labels⟩

/-- The cost-model value assigned to a pair of live positions:
`np.prod(d1) * np.prod([d for d, f in zip(d2, m2) if f])`. -/
def candCost (olabels : List Char) (ishapes : List (List Nat)) (ilabels : List (List Char))
    (p : Nat × Nat) : Nat :=
  (candOf olabels ishapes ilabels p).cost

/-- One comparison of the greedy scan: `if cost < min_cost` keeps the
earliest minimum. -/
def greedyStep (olabels : List Char) (ishapes : List (List Nat)) (ilabels : List (List Char))
    (best : Option GreedyCand) (p : Nat × Nat) : Option GreedyCand :=
  match best with
  | none => some (candOf olabels ishapes ilabels p)
  | some b =>
    if (candOf olabels ishapes ilabels p).cost < b.cost then
      some (candOf olabels ishapes ilabels p)
    else best

/-- The inner double loop of `_einsum_optimize_greedy`: the first pair of
minimal cost in scan order, with its combined shape and labels. -/
def greedyBest (olabels : List Char) (ishapes : List (List Nat))
    (ilabels : List (List Char)) : Option GreedyCand :=
  (pairScan ilabels.length).foldl (greedyStep olabels ishapes ilabels) none

/-- The while-loop of `_einsum_optimize_greedy`: contract the cheapest pair,
record `(j, k)`, replace the two operands by the combination at the front,
until one operand remains.  Out-of-range pops (impossible on well-formed
inputs) are modelled as errors, where Python would raise an IndexError.
Structural over a fuel argument; each step shrinks the operand list by one,
so the caller's fuel of `ishapes.length` is never exhausted. -/
def greedyGo (olabels : List Char) : Nat → List (List Nat) → List (List Char) →
    Except Err (List (Nat × Nat))
  | fuel, ishapes, ilabels =>
    if ishapes.length ≤ 1 then .ok [] else
    match fuel with
    | 0 => .error .indexErr
    | fuel + 1 =>
      match greedyBest olabels ishapes ilabels with
      | none => .error .indexErr
      | some c =>
        if c.j < c.k ∧ c.k < ishapes.length ∧ c.k < ilabels.length then
          match greedyGo olabels fuel
              (((ishapes.eraseIdx c.k).eraseIdx c.j).insertIdx 0 c.shape)
              (((ilabels.eraseIdx c.k).eraseIdx c.j).insertIdx 0 c.labels) with
          | .ok seq => .ok ((c.j, c.k) :: seq)
          | .error e => .error e
        else .error .indexErr

/-- The `optimize` argument of `einsum`/`einsum_optimize`: `False`, `True`,
`'dp'` or `'greedy'` (any other value raises a ValueError, which the closed
enumeration leaves unrepresentable). -/
inductive Strategy where
  | sFalse | sTrue | sDp | sGreedy
deriving DecidableEq, Repr

/-- Embeds `einsum_optimize`: `False` gives the strict left-to-right order
`[(0, 1)] * (len(ishapes) - 1)`; `True`/`'dp'` the dynamic-programming
optimizer with the given cost limit (default `np.inf`, modelled `none`); `'greedy'` the
greedy optimizer. -/
def einsumOptimize (ishapes : List (List Nat)) (ilabels : List (List Char))
    (olabels : List Char) (strategy : Strategy) (costLimit : Option Nat) :
    Except Err (List (Nat × Nat)) :=
  match strategy with
  | .sFalse => .ok (List.replicate (ishapes.length - 1) (0, 1))
  | .sTrue => einsumOptimizeDp ishapes ilabels olabels costLimit
  | .sDp => einsumOptimizeDp ishapes ilabels olabels costLimit
  | .sGreedy => greedyGo olabels ishapes.length ishapes ilabels

/-! ## The pairwise reduction executor (`_einsum_reduction`) -/

/-- Embeds `_transpose_if_necessary`.  In Python 3 the guard
`perm != range(len(perm))` compares a list against a range object and is
always true, so the transpose is always performed (harmless: transposing by
the identity permutation is the identity). -/
def transposeIfNecessary (t : Tensor) (perm : List Nat) : Tensor := transposeT t perm

/-- Last `n` elements of a list (Python `l[-n:]` for `n ≥ 1`). -/
def lastN (n : Nat) (l : List α) : List α := l.drop (l.length - n)

/-- All but the last `n` elements of a list (Python `l[:-n]` for `n ≥ 1`). -/
def dropLastN (n : Nat) (l : List α) : List α := l.take (l.length - n)

/-- The three-way axis classification of `_einsum_reduction` as a sort key:
`0` preserved, `1` this operand's middle group (broadcast for operand 0,
summed for operand 1), `2` the rest; ties broken by the character itself
(Python sorts by the tuple `(class, a)`). -/
def rkLe (key : Char → Nat) (a b : Char) : Bool :=
  key a < key b || (key a == key b && a ≤ b)

/-- Embeds `_einsum_reduction`.  `axesToSum` is the duplicate-free list of
labels to sum over (the source's set).  Fails with `rankMismatch` when a
label string's length differs from the operand's static rank, with
`assertFail` where the source's `assert` would fire, and propagates the
static shape errors of the external reshape/matmul/multiply primitives. -/
def einsumReduction (t0 : Tensor) (l0 : List Char) (t1 : Tensor) (l1 : List Char)
    (axesToSum : List Char) : Except Err (Tensor × List Char) := do
  if l0.length ≠ t0.static.length then .error .rankMismatch else
  if l1.length ≠ t1.static.length then .error .rankMismatch else
  if ¬ axesToSum.all (fun a => l0.contains a && l1.contains a) then .error .assertFail else
  let preserved := (l0.filter fun c => l1.contains c).dedup.filter fun c => !axesToSum.contains c
  let bcast0 := l0.dedup.filter fun c => !preserved.contains c && !axesToSum.contains c
  let bcast1 := l1.dedup.filter fun c => !preserved.contains c && !axesToSum.contains c
  let key0 : Char → Nat := fun a =>
    if preserved.contains a then 0 else if bcast0.contains a then 1 else 2
  let key1 : Char → Nat := fun a =>
    if preserved.contains a then 0 else if axesToSum.contains a then 1 else 2
  let sorted0 := pySorted (rkLe key0) l0
  let sorted1 := pySorted (rkLe key1) l1
  let t0' := transposeIfNecessary t0 (sorted0.map (l0.indexOf ·))
  let t1' := transposeIfNecessary t1 (sorted1.map (l1.indexOf ·))
  if axesToSum.isEmpty then
    let t0e := (List.range bcast1.length).foldl (fun t _ => expandDimsT t t.shape.length) t0'
    let t1e := (List.range bcast0.length).foldl (fun t _ => expandDimsT t preserved.length) t1'
    let product ← mulT t0e t1e
    .ok (product, sorted0 ++ sorted1.drop preserved.length)
  else
    let t0Shape := getShapeM t0'
    let nb0 := totalSize (dropLastN axesToSum.length (t0Shape.drop preserved.length))
    let numSummed := totalSize (lastN axesToSum.length t0Shape)
    let t0R ← reshapeIfNecessary t0' (t0Shape.take preserved.length ++ [nb0, numSummed])
    let t1Shape := getShapeM t1'
    let nb1 := totalSize (t1Shape.drop (preserved.length + axesToSum.length))
    let t1R ← reshapeIfNecessary t1' (t1Shape.take preserved.length ++ [numSummed, nb1])
    let product ← matmulT t0R t1R
    let uncompacted := t0Shape.take (preserved.length + bcast0.length) ++
      lastN bcast1.length t1Shape
    let product ← reshapeIfNecessary product uncompacted
    .ok (product,
      sorted0.take (preserved.length + bcast0.length) ++ lastN bcast1.length sorted1)

/-! ## The `einsum` driver and the exponential-space fallback -/

/-- Outcome of the duplicate-label / self-trace scan. -/
inductive DupOutcome where
  | traceOut | dupErr | pass
deriving DecidableEq, Repr

/-- The inner loop over operands for one label `a` (lines 276-283): a sole
operand whose labels contain `a` exactly twice and read the same forwards and
backwards, with no `->` in the raw equation, yields the trace; otherwise a
label repeated inside one operand raises. -/
def dupScanInner (arrowFree : Bool) (ilabels : List (List Char)) (a : Char) :
    List (List Char) → Option DupOutcome
  | [] => none
  | il :: rest =>
    if ilabels.length == 1 && il.count a == 2 && il == il.reverse && arrowFree then
      some .traceOut
    else if il.count a > 1 then some .dupErr
    else dupScanInner arrowFree ilabels a rest

/-- The outer loop of the duplicate-label / self-trace scan over the label
set, modelled in sorted order (CPython's character-set order is
hash-dependent). -/
def dupScan (arrowFree : Bool) (ilabels : List (List Char)) : List Char → DupOutcome
  | [] => .pass
  | a :: rest =>
    match dupScanInner arrowFree ilabels a ilabels with
    | some o => o
    | none => dupScan arrowFree ilabels rest

/-- Which path `einsum` takes after parsing: the self-trace special case, the
duplicate-axis error, the exponential-space fallback (which emits the warning
diagnostic), or the pairwise-reduction pipeline. -/
inductive Route where
  | traceR | dupErrR | fallbackR | pairwiseR
deriving DecidableEq, Repr

/-- See `Route`: the checks of `einsum` lines 273-290.  The fallback fires
exactly when some label occurs in more than two operands' label strings and
is absent from the output labels. -/
def einsumRoute (equation : List Char) (ilabels : List (List Char))
    (olabels : List Char) : Route :=
  let axisLabels := pySet (ilabels.flatten ++ olabels)
  match dupScan (!hasArrow equation) ilabels axisLabels with
  | .traceOut => .traceR
  | .dupErr => .dupErrR
  | .pass =>
    if axisLabels.any (fun a =>
        decide ((ilabels.filter (·.contains a)).length > 2) && !olabels.contains a) then
      .fallbackR
    else .pairwiseR

/-- The contraction loop of `einsum` (lines 308-315): for each `(j, k)`, swap
so `j ≤ k`, pop position `k` then position `j`, sum the shared non-output
labels, reduce the pair, and prepend the result. -/
def einsumLoop (olabels : List Char) :
    List (Nat × Nat) → List Tensor → List (List Char) →
      Except Err (List Tensor × List (List Char))
  | [], ts, ls => .ok (ts, ls)
  | (j0, k0) :: seq, ts, ls =>
    let j := min j0 k0
    let k := max j0 k0
    match ts.get? k, ls.get? k with
    | some t2, some l2 =>
      let ts' := ts.eraseIdx k
      let ls' := ls.eraseIdx k
      match ts'.get? j, ls'.get? j with
      | some t1, some l1 =>
        let axesToSum :=
          (l1.filter fun c => l2.contains c).dedup.filter fun c => !olabels.contains c
        match einsumReduction t1 l1 t2 l2 axesToSum with
        | .ok (t3, l3) => einsumLoop olabels seq (t3 :: ts'.eraseIdx j) (l3 :: ls'.eraseIdx j)
        | .error e => .error e
      | _, _ => .error .indexErr
    | _, _ => .error .indexErr

/-- The tail of `einsum` (lines 317-332): the reduce-sum over the labels
missing from the output is bound to a local (`temp`) and never used; a
surviving label multiset differing from the output labels is an
`Invalid equation` error; otherwise the survivor is transposed to the output
label order. -/
def einsumFinish (ts : List Tensor) (ls : List (List Char)) (olabels : List Char) :
    Except Err Tensor :=
  match ts.head?, ls.head? with
  | some t, some l =>
    let missing := l.dedup.filter fun c => !olabels.contains c
    let tempAxis := (l.enum.filter fun p => !olabels.contains p.2).map (·.1)
    let temp := if missing.isEmpty then none else some (reduceSumT t tempAxis)
    let tempAxisLabels := l.filter fun c => olabels.contains c
    if pySorted charLe l ≠ pySorted charLe olabels then .error .invalidEquation
    else .ok (transposeIfNecessary t (olabels.map (l.indexOf ·)))
  | _, _ => .error .indexErr

/-- An insertion-ordered map update for the fallback's `axis_order` dict:
`axis_order[ax] = len(axis_order)` (an existing key keeps its position but
takes the current size as its new value). -/
def aoUpsert (m : List (Char × Nat)) (c : Char) : List (Char × Nat) :=
  match m.find? (·.1 == c) with
  | some _ => m.map fun p => if p.1 == c then (c, m.length) else p
  | none => m ++ [(c, m.length)]

/-- The `axis_order` dict of `_exponential_space_einsum`: non-output labels
first in sorted order, then the output labels in output-string order. -/
def axisOrder (idxAll idxOut : List Char) : List (Char × Nat) :=
  (idxAll.filter (fun c => !idxOut.contains c) ++ idxOut).foldl aoUpsert []

/-- `axis_order.get` (total on the labels that occur in the equation). -/
def aoGet (m : List (Char × Nat)) (c : Char) : Nat :=
  ((m.find? (·.1 == c)).map (·.2)).getD 0

/-- Per-operand preparation of the fallback (lines 811-829): rank check, sort
the operand's labels into the canonical axis order, duplicate check, and
transpose when the order changes. -/
def fallbackPrep (ao : List (Char × Nat)) (t : Tensor) (axes : List Char) :
    Except Err (Tensor × List Char) := do
  if t.static.length ≠ axes.length then .error .rankMismatch else
  let sortedIdx := pySorted (fun a b => aoGet ao a ≤ aoGet ao b) axes
  if axes.dedup.length ≠ axes.length then .error .dupAxis else
  if axes ≠ sortedIdx then
    .ok (transposeT t (sortedIdx.map (axes.indexOf ·)), sortedIdx)
  else .ok (t, axes)

/-- The broadcast-validation and axis-insertion loop of the fallback (lines
831-851): walk the canonical axis order; insert a size-1 axis into each
operand lacking the label; collect statically known sizes greater than 1 and
fail on disagreement; record the positions of axes missing from the
output. -/
def alignStep (idxOut : List Char) (idxIn : List (List Char))
    (st : List (List Int) × List Nat) (p : Nat × Char) :
    Except Err (List (List Int) × List Nat) :=
  let j := p.1
  let ax := p.2
  let shapes := (st.1.zip idxIn).map fun q =>
    if q.2.contains ax then q.1 else q.1.insertIdx j 1
  let dims := (st.1.zip idxIn).filterMap fun q =>
    if q.2.contains ax then
      let dim := q.1.getD j 0
      if dim > 1 then some dim else none
    else none
  if dims.dedup.length > 1 then .error .dimMismatch
  else .ok (shapes, if idxOut.contains ax then st.2 else st.2 ++ [j])

/-- See `alignStep`: the loop itself. -/
def fallbackAlign (idxOut : List Char) (idxIn : List (List Char)) (sortedAll : List Char)
    (shapes0 : List (List Int)) : Except Err (List (List Int) × List Nat) :=
  sortedAll.enum.foldlM (alignStep idxOut idxIn) (shapes0, [])

/-- Modelled from the spec: the external reshape primitive as the fallback
calls it, with integer targets where `-1` stands for a deferred dimension (or
a zero one, a Python falsiness quirk of line 832).  A single `-1` is inferred
from the element count; with no `-1` the static element-count check
applies. -/
def fallbackReshape (t : Tensor) (ns : List Int) : Except Err Tensor :=
  let negs := ns.count (-1)
  if negs == 0 then
    if t.static.all Option.isSome ∧ t.shape.prod ≠ (ns.map Int.toNat).prod then
      .error .shapeMismatch
    else .ok (reshapeRaw t (ns.map Int.toNat) (ns.map fun d => some d.toNat))
  else if negs == 1 then
    let knownProd := ((ns.filter (· ≠ -1)).map Int.toNat).prod
    let inferred := t.shape.prod / (if knownProd = 0 then 1 else knownProd)
    .ok (reshapeRaw t (ns.map fun d => if d = -1 then inferred else d.toNat)
      (ns.map fun d => if d = -1 then none else some d.toNat))
  else .error .shapeMismatch

/-- Modelled from the spec: the constant scalar `1`, initial value of the
fallback's product accumulator (`expanded_output = 1`). -/
def oneScalarT : Tensor := { shape := [], static := [], data := fun _ => 1 }

/-- Embeds `_exponential_space_einsum`. -/
def exponentialSpaceEinsum (equation : List Char) (inputs : List Tensor) :
    Except Err Tensor := do
  let (idxIn0, idxOut) ← parseEq equation (inputs.map (·.static))
  let idxAll := pySet (idxIn0.flatten ++ idxOut)
  let missing := idxOut.dedup.filter fun c => !idxAll.contains c
  if ¬ missing.isEmpty then .error .unknownOutput else
  let ao := axisOrder idxAll idxOut
  let prepped ← (inputs.zip idxIn0).mapM fun p => fallbackPrep ao p.1 p.2
  let inputs' := prepped.map (·.1)
  let idxIn := prepped.map (·.2)
  let shapes0 : List (List Int) := inputs'.map fun t => t.static.map fun d =>
    match d with
    | some v => if v = 0 then (-1 : Int) else (v : Int)
    | none => -1
  let sortedAll := pySorted (fun a b => aoGet ao a ≤ aoGet ao b) idxAll
  let (shapes, reductionIdx) ← fallbackAlign idxOut idxIn sortedAll shapes0
  let expanded ← (inputs'.zip shapes).mapM fun p => fallbackReshape p.1 p.2
  let product ← expanded.foldlM mulT oneScalarT
  .ok (reduceSumT product reductionIdx)

/-- Embeds the `einsum` driver (lines 258-332), minus the graph name-scoping
and the TPU/XLA dispatch (device placement is out of scope per the spec).
The returned Boolean records whether the exponential-space fallback's warning
diagnostic was emitted.  Statically deferred dimensions force `optimize` off
(line 270); when the optimizer does run, every static shape is fully known,
so passing the runtime shapes (`t.shape.as_list()`) to it is faithful for
well-formed tensors. -/
def einsum (strategy : Strategy) (equation : List Char) (inputs : List Tensor) :
    Except Err (Tensor × Bool) := do
  let (ilabels, olabels) ← parseEq equation (inputs.map (·.static))
  let strat := if inputs.any (fun t => t.static.any Option.isNone) then .sFalse else strategy
  match einsumRoute equation ilabels olabels with
  | .traceR =>
    match inputs.head? with
    | some t0 => do
      let tr ← traceT t0
      .ok (tr, false)
    | none => .error .indexErr
  | .dupErrR => .error .dupAxis
  | .fallbackR => do
    let t ← exponentialSpaceEinsum equation inputs
    .ok (t, true)
  | .pairwiseR => do
    let seq ← einsumOptimize (inputs.map (·.shape)) ilabels olabels strat none
    let (ts, ls) ← einsumLoop olabels seq inputs ilabels
    let t ← einsumFinish ts ls olabels
    .ok (t, false)

/-! ## Helpers for concrete instances -/

/-- A fully known tensor from a shape and row-major entries. -/
def mkTensor (shape : List Nat) (vals : List Int) : Tensor :=
  { shape := shape, static := shape.map some, data := fun idx => vals.getD (flat shape idx) 0 }

/-- The error of an `Except`, if any (a decidable projection of results whose
success values contain functions). -/
def errCode : Except Err α → Option Err
  | .error e => some e
  | .ok _ => none

/-- Whether an `Except` succeeded. -/
def isOkE : Except Err α → Bool
  | .error _ => false
  | .ok _ => true

/-! ## C10: statically unknown dimensions force `optimize = False` -/

/-- A rank-2 tensor whose second dimension is statically unknown. -/
def unknownDimTensor : Tensor :=
  { shape := [2, 2], static := [some 2, none], data := fun _ => 0 }

/-- **C10.** Whenever any input tensor has a statically unknown (`None`)
dimension, `einsum` silently forces `optimize` to `False` — the whole run
equals the `optimize=False` run, whatever strategy was requested — and the
`False` strategy's contraction sequence is the strict left-to-right order
`[(0, 1)] * (N - 1)`. -/
theorem einsum_unknown_dim_forces_left_to_right (strategy : Strategy) (equation : List Char)
    (inputs : List Tensor) (h : ∃ t ∈ inputs, none ∈ t.static) :
    einsum strategy equation inputs = einsum .sFalse equation inputs ∧
      ∀ (shapes : List (List Nat)) (il : List (List Char)) (ol : List Char),
        einsumOptimize shapes il ol .sFalse none = .ok (List.replicate (shapes.length - 1) (0, 1)) := by
  constructor
  · have hc : (inputs.any fun t => t.static.any Option.isNone) = true := by
      obtain ⟨t, ht, hn⟩ := h
      simp only [List.any_eq_true]
      exact ⟨t, ht, none, hn, rfl⟩
    simp only [einsum, hc, if_true]
  · intro shapes il ol
    rfl

/-- Witness for C10 at a concrete input. -/
theorem einsum_unknown_dim_forces_left_to_right_witness :
    einsum .sTrue ['i', 'j'] [unknownDimTensor] = einsum .sFalse ['i', 'j'] [unknownDimTensor] ∧
      ∀ (shapes : List (List Nat)) (il : List (List Char)) (ol : List Char),
        einsumOptimize shapes il ol .sFalse none = .ok (List.replicate (shapes.length - 1) (0, 1)) :=
  einsum_unknown_dim_forces_left_to_right .sTrue ['i', 'j'] [unknownDimTensor]
    ⟨unknownDimTensor, by simp, by simp [unknownDimTensor]⟩

/-! ## C9: leftover non-output labels raise `Invalid equation` -/

/-- **C9.** Whenever the single surviving operand's label string contains a
label absent from the resolved output labels, the tail of `einsum` raises the
`Invalid equation` error instead of returning the reduce-summed tensor (the
`temp` binding of `einsumFinish` is discarded); in particular the full driver
fails so on `einsum('ij->i', m)`. -/
theorem einsum_leftover_label_invalid_equation (ts : List Tensor) (ls : List (List Char))
    (olabels : List Char) (t : Tensor) (l : List Char)
    (ht : ts.head? = some t) (hl : ls.head? = some l) (h : ∃ a ∈ l, a ∉ olabels) :
    einsumFinish ts ls olabels = .error .invalidEquation ∧
      errCode (einsum .sTrue ['i', 'j', '-', '>', 'i'] [mkTensor [2, 3] [1, 2, 3, 4, 5, 6]]) =
        some .invalidEquation := by
  refine ⟨?_, by decide⟩
  obtain ⟨a, ha, hno⟩ := h
  have hne : pySorted charLe l ≠ pySorted charLe olabels := by
    intro he
    exact hno (mem_pySorted.mp (he ▸ mem_pySorted.mpr ha))
  simp [einsumFinish, ht, hl, hne]

/-- Witness for C9 at a concrete input (`'ij,jk->i'` leaves the label `k`). -/
theorem einsum_leftover_label_invalid_equation_witness :
    einsumFinish [mkTensor [2, 3] [1, 2, 3, 4, 5, 6]] [['i', 'k']] ['i'] =
        .error .invalidEquation ∧
      errCode (einsum .sTrue ['i', 'j', '-', '>', 'i'] [mkTensor [2, 3] [1, 2, 3, 4, 5, 6]]) =
        some .invalidEquation :=
  einsum_leftover_label_invalid_equation _ _ _ _ _ rfl rfl ⟨'k', by decide, by decide⟩

/-- Does a driver result succeed with a tensor extensionally equal to the
given one? -/
def okTensorBeq (r : Except Err (Tensor × Bool)) (t : Tensor) : Bool :=
  match r with
  | .ok p => tensorBeq p.1 t
  | .error _ => false

/-- Does a fallback result succeed with a tensor extensionally equal to the
given one? -/
def okTensorBeqF (r : Except Err Tensor) (t : Tensor) : Bool :=
  match r with
  | .ok t' => tensorBeq t' t
  | .error _ => false

/-! ## C3: the cost ceiling and the memo table -/

/-- **C3 counterexample.** With a cost ceiling of 1, the unique candidate for
the subset `{0, 1}` of `ij,jk->ik` on two 2×2 operands has total cost 8 —
above the ceiling — and is nevertheless stored in the memo table: the guard
`s not in x[m] or total_cost < min(x[m][s][2], cost_limit)` stores the first
candidate for a subset unconditionally. -/
theorem dp_memo_stores_cost_above_limit :
    (dpLookup (lvlAt (dpLevels [[2, 2], [2, 2]] [['i', 'j'], ['j', 'k']] ['i', 'k']
          (some 1) [0, 1]) 2) [0, 1]).map DpEntry.cost = some 8 ∧ (1 : Nat) < 8 := by
  decide

/-- A memo entry whose key was found is rewritten to the new entry by the
replacement map of `dpStore`. -/
theorem dpLookup_map_replace (s : SKey) (e : DpEntry) :
    ∀ lvl : DpLevel, (dpLookup lvl s).isSome →
      dpLookup (lvl.map fun p => if p.1 == s then (s, e) else p) s = some e := by
  intro lvl
  induction lvl with
  | nil => intro h; simp [dpLookup] at h
  | cons hd tl ih =>
    intro h
    simp only [dpLookup, List.map_cons] at h ⊢
    by_cases hbeq : (hd.1 == s) = true
    · rw [if_pos hbeq]
      rw [@List.find?_cons_of_pos _ (fun q : SKey × DpEntry => q.1 == s) (s, e) _ (by simp)]
      rfl
    · rw [if_neg hbeq]
      rw [@List.find?_cons_of_neg _ (fun q : SKey × DpEntry => q.1 == s) hd _ (by simp [hbeq])] at h
      rw [@List.find?_cons_of_neg _ (fun q : SKey × DpEntry => q.1 == s) hd _ (by simp [hbeq])]
      exact ih h

/-- **C3 (amended).** Once a subset already has a memo entry, a candidate is
recorded only when its total cost is strictly below both the stored cost and
the cost ceiling; so any entry that replaces another respects the ceiling
(only the very first candidate for a subset can be stored above it, as the
counterexample shows). -/
theorem dp_store_ceiling_discipline (lim : Nat) (lvl : DpLevel) (s : SKey)
    (e old e' : DpEntry) (h : dpLookup lvl s = some old)
    (h' : dpLookup (dpStore (some lim) lvl s e) s = some e') :
    e' = old ∨ (e'.cost < old.cost ∧ e'.cost < lim) := by
  simp only [dpStore, h] at h'
  by_cases hc : costBeats e.cost old.cost (some lim) = true
  · rw [if_pos hc] at h'
    rw [dpLookup_map_replace s e lvl (by simp [h])] at h'
    cases Option.some.inj h'
    right
    simp only [costBeats, decide_eq_true_eq] at hc
    omega
  · rw [if_neg hc] at h'
    rw [h] at h'
    cases Option.some.inj h'
    left
    rfl

/-- Witness for the amended C3: the stored cost-8 entry for `{0, 1}` is not
replaced by re-running the same candidate under ceiling 1. -/
theorem dp_store_ceiling_discipline_witness :
    (⟨[2, 2], ['i', 'k'], 8, .node (.leaf 0) (.leaf 1)⟩ : DpEntry) =
        ⟨[2, 2], ['i', 'k'], 8, .node (.leaf 0) (.leaf 1)⟩ ∨
      ((⟨[2, 2], ['i', 'k'], 8, .node (.leaf 0) (.leaf 1)⟩ : DpEntry).cost < 8 ∧
        (⟨[2, 2], ['i', 'k'], 8, .node (.leaf 0) (.leaf 1)⟩ : DpEntry).cost < 1) :=
  dp_store_ceiling_discipline 1
    [([0, 1], ⟨[2, 2], ['i', 'k'], 8, .node (.leaf 0) (.leaf 1)⟩)] [0, 1]
    ⟨[2, 2], ['i', 'k'], 9, .node (.leaf 0) (.leaf 1)⟩
    ⟨[2, 2], ['i', 'k'], 8, .node (.leaf 0) (.leaf 1)⟩
    ⟨[2, 2], ['i', 'k'], 8, .node (.leaf 0) (.leaf 1)⟩
    (by decide) (by decide)

/-! ## C5: routing to the exponential-space fallback -/

/-- The warning flag of a driver result (false on error). -/
def warnFlag : Except Err (Tensor × Bool) → Bool
  | .ok p => p.2
  | .error _ => false

/-- Reference brute-force sum for `'ij,ik,il->jkl'` on the three concrete 2×2
operands of the C5 instance: `out[j,k,l] = Σ_i a[i,j] · b[i,k] · c[i,l]`. -/
def bruteJKL : Tensor :=
  { shape := [2, 2, 2], static := [some 2, some 2, some 2]
    data := fun idx => ∑ i ∈ Finset.range 2,
      (mkTensor [2, 2] [1, 2, 3, 4]).data [i, idx.getD 0 0] *
        (mkTensor [2, 2] [5, 6, 7, 8]).data [i, idx.getD 1 0] *
        (mkTensor [2, 2] [9, 10, 11, 12]).data [i, idx.getD 2 0] }

/-- **C5.** Once parsing and the duplicate-label/self-trace checks pass,
`einsum` routes to the exponential-space fallback iff some label occurs in
more than two operands' label strings and is absent from the output labels;
on that route it returns the fallback's result together with the warning
diagnostic.  Concretely, `ij,jk,kl->il` takes the pairwise route, while
`ij,ik,il->jkl` takes the fallback, warns, and equals the brute-force
broadcast-and-sum reference. -/
theorem einsum_fallback_route_characterization :
    (∀ (equation : List Char) (ilabels : List (List Char)) (olabels : List Char),
      dupScan (!hasArrow equation) ilabels (pySet (ilabels.flatten ++ olabels)) = .pass →
        (einsumRoute equation ilabels olabels = .fallbackR ↔
          ∃ a, 2 < (ilabels.filter (·.contains a)).length ∧ a ∉ olabels)) ∧
    (∀ (strategy : Strategy) (equation : List Char) (inputs : List Tensor)
        (ilabels : List (List Char)) (olabels : List Char),
      parseEq equation (inputs.map (·.static)) = .ok (ilabels, olabels) →
      einsumRoute equation ilabels olabels = .fallbackR →
        einsum strategy equation inputs =
          (exponentialSpaceEinsum equation inputs).map fun t => (t, true)) ∧
    einsumRoute ['i', 'j', ',', 'j', 'k', ',', 'k', 'l', '-', '>', 'i', 'l']
        [['i', 'j'], ['j', 'k'], ['k', 'l']] ['i', 'l'] = .pairwiseR ∧
    einsumRoute ['i', 'j', ',', 'i', 'k', ',', 'i', 'l', '-', '>', 'j', 'k', 'l']
        [['i', 'j'], ['i', 'k'], ['i', 'l']] ['j', 'k', 'l'] = .fallbackR ∧
    okTensorBeq (einsum .sTrue ['i', 'j', ',', 'i', 'k', ',', 'i', 'l', '-', '>', 'j', 'k', 'l']
        [mkTensor [2, 2] [1, 2, 3, 4], mkTensor [2, 2] [5, 6, 7, 8],
          mkTensor [2, 2] [9, 10, 11, 12]]) bruteJKL = true ∧
    warnFlag (einsum .sTrue ['i', 'j', ',', 'i', 'k', ',', 'i', 'l', '-', '>', 'j', 'k', 'l']
        [mkTensor [2, 2] [1, 2, 3, 4], mkTensor [2, 2] [5, 6, 7, 8],
          mkTensor [2, 2] [9, 10, 11, 12]]) = true := by
  refine ⟨?_, ?_, by decide, by decide, by decide, by decide⟩
  · intro equation ilabels olabels hpass
    simp only [einsumRoute, hpass]
    by_cases hany : ((pySet (ilabels.flatten ++ olabels)).any fun a =>
        decide (2 < (ilabels.filter (·.contains a)).length) && !olabels.contains a) = true
    · simp only [hany, if_true, true_iff]
      obtain ⟨a, _, hcond⟩ := List.any_eq_true.mp hany
      refine ⟨a, ?_, ?_⟩
      · exact of_decide_eq_true (Bool.and_elim_left hcond)
      · have := Bool.and_elim_right hcond
        simp only [Bool.not_eq_true'] at this
        simpa using this
    · simp only [hany, if_false]
      constructor
      · intro hcontra
        cases hcontra
      · rintro ⟨a, hlen, hout⟩
        exfalso
        apply hany
        rw [List.any_eq_true]
        refine ⟨a, ?_, ?_⟩
        · have hpos : 0 < (ilabels.filter (·.contains a)).length := by omega
          obtain ⟨x, hx⟩ := List.exists_mem_of_length_pos hpos
          have hx' := List.mem_filter.mp hx
          simp only [pySet]
          rw [mem_pySorted, List.mem_dedup, List.mem_append]
          left
          rw [List.mem_flatten]
          exact ⟨x, hx'.1, by simpa using hx'.2⟩
        · rw [Bool.and_eq_true]
          refine ⟨decide_eq_true hlen, ?_⟩
          simpa using hout
  · intro strategy equation inputs ilabels olabels hp hroute
    cases hE : exponentialSpaceEinsum equation inputs <;>
      simp [einsum, hp, hroute, hE, Except.map, Bind.bind, Except.bind]

/-- Witness for C5: the fallback-route consequence instantiated on
`ij,ik,il->jkl` over three concrete operands. -/
theorem einsum_fallback_route_characterization_witness :
    einsum .sGreedy ['i', 'j', ',', 'i', 'k', ',', 'i', 'l', '-', '>', 'j', 'k', 'l']
        [mkTensor [2, 2] [1, 2, 3, 4], mkTensor [2, 2] [5, 6, 7, 8],
          mkTensor [2, 2] [9, 10, 11, 12]] =
      (exponentialSpaceEinsum ['i', 'j', ',', 'i', 'k', ',', 'i', 'l', '-', '>', 'j', 'k', 'l']
        [mkTensor [2, 2] [1, 2, 3, 4], mkTensor [2, 2] [5, 6, 7, 8],
          mkTensor [2, 2] [9, 10, 11, 12]]).map (fun t => (t, true)) :=
  einsum_fallback_route_characterization.2.1 .sGreedy
    ['i', 'j', ',', 'i', 'k', ',', 'i', 'l', '-', '>', 'j', 'k', 'l']
    [mkTensor [2, 2] [1, 2, 3, 4], mkTensor [2, 2] [5, 6, 7, 8],
      mkTensor [2, 2] [9, 10, 11, 12]]
    [['i', 'j'], ['i', 'k'], ['i', 'l']] ['j', 'k', 'l'] (by rfl) (by decide)

/-! ## C6: duplicate labels and the self-trace special case -/

/-- When no label/operand pair satisfies the self-trace condition, the inner
scan reports a duplicate iff some operand in the remaining list repeats the
label. -/
theorem dupScanInner_no_trace (arrowFree : Bool) (ilabels : List (List Char)) (a : Char) :
    ∀ lst : List (List Char),
      (∀ il ∈ lst,
        ¬(ilabels.length == 1 && il.count a == 2 && il == il.reverse && arrowFree) = true) →
      dupScanInner arrowFree ilabels a lst =
        if lst.any (fun il => decide (1 < il.count a)) then some .dupErr else none := by
  intro lst
  induction lst with
  | nil => intro _; simp [dupScanInner]
  | cons il rest ih =>
    intro h
    have hhd := h il (by simp)
    rw [dupScanInner, if_neg hhd]
    by_cases hc : 1 < il.count a
    · simp [hc]
    · have : ¬ (il.count a > 1) := hc
      rw [if_neg this]
      rw [ih fun x hx => h x (by simp [hx])]
      simp [List.any_cons, hc]

/-- When no label/operand pair satisfies the self-trace condition, the scan
raises the duplicate error iff some scanned label repeats inside some
operand, and passes otherwise. -/
theorem dupScan_no_trace (arrowFree : Bool) (ilabels : List (List Char))
    (hno : ∀ (a : Char), ∀ il ∈ ilabels,
      ¬(ilabels.length == 1 && il.count a == 2 && il == il.reverse && arrowFree) = true) :
    ∀ scanned : List Char,
      dupScan arrowFree ilabels scanned =
        if scanned.any (fun a => ilabels.any fun il => decide (1 < il.count a)) then .dupErr
        else .pass := by
  intro scanned
  induction scanned with
  | nil => simp [dupScan]
  | cons a rest ih =>
    rw [dupScan, dupScanInner_no_trace arrowFree ilabels a ilabels (hno a)]
    by_cases hc : (ilabels.any fun il => decide (1 < il.count a)) = true
    · simp [hc]
    · simp only [hc, if_false]
      rw [ih]
      simp [List.any_cons, hc]

/-- With a sole palindromic operand, no arrow, and no label repeated more
than twice, the scan yields the self-trace outcome as soon as some scanned
label occurs exactly twice. -/
theorem dupScan_single_trace (l : List Char) (hpal : l = l.reverse)
    (hbound : ∀ a : Char, l.count a ≤ 2) :
    ∀ scanned : List Char, (∃ a ∈ scanned, l.count a = 2) →
      dupScan true [l] scanned = .traceOut := by
  intro scanned
  induction scanned with
  | nil => rintro ⟨a, ha, _⟩; cases ha
  | cons a0 rest ih =>
    rintro ⟨a, ha, hcount⟩
    rw [dupScan]
    by_cases h0 : l.count a0 = 2
    · rw [dupScanInner, if_pos (by simp [h0, hpal.symm])]
    · have hle : l.count a0 ≤ 1 := by have := hbound a0; omega
      rw [dupScanInner, if_neg (by simp [h0]), if_neg (by omega), dupScanInner]
      have : a ∈ rest := by
        rcases List.mem_cons.mp ha with h | h
        · exact absurd (h ▸ hcount) h0
        · exact h
      exact ih ⟨a, this, hcount⟩

/-- **C6 counterexample.** `aabbaa` on a single operand with no `->` is a
palindrome in which the label `b` occurs exactly twice, so the claim's
exception applies and the trace should be returned; but the label `a` occurs
four times, and the scan (modelled in sorted label order) reaches `a` first
and raises the duplicate-axis error instead. -/
theorem einsum_palindrome_mixed_counts_raises :
    errCode (einsum .sTrue ['a', 'a', 'b', 'b', 'a', 'a']
        [mkTensor [1, 1, 1, 1, 1, 1] [7]]) = some .dupAxis ∧
      (['a', 'a', 'b', 'b', 'a', 'a'] : List Char).count 'b' = 2 ∧
      (['a', 'a', 'b', 'b', 'a', 'a'] : List Char) =
        (['a', 'a', 'b', 'b', 'a', 'a'] : List Char).reverse ∧
      hasArrow ['a', 'a', 'b', 'b', 'a', 'a'] = false := by
  decide

/-- **C6 (amended).** A label repeated inside one operand's label string is a
`dupAxis` error whenever the self-trace shape is absent — several operands,
or a non-palindromic string, or an explicit `->`, or no label occurring
exactly twice.  When there is exactly one operand, no `->`, the label string
is a palindrome, some label occurs exactly twice and **no label occurs more
than twice**, `einsum` returns the trace of the operand; in particular
`einsum('ii', m)` on a square matrix returns the sum of its diagonal.
(When a count-2 label and a count->2 label coexist in a palindrome, the
outcome depends on the set-iteration order, as the counterexample shows for
the sorted model.) -/
theorem einsum_duplicate_axis_behavior :
    (∀ (strategy : Strategy) (equation : List Char) (inputs : List Tensor)
        (ilabels : List (List Char)) (olabels : List Char),
      parseEq equation (inputs.map (·.static)) = .ok (ilabels, olabels) →
      (∃ il ∈ ilabels, ∃ a : Char, 1 < il.count a) →
      ¬(∃ l, ilabels = [l] ∧ l = l.reverse ∧ hasArrow equation = false) →
      einsum strategy equation inputs = .error .dupAxis) ∧
    (∀ (strategy : Strategy) (equation : List Char) (inputs : List Tensor)
        (l : List Char) (olabels : List Char),
      parseEq equation (inputs.map (·.static)) = .ok ([l], olabels) →
      l = l.reverse → hasArrow equation = false →
      (∀ a : Char, l.count a ≠ 2) →
      (∃ a : Char, 1 < l.count a) →
      einsum strategy equation inputs = .error .dupAxis) ∧
    (∀ (strategy : Strategy) (equation : List Char) (inputs : List Tensor)
        (t0 : Tensor) (l : List Char) (olabels : List Char),
      parseEq equation (inputs.map (·.static)) = .ok ([l], olabels) →
      inputs.head? = some t0 →
      l = l.reverse → hasArrow equation = false →
      (∃ a : Char, l.count a = 2) →
      (∀ a : Char, l.count a ≤ 2) →
      einsum strategy equation inputs = (traceT t0).map fun tr => (tr, false)) ∧
    (∀ (n : Nat) (t : Tensor), t.shape = [n, n] → t.static = [some n, some n] →
      ∃ tr, einsum .sTrue ['i', 'i'] [t] = .ok (tr, false) ∧ tr.shape = [] ∧
        tr.data [] = ∑ i ∈ Finset.range n, t.data [i, i]) := by
  refine ⟨?_, ?_, ?_, ?_⟩
  · intro strategy equation inputs ilabels olabels hp hdup hnot
    have hno : ∀ (a : Char), ∀ il ∈ ilabels,
        ¬(ilabels.length == 1 && il.count a == 2 && il == il.reverse &&
          !hasArrow equation) = true := by
      intro a il hil hcontra
      simp only [Bool.and_eq_true, beq_iff_eq, Bool.not_eq_true'] at hcontra
      obtain ⟨⟨⟨hlen, _⟩, hpal⟩, harrow⟩ := hcontra
      obtain ⟨x, rfl⟩ := List.length_eq_one.mp hlen
      have hx : il = x := by simpa using hil
      exact hnot ⟨il, by rw [hx], hpal, harrow⟩
    obtain ⟨il, hil, a, ha⟩ := hdup
    have hroute : einsumRoute equation ilabels olabels = .dupErrR := by
      rw [einsumRoute, dupScan_no_trace _ _ hno, if_pos]
      rw [List.any_eq_true]
      refine ⟨a, ?_, ?_⟩
      · have hmem : a ∈ il := List.count_pos_iff.mp (by omega)
        simp only [pySet]
        rw [mem_pySorted, List.mem_dedup, List.mem_append]
        exact Or.inl (List.mem_flatten.mpr ⟨il, hil, hmem⟩)
      · rw [List.any_eq_true]
        exact ⟨il, hil, decide_eq_true ha⟩
    simp [einsum, hp, hroute, Bind.bind, Except.bind]
  · intro strategy equation inputs l olabels hp hpal harrow hne2 hdup
    have hno : ∀ (a : Char), ∀ il ∈ ([l] : List (List Char)),
        ¬(([l] : List (List Char)).length == 1 && il.count a == 2 && il == il.reverse &&
          !hasArrow equation) = true := by
      intro a il hil hcontra
      simp only [Bool.and_eq_true, beq_iff_eq] at hcontra
      have : il = l := by simpa using hil
      exact hne2 a (this ▸ hcontra.1.1.2)
    obtain ⟨a, ha⟩ := hdup
    have hroute : einsumRoute equation [l] olabels = .dupErrR := by
      rw [einsumRoute, dupScan_no_trace _ _ hno, if_pos]
      rw [List.any_eq_true]
      refine ⟨a, ?_, ?_⟩
      · have hmem : a ∈ l := List.count_pos_iff.mp (by omega)
        simp only [pySet]
        rw [mem_pySorted, List.mem_dedup, List.mem_append]
        exact Or.inl (List.mem_flatten.mpr ⟨l, by simp, hmem⟩)
      · rw [List.any_eq_true]
        exact ⟨l, by simp, decide_eq_true ha⟩
    simp [einsum, hp, hroute, Bind.bind, Except.bind]
  · intro strategy equation inputs t0 l olabels hp hhead hpal harrow hex hbound
    have harrow' : (!hasArrow equation) = true := by simp [harrow]
    obtain ⟨a, ha⟩ := hex
    have hroute : einsumRoute equation [l] olabels = .traceR := by
      rw [einsumRoute, harrow']
      rw [dupScan_single_trace l hpal hbound]
      refine ⟨a, ?_, ha⟩
      have hmem : a ∈ l := List.count_pos_iff.mp (by omega)
      simp only [pySet]
      rw [mem_pySorted, List.mem_dedup, List.mem_append]
      exact Or.inl (List.mem_flatten.mpr ⟨l, by simp, hmem⟩)
    cases htt : traceT t0 <;>
      simp [einsum, hp, hroute, hhead, htt, Except.map, Bind.bind, Except.bind]
  · intro n t h1 h2
    have hparse : parseEq ['i', 'i'] [t.static] = .ok ([['i', 'i']], []) := rfl
    have hroute : einsumRoute ['i', 'i'] [['i', 'i']] [] = .traceR := by decide
    have htt : traceT t = .ok
        { shape := t.shape.take (t.shape.length - 2)
          static := t.static.take (t.shape.length - 2)
          data := fun idx => ∑ i ∈ Finset.range
            (min (t.shape.getD (t.shape.length - 2) 0) (t.shape.getD (t.shape.length - 1) 0)),
            t.data (idx ++ [i, i]) } := by
      rw [traceT, if_neg (by rw [h2]; simp)]
    refine ⟨{ shape := t.shape.take (t.shape.length - 2)
              static := t.static.take (t.shape.length - 2)
              data := fun idx => ∑ i ∈ Finset.range
                (min (t.shape.getD (t.shape.length - 2) 0)
                  (t.shape.getD (t.shape.length - 1) 0)),
                t.data (idx ++ [i, i]) }, ?_, ?_, ?_⟩
    · simp [einsum, hparse, hroute, htt, Bind.bind, Except.bind]
    · simp [h1]
    · simp [h1, min_self]

/-- Witness for the amended C6: `einsum('ii', m)` on a concrete 2×2 matrix is
the trace of `m`. -/
theorem einsum_duplicate_axis_behavior_witness :
    einsum .sTrue ['i', 'i'] [mkTensor [2, 2] [1, 2, 3, 4]] =
      (traceT (mkTensor [2, 2] [1, 2, 3, 4])).map (fun tr => (tr, false)) :=
  einsum_duplicate_axis_behavior.2.2.1 .sTrue ['i', 'i'] [mkTensor [2, 2] [1, 2, 3, 4]]
    (mkTensor [2, 2] [1, 2, 3, 4]) ['i', 'i'] [] (by rfl) (by rfl) (by decide) (by decide)
    ⟨'i', by decide⟩
    (by
      intro a
      by_cases h : a = 'i'
      · subst h; decide
      · rw [List.count_eq_zero_of_not_mem (by simp [h])]
        omega)

/-! ## C8: the greedy optimizer -/

/-- Membership in the row-major pair scan. -/
theorem pairScan_mem {n : Nat} {p : Nat × Nat} :
    p ∈ pairScan n ↔ p.1 < p.2 ∧ p.2 < n := by
  cases p with
  | mk j k =>
    simp only [pairScan, List.mem_flatMap, List.mem_map, List.mem_range, List.mem_range'_1]
    constructor
    · rintro ⟨j', hj', k', hk', heq⟩
      cases heq
      omega
    · rintro ⟨h1, h2⟩
      exact ⟨j, by omega, k, by omega, rfl⟩

/-- The greedy fold from an existing best candidate: it returns the first
cost-minimum among the old best and the scanned pairs. -/
theorem greedyFold_spec (olabels : List Char) (ishapes : List (List Nat))
    (ilabels : List (List Char)) :
    ∀ (l : List (Nat × Nat)) (b : GreedyCand),
      ∃ c, l.foldl (greedyStep olabels ishapes ilabels) (some b) = some c ∧
        c.cost ≤ b.cost ∧ (∀ p ∈ l, c.cost ≤ candCost olabels ishapes ilabels p) ∧
        (c = b ∨ ∃ l1 p l2, l = l1 ++ p :: l2 ∧ c = candOf olabels ishapes ilabels p ∧
          c.cost < b.cost ∧ ∀ q ∈ l1, c.cost < candCost olabels ishapes ilabels q) := by
  intro l
  induction l with
  | nil => intro b; exact ⟨b, rfl, le_refl _, by simp, Or.inl rfl⟩
  | cons x xs ih =>
    intro b
    rw [List.foldl_cons]
    by_cases hbeat : (candOf olabels ishapes ilabels x).cost < b.cost
    · have hstep : greedyStep olabels ishapes ilabels (some b) x =
          some (candOf olabels ishapes ilabels x) := by
        simp [greedyStep, hbeat]
      rw [hstep]
      obtain ⟨c, hc, hle, hall, hdisj⟩ := ih (candOf olabels ishapes ilabels x)
      refine ⟨c, hc, by omega, ?_, ?_⟩
      · intro p hp
        rcases List.mem_cons.mp hp with rfl | hp'
        · exact hle
        · exact hall p hp'
      · rcases hdisj with rfl | ⟨l1, p, l2, hsplit, hcand, hlt, hl1⟩
        · exact Or.inr ⟨[], x, xs, rfl, rfl, hbeat, by simp⟩
        · refine Or.inr ⟨x :: l1, p, l2, by simp [hsplit], hcand, by omega, ?_⟩
          intro q hq
          rcases List.mem_cons.mp hq with rfl | hq'
          · simpa [candCost] using hlt
          · exact hl1 q hq'
    · have hstep : greedyStep olabels ishapes ilabels (some b) x = some b := by
        simp [greedyStep, hbeat]
      rw [hstep]
      obtain ⟨c, hc, hle, hall, hdisj⟩ := ih b
      refine ⟨c, hc, hle, ?_, ?_⟩
      · intro p hp
        rcases List.mem_cons.mp hp with rfl | hp'
        · have : b.cost ≤ candCost olabels ishapes ilabels p := by
            simp only [candCost]; omega
          omega
        · exact hall p hp'
      · rcases hdisj with rfl | ⟨l1, p, l2, hsplit, hcand, hlt, hl1⟩
        · exact Or.inl rfl
        · refine Or.inr ⟨x :: l1, p, l2, by simp [hsplit], hcand, hlt, ?_⟩
          intro q hq
          rcases List.mem_cons.mp hq with rfl | hq'
          · simp only [candCost]; omega
          · exact hl1 q hq'

/-- The greedy scan on at least two live operands returns the first
cost-minimal pair in row-major order, with the cost model's combined shape
and labels. -/
theorem greedyBest_spec (olabels : List Char) (ishapes : List (List Nat))
    (ilabels : List (List Char)) (h2 : 2 ≤ ilabels.length) :
    ∃ p l1 l2, greedyBest olabels ishapes ilabels = some (candOf olabels ishapes ilabels p) ∧
      pairScan ilabels.length = l1 ++ p :: l2 ∧
      (∀ q ∈ l1, candCost olabels ishapes ilabels p < candCost olabels ishapes ilabels q) ∧
      (∀ q ∈ pairScan ilabels.length,
        candCost olabels ishapes ilabels p ≤ candCost olabels ishapes ilabels q) := by
  have hne : pairScan ilabels.length ≠ [] := by
    intro hcontra
    have : ((0, 1) : Nat × Nat) ∈ pairScan ilabels.length := pairScan_mem.mpr (by omega)
    rw [hcontra] at this
    cases this
  obtain ⟨hd, tl, hsplit⟩ := List.exists_cons_of_ne_nil hne
  rw [greedyBest, hsplit, List.foldl_cons]
  have hstep : greedyStep olabels ishapes ilabels none hd =
      some (candOf olabels ishapes ilabels hd) := rfl
  rw [hstep]
  obtain ⟨c, hc, hle, hall, hdisj⟩ := greedyFold_spec olabels ishapes ilabels tl
    (candOf olabels ishapes ilabels hd)
  rcases hdisj with rfl | ⟨l1, p, l2, hsplit2, hcand, hlt, hl1⟩
  · refine ⟨hd, [], tl, hc, by simp, by simp, ?_⟩
    intro q hq
    rcases List.mem_cons.mp hq with rfl | hq'
    · exact le_refl _
    · exact hall q hq'
  · subst hcand
    refine ⟨p, hd :: l1, l2, hc, by simp [hsplit2], ?_, ?_⟩
    · intro q hq
      rcases List.mem_cons.mp hq with rfl | hq'
      · simpa [candCost] using hlt
      · exact hl1 q hq'
    · intro q hq
      rcases List.mem_cons.mp hq with rfl | hq'
      · simpa [candCost] using le_of_lt hlt
      · exact hall q hq'

/-- The claim's step-by-step description of the greedy optimizer: each
recorded pair `(j, k)` has `j < k` within the current live list, its
cost-model cost is minimal over all pairs in the row-major scan, every pair
strictly earlier in the scan is strictly costlier (ties go to the first
encountered), and the two operands are replaced by their combination at the
front of the live list. -/
inductive GreedySeqOk (olabels : List Char) :
    List (List Nat) → List (List Char) → List (Nat × Nat) → Prop
  | done (ishapes : List (List Nat)) (ilabels : List (List Char)) :
      ishapes.length ≤ 1 → GreedySeqOk olabels ishapes ilabels []
  | step (ishapes : List (List Nat)) (ilabels : List (List Char)) (j k : Nat)
      (seq : List (Nat × Nat)) :
      j < k → k < ishapes.length →
      (∀ p ∈ pairScan ilabels.length,
        candCost olabels ishapes ilabels (j, k) ≤ candCost olabels ishapes ilabels p) →
      (∃ l1 l2, pairScan ilabels.length = l1 ++ (j, k) :: l2 ∧
        ∀ p ∈ l1, candCost olabels ishapes ilabels (j, k) < candCost olabels ishapes ilabels p) →
      GreedySeqOk olabels
        (((ishapes.eraseIdx k).eraseIdx j).insertIdx 0
          (combineOp olabels (ilabels.getD j []) (ishapes.getD j [])
            (ilabels.getD k []) (ishapes.getD k [])).shape)
        (((ilabels.eraseIdx k).eraseIdx j).insertIdx 0
          (combineOp olabels (ilabels.getD j []) (ishapes.getD j [])
            (ilabels.getD k []) (ishapes.getD k [])).labels) seq →
      GreedySeqOk olabels ishapes ilabels ((j, k) :: seq)

/-- The greedy loop, with sufficient fuel, succeeds and its output satisfies
the step-by-step description, using exactly `N - 1` steps. -/
theorem greedyGo_spec (olabels : List Char) :
    ∀ (fuel : Nat) (ishapes : List (List Nat)) (ilabels : List (List Char)),
      ishapes.length = ilabels.length → ishapes.length ≤ fuel →
      ∃ seq, greedyGo olabels fuel ishapes ilabels = .ok seq ∧
        seq.length = ishapes.length - 1 ∧ GreedySeqOk olabels ishapes ilabels seq := by
  intro fuel
  induction fuel with
  | zero =>
    intro ishapes ilabels hlen hfuel
    have h0 : ishapes.length = 0 := by omega
    refine ⟨[], ?_, by simp only [List.length_nil]; omega, .done _ _ (by omega)⟩
    rw [greedyGo, if_pos (by omega)]
  | succ fuel ih =>
    intro ishapes ilabels hlen hfuel
    by_cases hsmall : ishapes.length ≤ 1
    · refine ⟨[], ?_, by simp only [List.length_nil]; omega, .done _ _ hsmall⟩
      rw [greedyGo, if_pos hsmall]
    · have h2 : 2 ≤ ilabels.length := by omega
      obtain ⟨p, l1, l2, hbest, hsplit, hl1, hall⟩ := greedyBest_spec olabels ishapes ilabels h2
      have hmem : p ∈ pairScan ilabels.length := by rw [hsplit]; simp
      obtain ⟨hjk, hkn⟩ := pairScan_mem.mp hmem
      have hcond : (candOf olabels ishapes ilabels p).j < (candOf olabels ishapes ilabels p).k ∧
          (candOf olabels ishapes ilabels p).k < ishapes.length ∧
          (candOf olabels ishapes ilabels p).k < ilabels.length := by
        simp only [candOf]
        exact ⟨hjk, by omega, by omega⟩
      set c := candOf olabels ishapes ilabels p with hcdef
      have hlenE : ∀ (l : List (List Nat)) (v : List Nat), l.length = ishapes.length →
          (((l.eraseIdx c.k).eraseIdx c.j).insertIdx 0 v).length = ishapes.length - 1 := by
        intro l v hl
        have e1 : (l.eraseIdx c.k).length = l.length - 1 :=
          List.length_eraseIdx_of_lt (by rw [hl]; exact hcond.2.1)
        have e2 : ((l.eraseIdx c.k).eraseIdx c.j).length = l.length - 2 := by
          rw [List.length_eraseIdx_of_lt (by rw [e1, hl]; omega), e1]
          omega
        rw [List.length_insertIdx 0 _ (Nat.zero_le _), e2, hl]
        omega
      have hlenE' : ∀ (l : List (List Char)) (v : List Char), l.length = ishapes.length →
          (((l.eraseIdx c.k).eraseIdx c.j).insertIdx 0 v).length = ishapes.length - 1 := by
        intro l v hl
        have e1 : (l.eraseIdx c.k).length = l.length - 1 :=
          List.length_eraseIdx_of_lt (by rw [hl]; exact hcond.2.1)
        have e2 : ((l.eraseIdx c.k).eraseIdx c.j).length = l.length - 2 := by
          rw [List.length_eraseIdx_of_lt (by rw [e1, hl]; omega), e1]
          omega
        rw [List.length_insertIdx 0 _ (Nat.zero_le _), e2, hl]
        omega
      obtain ⟨seq', hgo', hlen', hok'⟩ := ih
        (((ishapes.eraseIdx c.k).eraseIdx c.j).insertIdx 0 c.shape)
        (((ilabels.eraseIdx c.k).eraseIdx c.j).insertIdx 0 c.labels)
        (by rw [hlenE _ _ rfl, hlenE' _ _ hlen.symm])
        (by rw [hlenE _ _ rfl]; omega)
      refine ⟨(c.j, c.k) :: seq', ?_, ?_, ?_⟩
      · rw [greedyGo, if_neg hsmall, hbest]
        show (if c.j < c.k ∧ c.k < ishapes.length ∧ c.k < ilabels.length then
            match greedyGo olabels fuel (((ishapes.eraseIdx c.k).eraseIdx c.j).insertIdx 0 c.shape)
                (((ilabels.eraseIdx c.k).eraseIdx c.j).insertIdx 0 c.labels) with
            | Except.ok seq => Except.ok ((c.j, c.k) :: seq)
            | Except.error e => Except.error e
          else Except.error Err.indexErr) = Except.ok ((c.j, c.k) :: seq')
        rw [if_pos hcond, hgo']
      · simp only [List.length_cons]
        rw [hlenE _ _ rfl] at hlen'
        omega
      · have hpj : p.1 = c.j := by simp [hcdef, candOf]
        have hpk : p.2 = c.k := by simp [hcdef, candOf]
        have hcshape : c.shape = (combineOp olabels (ilabels.getD c.j []) (ishapes.getD c.j [])
            (ilabels.getD c.k []) (ishapes.getD c.k [])).shape := by
          rw [hcdef]
          simp [candOf, hpj, hpk]
        have hclabels : c.labels = (combineOp olabels (ilabels.getD c.j []) (ishapes.getD c.j [])
            (ilabels.getD c.k []) (ishapes.getD c.k [])).labels := by
          rw [hcdef]
          simp [candOf, hpj, hpk]
        refine .step ishapes ilabels c.j c.k seq' (by rw [← hpj, ← hpk]; exact hjk)
          (by rw [← hpk]; omega) ?_ ?_ ?_
        · intro q hq
          have := hall q hq
          rwa [(by rw [← hpj, ← hpk] : ((c.j, c.k) : Nat × Nat) = p)]
        · refine ⟨l1, l2, ?_, ?_⟩
          · rw [(by rw [← hpj, ← hpk] : ((c.j, c.k) : Nat × Nat) = p)]
            exact hsplit
          · intro q hq
            rw [(by rw [← hpj, ← hpk] : ((c.j, c.k) : Nat × Nat) = p)]
            exact hl1 q hq
        · rw [← hcshape, ← hclabels]
          exact hok'

/-- Length of a returned contraction sequence (0 on error). -/
def seqLen : Except Err (List (Nat × Nat)) → Nat
  | .ok s => s.length
  | .error _ => 0

/-- **C8.** For every operand list of `N ≥ 2` operands, the greedy optimizer
succeeds with exactly `N - 1` steps; at every step it selects a pair `(j, k)`
with `j < k` over the current live list whose cost-model cost (product of all
of operand `j`'s sizes times the product of operand `k`'s sizes over labels
not shared with `j`, see `combineOp`) is minimal, breaking exact ties in
favour of the first pair in row-major scan order over `j < k`, records the
pair against the current live positions, and replaces the two operands with
their combination inserted at the front of the live list
(`GreedySeqOk` spells out the step discipline). -/
theorem greedy_optimizer_selects_cheapest (olabels : List Char) (ishapes : List (List Nat))
    (ilabels : List (List Char)) (hlen : ishapes.length = ilabels.length)
    (h2 : 2 ≤ ishapes.length) :
    ∃ seq, einsumOptimize ishapes ilabels olabels .sGreedy none = .ok seq ∧
      seq.length = ishapes.length - 1 ∧ GreedySeqOk olabels ishapes ilabels seq := by
  have h := greedyGo_spec olabels ishapes.length ishapes ilabels hlen (le_refl _)
  simpa [einsumOptimize] using h

/-- Witness for C8: the greedy optimizer on two concrete matrix-chain
operands succeeds with one step. -/
theorem greedy_optimizer_selects_cheapest_witness :
    isOkE (einsumOptimize [[2, 3], [3, 4]] [['i', 'j'], ['j', 'k']] ['i', 'k']
        .sGreedy none) = true ∧
      seqLen (einsumOptimize [[2, 3], [3, 4]] [['i', 'j'], ['j', 'k']] ['i', 'k']
        .sGreedy none) = 1 := by
  obtain ⟨seq, heq, hl, _⟩ := greedy_optimizer_selects_cheapest ['i', 'k'] [[2, 3], [3, 4]]
    [['i', 'j'], ['j', 'k']] (by decide) (by decide)
  rw [heq] at *
  exact ⟨rfl, by simpa [seqLen] using hl⟩

/-! ## C2: contraction sequences and their replay -/

/-- One step of the driver's contraction-loop protocol on an abstract operand
list: swap so `j ≤ k`, pop position `k`, pop position `j`, combine, prepend.
`none` where the source would raise an IndexError. -/
def replayStep (f : α → α → α) (l : List α) (jk : Nat × Nat) : Option (List α) :=
  let j := min jk.1 jk.2
  let k := max jk.1 jk.2
  match l.get? k with
  | none => none
  | some t2 =>
    match (l.eraseIdx k).get? j with
    | none => none
    | some t1 => some (f t1 t2 :: (l.eraseIdx k).eraseIdx j)

/-- Replaying a contraction sequence left-to-right against a live operand
list. -/
def replay (f : α → α → α) : List (Nat × Nat) → List α → Option (List α)
  | [], l => some l
  | jk :: seq, l =>
    match replayStep f l jk with
    | none => none
    | some l' => replay f seq l'

/-- Replay splits over concatenated sequences. -/
theorem replay_append (f : α → α → α) :
    ∀ (s₁ s₂ : List (Nat × Nat)) (l : List α),
      replay f (s₁ ++ s₂) l = (replay f s₁ l).bind (replay f s₂) := by
  intro s₁
  induction s₁ with
  | nil => intro s₂ l; rfl
  | cons jk rest ih =>
    intro s₂ l
    rw [List.cons_append, replay, replay]
    cases replayStep f l jk with
    | none => rfl
    | some l' => exact ih s₂ l'

/-- The operand orientation in which the linearized sequence applies the
combining operation at each internal node: two leaf children in ascending
index order; a subtree result before a leaf sibling; two subtree results
right subtree first. -/
def orientEval (f : α → α → α) (g : Nat → α) : CTree → α
  | .leaf n => g n
  | .node (.leaf i) (.leaf j) => f (g (min i j)) (g (max i j))
  | .node (.leaf i) (.node b1 b2) => f (orientEval f g (.node b1 b2)) (g i)
  | .node (.node a1 a2) (.leaf i) => f (orientEval f g (.node a1 a2)) (g i)
  | .node (.node a1 a2) (.node b1 b2) =>
    f (orientEval f g (.node b1 b2)) (orientEval f g (.node a1 a2))

/-- The generalized characterization of the `pyPos` fold on a strictly
ascending list: it returns the number of elements below the probe (joined
with the accumulator through `max`). -/
theorem pyPos_fold (t : Nat) :
    ∀ (l : List Nat) (i acc : Nat), l.Pairwise (· < ·) →
      (l.enumFrom i).foldl (fun acc p => if p.2 < t then max acc (p.1 + 1) else acc) acc =
        if l.countP (fun x => decide (x < t)) = 0 then acc
        else max acc (i + l.countP (fun x => decide (x < t))) := by
  intro l
  induction l with
  | nil => intro i acc _; simp
  | cons x xs ih =>
    intro i acc hs
    have hxlt : ∀ y ∈ xs, x < y := fun y hy => List.rel_of_pairwise_cons hs hy
    have hxs : xs.Pairwise (· < ·) := hs.of_cons
    rw [List.enumFrom_cons, List.foldl_cons]
    by_cases hx : x < t
    · have h1 : (if (i, x).2 < t then max acc ((i, x).1 + 1) else acc)
          = max acc (i + 1) := by simp [hx]
      have hcount : (x :: xs).countP (fun x => decide (x < t)) =
          xs.countP (fun x => decide (x < t)) + 1 := by
        rw [List.countP_cons_of_pos]
        simpa using hx
      rw [h1, ih (i + 1) (max acc (i + 1)) hxs, hcount]
      rcases Nat.eq_zero_or_pos (xs.countP (fun x => decide (x < t))) with hc | hc
      · rw [hc, if_pos rfl, if_neg (show ¬(0 + 1 = 0) by omega)]
      · have hc1 : ¬(xs.countP (fun x => decide (x < t)) = 0) := by omega
        have hc2 : ¬(xs.countP (fun x => decide (x < t)) + 1 = 0) := by omega
        rw [if_neg hc1, if_neg hc2]
        omega
    · have h1 : (if (i, x).2 < t then max acc ((i, x).1 + 1) else acc)
          = acc := by simp [hx]
      have htail : xs.countP (fun x => decide (x < t)) = 0 := by
        rw [List.countP_eq_zero]
        intro y hy
        simp only [decide_eq_true_eq]
        have := hxlt y hy
        omega
      have hcount : (x :: xs).countP (fun x => decide (x < t)) = 0 := by
        rw [List.countP_cons_of_neg]
        · exact htail
        · simpa using hx
      rw [h1, ih (i + 1) acc hxs, htail, hcount, if_pos rfl, if_pos rfl]

/-- On a strictly ascending list, `pyPos` is the number of smaller
elements. -/
theorem pyPos_sorted (t : Nat) (l : List Nat) (hs : l.Pairwise (· < ·)) :
    pyPos t l = l.countP (fun x => decide (x < t)) := by
  have h := pyPos_fold t l 0 0 hs
  rw [pyPos, List.enum]
  rw [h]
  by_cases hc : l.countP (fun x => decide (x < t)) = 0
  · simp [hc]
  · rw [if_neg hc]
    omega

/-- `map` commutes with `insertIdx`. -/
theorem map_insertIdx (f : α → β) (x : α) :
    ∀ (n : Nat) (l : List α), (l.insertIdx n x).map f = (l.map f).insertIdx n (f x) := by
  intro n
  induction n with
  | zero => intro l; rfl
  | succ n ih =>
    intro l
    cases l with
    | nil => rfl
    | cons y ys => simp [ih ys]

/-- The inserted element is found at the insertion position. -/
theorem getElem?_insertIdx_self (x : α) (n : Nat) (l : List α) (h : n ≤ l.length) :
    (l.insertIdx n x)[n]? = some x := by
  rw [List.getElem?_eq_getElem (by rw [List.length_insertIdx n l h]; omega)]
  rw [List.getElem_insertIdx_self l x n h]

/-- The insertion point computed by `pyPos` keeps an ascending list ascending
(for a fresh element). -/
theorem insertIdx_countP_sorted (x : Nat) :
    ∀ (l : List Nat), l.Pairwise (· < ·) → x ∉ l →
      (l.insertIdx (l.countP (fun y => decide (y < x))) x).Pairwise (· < ·) := by
  intro l
  induction l with
  | nil => intro _ _; simp
  | cons y ys ih =>
    intro hs hx
    have hyz : ∀ z ∈ ys, y < z := fun z hz => List.rel_of_pairwise_cons hs hz
    have hys : ys.Pairwise (· < ·) := hs.of_cons
    have hxy : x ≠ y := fun h => hx (h ▸ List.mem_cons_self y ys)
    have hxys : x ∉ ys := fun h => hx (List.mem_cons_of_mem y h)
    by_cases hlt : y < x
    · have hcount : (y :: ys).countP (fun y => decide (y < x)) =
          ys.countP (fun y => decide (y < x)) + 1 := by
        rw [List.countP_cons_of_pos]
        simpa using hlt
      rw [hcount, List.insertIdx_succ_cons]
      refine List.pairwise_cons.mpr ⟨?_, ih hys hxys⟩
      intro z hz
      rcases (List.mem_insertIdx (List.countP_le_length _)).mp hz with hzx | hzys
      · exact hzx ▸ hlt
      · exact hyz z hzys
    · have hxy' : x < y := by omega
      have hcount : (y :: ys).countP (fun y => decide (y < x)) = 0 := by
        rw [List.countP_cons_of_neg _ _ (by simpa using hlt), List.countP_eq_zero]
        intro z hz
        simp only [decide_eq_true_eq]
        have := hyz z hz
        omega
      rw [hcount, List.insertIdx_zero]
      refine List.pairwise_cons.mpr ⟨?_, hs⟩
      intro z hz
      rcases List.mem_cons.mp hz with rfl | hzys
      · exact hxy'
      · exact lt_trans hxy' (hyz z hzys)

/-- The linearizer loop only prepends to its accumulator. -/
theorem t2sLoop_acc :
    ∀ (fuel : Nat) (t1 : List (CTree × CTree)) (t2 : List Nat) (acc : List (Nat × Nat)),
      t2sLoop fuel t1 t2 acc = t2sLoop fuel t1 t2 [] ++ acc := by
  intro fuel
  induction fuel with
  | zero => intro t1 t2 acc; cases t1 <;> rfl
  | succ fuel ih =>
    intro t1 t2 acc
    cases t1 with
    | nil => rfl
    | cons p rest =>
      rcases p with ⟨a, b⟩
      rcases a with i | ⟨a1, a2⟩ <;> rcases b with j | ⟨b1, b2⟩ <;>
        simp only [t2sLoop] <;>
        rw [ih _ _ (_ :: acc), ih _ _ [_]] <;>
        simp

/-- Executing a `(0, 1)` step combines the two queue-front results. -/
theorem replayStep_both_nodes (f : α → α → α) (u v : α) (M : List α) :
    replayStep f (u :: v :: M) (0, 1) = some (f u v :: M) := rfl

/-- Executing a `(0, p + |rest| + 1)` step combines the queue-front result
with the leaf freshly inserted at position `p` of the placed region. -/
theorem replayStep_node_leaf (f : α → α → α) (u : α) (R : List α) (t2 : List Nat)
    (g : Nat → α) (x p : Nat) (hp : p ≤ t2.length) :
    replayStep f (u :: (R ++ (t2.insertIdx p x).map g)) (0, p + R.length + 1)
      = some (f u (g x) :: (R ++ t2.map g)) := by
  have hsplit : u :: (R ++ (t2.insertIdx p x).map g)
      = (u :: R) ++ (t2.insertIdx p x).map g := rfl
  have hidx : p + R.length + 1 - (u :: R).length = p := by simp
  have hget1 : (u :: (R ++ (t2.insertIdx p x).map g)).get? (p + R.length + 1)
      = some (g x) := by
    rw [List.get?_eq_getElem?, hsplit,
      List.getElem?_append_right (by simp), hidx,
      map_insertIdx, getElem?_insertIdx_self _ _ _ (by simpa using hp)]
  have herase1 : (u :: (R ++ (t2.insertIdx p x).map g)).eraseIdx (p + R.length + 1)
      = (u :: R) ++ t2.map g := by
    rw [hsplit, List.eraseIdx_append_of_length_le (by simp), hidx,
      map_insertIdx, List.eraseIdx_insertIdx]
  have hmax : max 0 (p + R.length + 1) = p + R.length + 1 := by omega
  have hmin : min 0 (p + R.length + 1) = 0 := by omega
  simp only [replayStep, hmax, hmin, hget1, herase1]
  rfl

/-- Executing a `(p₁ + |rest|, p₂ + |rest|)` step combines the two leaves
freshly inserted at positions `p₁` and `p₂` of the placed region. -/
theorem replayStep_both_leaves (f : α → α → α) (R : List α) (t2 : List Nat)
    (g : Nat → α) (lo hi p1 p2 : Nat) (h1 : p1 ≤ t2.length) (h2 : p2 ≤ t2.length + 1)
    (hlt : p1 < p2) :
    replayStep f (R ++ (((t2.insertIdx p1 lo).insertIdx p2 hi).map g))
        (p1 + R.length, p2 + R.length)
      = some (f (g lo) (g hi) :: (R ++ t2.map g)) := by
  have hidx2 : p2 + R.length - R.length = p2 := by omega
  have hidx1 : p1 + R.length - R.length = p1 := by omega
  have hget1 : (R ++ (((t2.insertIdx p1 lo).insertIdx p2 hi).map g)).get? (p2 + R.length)
      = some (g hi) := by
    rw [List.get?_eq_getElem?, List.getElem?_append_right (by omega), hidx2,
      map_insertIdx, getElem?_insertIdx_self _ _ _ (by
        rw [map_insertIdx, List.length_insertIdx _ _ (by simpa using h1)]
        simpa using h2)]
  have herase1 : (R ++ (((t2.insertIdx p1 lo).insertIdx p2 hi).map g)).eraseIdx (p2 + R.length)
      = R ++ ((t2.insertIdx p1 lo).map g) := by
    rw [List.eraseIdx_append_of_length_le (by omega), hidx2,
      map_insertIdx, List.eraseIdx_insertIdx]
  have hget2 : (R ++ ((t2.insertIdx p1 lo).map g)).get? (p1 + R.length)
      = some (g lo) := by
    rw [List.get?_eq_getElem?, List.getElem?_append_right (by omega), hidx1,
      map_insertIdx, getElem?_insertIdx_self _ _ _ (by simpa using h1)]
  have herase2 : (R ++ ((t2.insertIdx p1 lo).map g)).eraseIdx (p1 + R.length)
      = R ++ t2.map g := by
    rw [List.eraseIdx_append_of_length_le (by omega), hidx1,
      map_insertIdx, List.eraseIdx_insertIdx]
  have hmax : max (p1 + R.length) (p2 + R.length) = p2 + R.length := by omega
  have hmin : min (p1 + R.length) (p2 + R.length) = p1 + R.length := by omega
  simp only [replayStep, hmax, hmin, hget1, herase1, hget2, herase2]

/-- See `replayStep_node_leaf`, with the target position abstracted so the
lemma applies syntactically. -/
theorem replayStep_node_leaf_k (f : α → α → α) (u : α) (R : List α) (t2 : List Nat)
    (g : Nat → α) (x p k : Nat) (hp : p ≤ t2.length) (hk : k = p + (R.length + 1)) :
    replayStep f (u :: (R ++ (t2.insertIdx p x).map g)) (0, k)
      = some (f u (g x) :: (R ++ t2.map g)) := by
  subst hk
  have h : p + (R.length + 1) = p + R.length + 1 := by omega
  rw [h]
  exact replayStep_node_leaf f u R t2 g x p hp

/-- See `replayStep_both_leaves`, with the target positions abstracted so the
lemma applies syntactically. -/
theorem replayStep_both_leaves_k (f : α → α → α) (R : List α) (t2 : List Nat)
    (g : Nat → α) (lo hi p1 p2 k1 k2 : Nat) (h1 : p1 ≤ t2.length)
    (h2 : p2 ≤ t2.length + 1) (hlt : p1 < p2)
    (hk1 : k1 = p1 + R.length) (hk2 : k2 = p2 + R.length) :
    replayStep f (R ++ (((t2.insertIdx p1 lo).insertIdx p2 hi).map g)) (k1, k2)
      = some (f (g lo) (g hi) :: (R ++ t2.map g)) := by
  subst hk1; subst hk2
  exact replayStep_both_leaves f R t2 g lo hi p1 p2 h1 h2 hlt

/-- Original-operand leaves still pending in the linearizer queue. -/
def pendLeaves (t1 : List (CTree × CTree)) : List Nat :=
  t1.flatMap fun p => (CTree.node p.1 p.2).leaves

/-- Multiset view of an `insertIdx`. -/
theorem insertIdx_coe (x : Nat) (p : Nat) (l : List Nat) (hp : p ≤ l.length) :
    ((l.insertIdx p x : List Nat) : Multiset Nat) = {x} + (l : Multiset Nat) := by
  calc ((l.insertIdx p x : List Nat) : Multiset Nat)
      = ((x :: l : List Nat) : Multiset Nat) :=
        Multiset.coe_eq_coe.mpr (List.perm_insertIdx x l hp)
    _ = {x} + (l : Multiset Nat) := by
        rw [← Multiset.cons_coe, Multiset.singleton_add]

/-- An ascending permutation of `range N` is `range N`. -/
theorem sorted_perm_range_eq (t2 : List Nat) (N : Nat)
    (hs : t2.Pairwise (· < ·)) (hp : t2.Perm (List.range N)) : t2 = List.range N :=
  List.eq_of_perm_of_sorted hp hs (List.pairwise_lt_range N)

/-- The replay semantics of the linearizer loop: executing the steps it emits
from a queue state `(t1, t2)` against the full original operand list combines
precisely the subtrees pending in `t1` (each evaluated with the orientation
`orientEval`) and leaves the already-placed leaves of `t2` behind them. -/
theorem t2sLoop_replay {α : Type _} (f : α → α → α) (g : Nat → α) (N : Nat) :
    ∀ (fuel : Nat) (t1 : List (CTree × CTree)) (t2 : List Nat),
      plSize t1 ≤ fuel → t2.Pairwise (· < ·) →
      (pendLeaves t1 ++ t2).Perm (List.range N) →
      replay f (t2sLoop fuel t1 t2 []) ((List.range N).map g) =
        some ((t1.map fun p => orientEval f g (.node p.1 p.2)) ++ t2.map g) := by
  intro fuel
  induction fuel with
  | zero =>
    intro t1 t2 hfuel hs hperm
    cases t1 with
    | nil =>
      have ht2 : t2 = List.range N :=
        sorted_perm_range_eq t2 N hs (by simpa [pendLeaves] using hperm)
      simp [t2sLoop, replay, ht2]
    | cons hd rest =>
      exfalso
      rcases hd with ⟨a, b⟩
      simp only [plSize, List.map_cons, List.sum_cons, CTree.isize] at hfuel
      omega
  | succ fuel ih =>
    intro t1 t2 hfuel hs hperm
    cases t1 with
    | nil =>
      have ht2 : t2 = List.range N :=
        sorted_perm_range_eq t2 N hs (by simpa [pendLeaves] using hperm)
      simp [t2sLoop, replay, ht2]
    | cons hd rest =>
      rcases hd with ⟨a, b⟩
      have hP : ((a.leaves ++ b.leaves) ++ (pendLeaves rest ++ t2)).Perm (List.range N) := by
        simpa [pendLeaves, CTree.leaves] using hperm
      have hnd : ((a.leaves ++ b.leaves) ++ (pendLeaves rest ++ t2)).Nodup :=
        hP.symm.nodup (List.nodup_range N)
      cases a with
      | node a1 a2 =>
        cases b with
        | node b1 b2 =>
          simp only [t2sLoop]
          rw [t2sLoop_acc, replay_append]
          have hfuel' : plSize ((b1, b2) :: (a1, a2) :: rest) ≤ fuel := by
            simp only [plSize, List.map_cons, List.sum_cons, CTree.isize] at hfuel ⊢
            omega
          have hperm' : (pendLeaves ((b1, b2) :: (a1, a2) :: rest) ++ t2).Perm
              (List.range N) := by
            refine List.Perm.trans (Multiset.coe_eq_coe.mp ?_) hperm
            simp only [pendLeaves, List.flatMap_cons, CTree.leaves, List.append_assoc,
              ← Multiset.coe_add]
            ac_rfl
          rw [ih _ _ hfuel' hs hperm']
          simp only [Option.bind, List.map_cons, List.cons_append, replay,
            replayStep_both_nodes]
          rfl
        | leaf j =>
          have hjt2 : j ∉ t2 := by
            rcases (List.nodup_append.mp hnd) with ⟨_, _, hdisj⟩
            intro h
            exact hdisj (by simp [CTree.leaves]) (List.mem_append_right _ h)
          have hple : pyPos j t2 ≤ t2.length := by
            rw [pyPos_sorted j t2 hs]
            exact List.countP_le_length _
          have hs' : (t2.insertIdx (pyPos j t2) j).Pairwise (· < ·) := by
            rw [pyPos_sorted j t2 hs]
            exact insertIdx_countP_sorted j t2 hs hjt2
          simp only [t2sLoop]
          rw [t2sLoop_acc, replay_append]
          have hfuel' : plSize ((a1, a2) :: rest) ≤ fuel := by
            simp only [plSize, List.map_cons, List.sum_cons, CTree.isize] at hfuel ⊢
            omega
          have hperm' : (pendLeaves ((a1, a2) :: rest) ++ t2.insertIdx (pyPos j t2) j).Perm
              (List.range N) := by
            refine List.Perm.trans (Multiset.coe_eq_coe.mp ?_) hperm
            simp only [pendLeaves, List.flatMap_cons, CTree.leaves, List.append_assoc,
              ← Multiset.coe_add, insertIdx_coe j (pyPos j t2) t2 hple,
              Multiset.coe_singleton]
            ac_rfl
          rw [ih _ _ hfuel' hs' hperm']
          simp only [Option.bind, List.map_cons, List.cons_append, replay]
          rw [replayStep_node_leaf_k f _ _ t2 g j (pyPos j t2) _ hple (by simp)]
          rfl
      | leaf i =>
        cases b with
        | node b1 b2 =>
          have hit2 : i ∉ t2 := by
            rcases (List.nodup_append.mp hnd) with ⟨_, _, hdisj⟩
            intro h
            exact hdisj (by simp [CTree.leaves]) (List.mem_append_right _ h)
          have hple : pyPos i t2 ≤ t2.length := by
            rw [pyPos_sorted i t2 hs]
            exact List.countP_le_length _
          have hs' : (t2.insertIdx (pyPos i t2) i).Pairwise (· < ·) := by
            rw [pyPos_sorted i t2 hs]
            exact insertIdx_countP_sorted i t2 hs hit2
          simp only [t2sLoop]
          rw [t2sLoop_acc, replay_append]
          have hfuel' : plSize ((b1, b2) :: rest) ≤ fuel := by
            simp only [plSize, List.map_cons, List.sum_cons, CTree.isize] at hfuel ⊢
            omega
          have hperm' : (pendLeaves ((b1, b2) :: rest) ++ t2.insertIdx (pyPos i t2) i).Perm
              (List.range N) := by
            refine List.Perm.trans (Multiset.coe_eq_coe.mp ?_) hperm
            simp only [pendLeaves, List.flatMap_cons, CTree.leaves, List.append_assoc,
              ← Multiset.coe_add, insertIdx_coe i (pyPos i t2) t2 hple,
              Multiset.coe_singleton]
            ac_rfl
          rw [ih _ _ hfuel' hs' hperm']
          simp only [Option.bind, List.map_cons, List.cons_append, replay]
          rw [replayStep_node_leaf_k f _ _ t2 g i (pyPos i t2) _ hple (by simp)]
          rfl
        | leaf j =>
          have hij : i ≠ j := by
            have h1 : (CTree.leaf i).leaves ++ (CTree.leaf j).leaves = [i, j] := rfl
            rw [h1] at hnd
            rcases List.nodup_cons.mp hnd with ⟨hi, _⟩
            intro h
            exact hi (h ▸ List.mem_cons_self _ _)
          have hit2 : i ∉ t2 := by
            rcases (List.nodup_append.mp hnd) with ⟨_, _, hdisj⟩
            intro h
            exact hdisj (by simp [CTree.leaves]) (List.mem_append_right _ h)
          have hjt2 : j ∉ t2 := by
            rcases (List.nodup_append.mp hnd) with ⟨_, _, hdisj⟩
            intro h
            exact hdisj (by simp [CTree.leaves]) (List.mem_append_right _ h)
          have hmm : (min i j = i ∧ max i j = j) ∨ (min i j = j ∧ max i j = i) := by omega
          have hmn_t2 : min i j ∉ t2 := by
            rcases hmm with ⟨h1, _⟩ | ⟨h1, _⟩ <;> rw [h1] <;> assumption
          have hmx_t2 : max i j ∉ t2 := by
            rcases hmm with ⟨_, h2⟩ | ⟨_, h2⟩ <;> rw [h2] <;> assumption
          have hmnmx : min i j < max i j := by omega
          have hp1le : pyPos (min i j) t2 ≤ t2.length := by
            rw [pyPos_sorted _ t2 hs]
            exact List.countP_le_length _
          have hsA : (t2.insertIdx (pyPos (min i j) t2) (min i j)).Pairwise (· < ·) := by
            rw [pyPos_sorted _ t2 hs]
            exact insertIdx_countP_sorted _ t2 hs hmn_t2
          have hlenA : (t2.insertIdx (pyPos (min i j) t2) (min i j)).length
              = t2.length + 1 := List.length_insertIdx _ _ hp1le
          have hmxA : max i j ∉ t2.insertIdx (pyPos (min i j) t2) (min i j) := by
            intro h
            rcases (List.mem_insertIdx hp1le).mp h with h | h
            · omega
            · exact hmx_t2 h
          have hp2le : pyPos (max i j) (t2.insertIdx (pyPos (min i j) t2) (min i j))
              ≤ t2.length + 1 := by
            rw [pyPos_sorted _ _ hsA]
            calc List.countP _ _ ≤ (t2.insertIdx (pyPos (min i j) t2) (min i j)).length :=
                  List.countP_le_length _
              _ = t2.length + 1 := hlenA
          have hsB : ((t2.insertIdx (pyPos (min i j) t2) (min i j)).insertIdx
              (pyPos (max i j) (t2.insertIdx (pyPos (min i j) t2) (min i j)))
              (max i j)).Pairwise (· < ·) := by
            rw [pyPos_sorted _ _ hsA]
            exact insertIdx_countP_sorted _ _ hsA hmxA
          have hp1lt : pyPos (min i j) t2
              < pyPos (max i j) (t2.insertIdx (pyPos (min i j) t2) (min i j)) := by
            have e1 : pyPos (min i j) t2 = t2.countP (fun y => decide (y < min i j)) :=
              pyPos_sorted _ t2 hs
            have e2 : pyPos (max i j) (t2.insertIdx (pyPos (min i j) t2) (min i j))
                = (t2.insertIdx (pyPos (min i j) t2) (min i j)).countP
                  (fun y => decide (y < max i j)) :=
              pyPos_sorted _ _ hsA
            have hcnt : (t2.insertIdx (pyPos (min i j) t2) (min i j)).countP
                (fun y => decide (y < max i j))
                = t2.countP (fun y => decide (y < max i j)) + 1 := by
              rw [(List.perm_insertIdx (min i j) t2 hp1le).countP_eq]
              rw [List.countP_cons_of_pos]
              simpa using hmnmx
            have hmono : t2.countP (fun y => decide (y < min i j))
                ≤ t2.countP (fun y => decide (y < max i j)) := by
              refine List.countP_mono_left ?_
              intro z _ hz
              simp only [decide_eq_true_eq] at hz ⊢
              omega
            omega
          simp only [t2sLoop]
          rw [t2sLoop_acc, replay_append]
          have hfuel' : plSize rest ≤ fuel := by
            simp only [plSize, List.map_cons, List.sum_cons, CTree.isize] at hfuel ⊢
            omega
          have hperm' : (pendLeaves rest ++ (t2.insertIdx (pyPos (min i j) t2)
              (min i j)).insertIdx (pyPos (max i j) (t2.insertIdx (pyPos (min i j) t2)
              (min i j))) (max i j)).Perm (List.range N) := by
            refine List.Perm.trans (Multiset.coe_eq_coe.mp ?_) hperm
            rw [← Multiset.coe_add, ← Multiset.coe_add,
              insertIdx_coe _ _ _ (by omega),
              insertIdx_coe _ _ _ hp1le]
            simp only [pendLeaves, List.flatMap_cons, CTree.leaves, List.append_assoc,
              ← Multiset.coe_add, Multiset.coe_singleton]
            rcases hmm with ⟨h1, h2⟩ | ⟨h1, h2⟩ <;> rw [h1, h2] <;> ac_rfl
          rw [ih _ _ hfuel' hsB hperm']
          simp only [Option.bind, List.map_cons, List.cons_append, replay]
          rw [replayStep_both_leaves_k f _ t2 g (min i j) (max i j) _ _ _ _
            hp1le hp2le hp1lt (by simp) (by simp)]
          have horient : orientEval f g (CTree.node (CTree.leaf i) (CTree.leaf j))
              = f (g (min i j)) (g (max i j)) := rfl
          rw [horient]

/-- Every iteration of the linearizer loop emits exactly one step. -/
theorem t2sLoop_length :
    ∀ (fuel : Nat) (t1 : List (CTree × CTree)) (t2 : List Nat) (acc : List (Nat × Nat)),
      plSize t1 ≤ fuel →
      (t2sLoop fuel t1 t2 acc).length = plSize t1 + acc.length := by
  intro fuel
  induction fuel with
  | zero =>
    intro t1 t2 acc hfuel
    cases t1 with
    | nil => simp [t2sLoop, plSize]
    | cons hd rest =>
      exfalso
      rcases hd with ⟨a, b⟩
      simp only [plSize, List.map_cons, List.sum_cons, CTree.isize] at hfuel
      omega
  | succ fuel ih =>
    intro t1 t2 acc hfuel
    cases t1 with
    | nil => simp [t2sLoop, plSize]
    | cons hd rest =>
      rcases hd with ⟨a, b⟩
      cases a with
      | node a1 a2 =>
        cases b with
        | node b1 b2 =>
          simp only [t2sLoop]
          simp only [plSize, List.map_cons, List.sum_cons, CTree.isize] at hfuel
          rw [ih _ _ _ (by simp only [plSize, List.map_cons, List.sum_cons, CTree.isize]; omega)]
          simp only [plSize, List.map_cons, List.sum_cons, CTree.isize, List.length_cons]
          omega
        | leaf j =>
          simp only [t2sLoop]
          simp only [plSize, List.map_cons, List.sum_cons, CTree.isize] at hfuel
          rw [ih _ _ _ (by simp only [plSize, List.map_cons, List.sum_cons, CTree.isize]; omega)]
          simp only [plSize, List.map_cons, List.sum_cons, CTree.isize, List.length_cons]
          omega
      | leaf i =>
        cases b with
        | node b1 b2 =>
          simp only [t2sLoop]
          simp only [plSize, List.map_cons, List.sum_cons, CTree.isize] at hfuel
          rw [ih _ _ _ (by simp only [plSize, List.map_cons, List.sum_cons, CTree.isize]; omega)]
          simp only [plSize, List.map_cons, List.sum_cons, CTree.isize, List.length_cons]
          omega
        | leaf j =>
          simp only [t2sLoop]
          simp only [plSize, List.map_cons, List.sum_cons, CTree.isize] at hfuel
          rw [ih _ _ _ (by simp only [plSize, List.map_cons, List.sum_cons, CTree.isize]; omega)]
          simp only [plSize, List.map_cons, List.sum_cons, CTree.isize, List.length_cons]
          omega

/-- A contraction tree has at least one leaf. -/
theorem CTree.leaves_length_pos : ∀ (t : CTree), 1 ≤ t.leaves.length
  | .leaf _ => by simp [CTree.leaves]
  | .node a b => by
    have := CTree.leaves_length_pos a
    simp [CTree.leaves]
    omega

/-- A tree with `k` leaves has `k - 1` internal nodes. -/
theorem CTree.isize_eq : ∀ (t : CTree), t.isize + 1 = t.leaves.length
  | .leaf _ => by simp [CTree.isize, CTree.leaves]
  | .node a b => by
    have ha := CTree.isize_eq a
    have hb := CTree.isize_eq b
    have ha' := CTree.leaves_length_pos a
    have hb' := CTree.leaves_length_pos b
    simp only [CTree.isize, CTree.leaves, List.length_append]
    omega

/-- `_tree_to_sequence` emits one step per internal node. -/
theorem treeToSequence_length (tree : CTree) :
    (treeToSequence tree).length = tree.isize := by
  cases tree with
  | leaf n => rfl
  | node a b =>
    rw [treeToSequence, t2sLoop_length _ _ _ _ (le_refl _)]
    simp [plSize, CTree.isize]

/-- The replay semantics of `_tree_to_sequence`: when the tree's leaves are a
permutation of the operand positions, replaying the emitted sequence reduces
the operand list to the single tree value (combined in `orientEval`
orientation). -/
theorem treeToSequence_replay {α : Type _} (f : α → α → α) (g : Nat → α) (N : Nat)
    (tree : CTree) (hperm : tree.leaves.Perm (List.range N)) :
    replay f (treeToSequence tree) ((List.range N).map g) = some [orientEval f g tree] := by
  cases tree with
  | leaf n =>
    have hN : N = 1 := by
      have := hperm.length_eq
      simp [CTree.leaves] at this
      omega
    subst hN
    have hn : n = 0 := by
      have h1 : List.range 1 = [0] := rfl
      have := hperm
      rw [h1] at this
      have h := List.perm_singleton.mp this
      simpa [CTree.leaves] using h
    subst hn
    rfl
  | node a b =>
    rw [treeToSequence,
      t2sLoop_replay f g N (plSize [(a, b)]) [(a, b)] [] (le_refl _) (by simp)
        (by simpa [pendLeaves, CTree.leaves] using hperm)]
    simp

/-- Leaves of the left-fold pairing of component trees. -/
theorem foldPair_leaves :
    ∀ (rest : List CTree) (c : CTree),
      (foldPair c rest).leaves = c.leaves ++ rest.flatMap CTree.leaves := by
  intro rest
  induction rest with
  | nil => intro c; simp [foldPair]
  | cons d rest ih =>
    intro c
    rw [foldPair, ih]
    simp [CTree.leaves]

/-- Internal-node count of the left-fold pairing. -/
theorem foldPair_isize :
    ∀ (rest : List CTree) (c : CTree),
      (foldPair c rest).isize = c.isize + (rest.map CTree.isize).sum + rest.length := by
  intro rest
  induction rest with
  | nil => intro c; simp [foldPair]
  | cons d rest ih =>
    intro c
    rw [foldPair, ih]
    simp [CTree.isize]
    omega

/-- A contraction sequence is in range with respect to the running live-list
length: each step names two distinct positions of the current list, which the
step then shrinks by one. -/
def SeqWF : Nat → List (Nat × Nat) → Prop
  | _, [] => True
  | n, (j, k) :: rest => j < k ∧ k < n ∧ SeqWF (n - 1) rest

/-- Replaying an in-range sequence never fails and removes one operand per
step. -/
theorem replay_of_seqWF {α : Type _} (f : α → α → α) :
    ∀ (seq : List (Nat × Nat)) (l : List α), SeqWF l.length seq →
      ∃ l', replay f seq l = some l' ∧ l'.length = l.length - seq.length := by
  intro seq
  induction seq with
  | nil => intro l _; exact ⟨l, rfl, by simp⟩
  | cons jk rest ih =>
    rcases jk with ⟨j, k⟩
    intro l hwf
    rcases hwf with ⟨hjk, hk, hrest⟩
    have hmin : min j k = j := by omega
    have hmax : max j k = k := by omega
    have hget1 : l.get? k = some (l.get ⟨k, hk⟩) := by
      rw [List.get?_eq_getElem?, List.getElem?_eq_getElem hk]
      rfl
    have hlen1 : (l.eraseIdx k).length = l.length - 1 := by
      rw [List.length_eraseIdx]
      simp [hk]
    have hj : j < (l.eraseIdx k).length := by omega
    have hget2 : (l.eraseIdx k).get? j = some ((l.eraseIdx k).get ⟨j, hj⟩) := by
      rw [List.get?_eq_getElem?, List.getElem?_eq_getElem hj]
      rfl
    have hstep : replayStep f l (j, k)
        = some (f ((l.eraseIdx k).get ⟨j, hj⟩) (l.get ⟨k, hk⟩)
            :: (l.eraseIdx k).eraseIdx j) := by
      simp only [replayStep, hmin, hmax, hget1, hget2]
    have hlen2 : (f ((l.eraseIdx k).get ⟨j, hj⟩) (l.get ⟨k, hk⟩)
        :: (l.eraseIdx k).eraseIdx j).length = l.length - 1 := by
      simp only [List.length_cons]
      rw [List.length_eraseIdx, if_pos hj, hlen1]
      omega
    rcases ih _ (by rw [hlen2]; exact hrest) with ⟨l', hrep, hlen⟩
    refine ⟨l', ?_, ?_⟩
    · rw [replay, hstep]
      exact hrep
    · rw [hlen, hlen2]
      simp only [List.length_cons]
      omega

/-- The `optimize=False` sequence is in range. -/
theorem seqWF_replicate : ∀ (m n : Nat), m + 1 ≤ n → SeqWF n (List.replicate m (0, 1)) := by
  intro m
  induction m with
  | zero => intro n _; simp [SeqWF]
  | succ m ih =>
    intro n hn
    rw [List.replicate_succ]
    exact ⟨by omega, by omega, ih (n - 1) (by omega)⟩

/-- The greedy optimizer emits an in-range sequence of exactly
`len(inputs) - 1` steps. -/
theorem greedyGo_wf (olabels : List Char) :
    ∀ (fuel : Nat) (ishapes : List (List Nat)) (ilabels : List (List Char))
      (seq : List (Nat × Nat)),
      greedyGo olabels fuel ishapes ilabels = .ok seq →
      SeqWF ishapes.length seq ∧ seq.length = ishapes.length - 1 := by
  intro fuel
  induction fuel with
  | zero =>
    intro ishapes ilabels seq hok
    rw [greedyGo] at hok
    by_cases hle : ishapes.length ≤ 1
    · rw [if_pos hle] at hok
      cases hok
      exact ⟨trivial, by simp only [List.length_nil]; omega⟩
    · rw [if_neg hle] at hok
      cases hok
  | succ fuel ih =>
    intro ishapes ilabels seq hok
    rw [greedyGo] at hok
    by_cases hle : ishapes.length ≤ 1
    · rw [if_pos hle] at hok
      cases hok
      exact ⟨trivial, by simp only [List.length_nil]; omega⟩
    · rw [if_neg hle] at hok
      split at hok
      · cases hok
      · rename_i c hbest
        split at hok
        · rename_i hguard
          split at hok
          · rename_i seq' hrec
            cases hok
            rcases ih _ _ _ hrec with ⟨hwf, hlen⟩
            have hlen1 : (ishapes.eraseIdx c.k).length = ishapes.length - 1 := by
              rw [List.length_eraseIdx]
              simp [hguard.2.1]
            have hlen2 : ((ishapes.eraseIdx c.k).eraseIdx c.j).length
                = ishapes.length - 2 := by
              rw [List.length_eraseIdx]
              have : c.j < (ishapes.eraseIdx c.k).length := by omega
              simp [this]
              omega
            have hlen3 : (((ishapes.eraseIdx c.k).eraseIdx c.j).insertIdx 0 c.shape).length
                = ishapes.length - 1 := by
              rw [List.length_insertIdx 0 _ (by omega)]
              omega
            rw [hlen3] at hwf hlen
            refine ⟨⟨hguard.1, hguard.2.1, hwf⟩, ?_⟩
            simp only [List.length_cons, hlen]
            omega
          · cases hok
        · cases hok

/-- The inner BFS only moves elements between its three pools: the final
unused pool plus the final component hold exactly the initial unused pool,
the accumulated component and the queue. -/
theorem bfsInner_partition (ilabels : List (List Char)) (olabels : List Char) :
    ∀ (fuel : Nat) (unused q g : List Nat), unused.length + q.length ≤ fuel →
      ((bfsInner ilabels olabels fuel unused q g).1
        ++ (bfsInner ilabels olabels fuel unused q g).2).Perm (unused ++ (g ++ q)) := by
  intro fuel
  induction fuel with
  | zero =>
    intro unused q g hfuel
    cases q with
    | nil => simp [bfsInner]
    | cons x q => simp only [List.length_cons] at hfuel; omega
  | succ fuel ih =>
    intro unused q g hfuel
    cases q with
    | nil => simp [bfsInner]
    | cons x q =>
      rw [bfsInner]
      have hp := List.filter_append_perm (sharesSummable ilabels olabels x) unused
      have hplen := hp.length_eq
      simp only [List.length_append] at hplen
      have hfuel' : (unused.filter fun y => !sharesSummable ilabels olabels x y).length
          + (q ++ unused.filter (sharesSummable ilabels olabels x)).length ≤ fuel := by
        simp only [List.length_append, List.length_cons] at hfuel ⊢
        omega
      refine (ih _ _ _ hfuel').trans (Multiset.coe_eq_coe.mp ?_)
      have hu : (unused : Multiset Nat)
          = (unused.filter (sharesSummable ilabels olabels x) : Multiset Nat)
            + (unused.filter fun y => !sharesSummable ilabels olabels x y) := by
        rw [Multiset.coe_add]
        exact (Multiset.coe_eq_coe.mpr hp).symm
      simp only [← Multiset.coe_add, ← Multiset.cons_coe, ← Multiset.singleton_add,
        Multiset.coe_singleton, hu]
      ac_rfl

/-- The outer loop of `_find_subgraphs` partitions the unused pool into
components. -/
theorem fsOuter_partition (ilabels : List (List Char)) (olabels : List Char) :
    ∀ (fuel : Nat) (unused : List Nat), unused.length ≤ fuel →
      (fsOuter ilabels olabels fuel unused).flatten.Perm unused := by
  intro fuel
  induction fuel with
  | zero =>
    intro unused hfuel
    cases unused with
    | nil => simp [fsOuter]
    | cons u rest => simp only [List.length_cons] at hfuel; omega
  | succ fuel ih =>
    intro unused hfuel
    cases unused with
    | nil => simp [fsOuter]
    | cons u rest =>
      rw [fsOuter, List.flatten_cons]
      have hle : (bfsInner ilabels olabels (rest.length + 1) rest [u] []).1.length ≤ fuel := by
        have := bfsInner_unused_le ilabels olabels (rest.length + 1) rest [u] []
        simp only [List.length_cons] at hfuel
        omega
      have hpart := bfsInner_partition ilabels olabels (rest.length + 1) rest [u] []
        (by simp)
      refine ((List.Perm.append_left _ (ih _ hle)).trans ?_)
      refine List.perm_append_comm.trans ?_
      refine hpart.trans ?_
      refine Multiset.coe_eq_coe.mp ?_
      simp only [List.nil_append, List.append_nil, ← Multiset.coe_add, ← Multiset.cons_coe,
        ← Multiset.singleton_add, Multiset.coe_singleton]
      ac_rfl

/-- `_find_subgraphs` partitions the operand positions. -/
theorem findSubgraphs_partition (ilabels : List (List Char)) (olabels : List Char) :
    (findSubgraphs ilabels olabels).flatten.Perm (List.range ilabels.length) := by
  rw [findSubgraphs]
  exact fsOuter_partition ilabels olabels ilabels.length (List.range ilabels.length)
    (by simp)

/-- The per-entry memo invariant of `_einsum_optimize_dp_connected`: the key
is a duplicate-free set of `m` operand positions and the stored tree's leaves
are exactly the key's tensor indices. -/
def EntryInv (n : Nat) (tis : List Nat) (m : Nat) (p : SKey × DpEntry) : Prop :=
  p.1.Nodup ∧ (∀ j ∈ p.1, j < n) ∧ p.1.length = m ∧
    p.2.tree.leaves.Perm (p.1.map fun j => tis.getD j 0)

/-- The memo invariant of a whole level `x[m]`. -/
def LvlInv (n : Nat) (tis : List Nat) (m : Nat) (lvl : DpLevel) : Prop :=
  ∀ p ∈ lvl, EntryInv n tis m p

/-- The canonical union of two disjoint duplicate-free keys is a permutation
of their concatenation. -/
theorem skeyUnion_perm (s₁ s₂ : SKey) (hnd : (s₁ ++ s₂).Nodup) :
    (skeyUnion s₁ s₂).Perm (s₁ ++ s₂) := by
  rw [skeyUnion, List.dedup_eq_self.mpr hnd]
  exact perm_pySorted _ _

/-- A passed `skeyDisjoint` check means list disjointness. -/
theorem skeyDisjoint_disjoint (s₁ s₂ : SKey) (h : skeyDisjoint s₁ s₂ = true) :
    s₁.Disjoint s₂ := by
  intro x hx1 hx2
  rw [skeyDisjoint, List.all_eq_true] at h
  have hx := h x hx1
  simp only [Bool.not_eq_true'] at hx
  have hx' : List.elem x s₂ = false := hx
  rw [List.elem_eq_true_of_mem hx2] at hx'
  cases hx'

/-- `dpStore` preserves the level invariant when the incoming entry
satisfies it. -/
theorem dpStore_inv (n : Nat) (tis : List Nat) (m : Nat) (limit : Option Nat)
    (lvl : DpLevel) (s : SKey) (e : DpEntry)
    (hlvl : LvlInv n tis m lvl) (hnew : EntryInv n tis m (s, e)) :
    LvlInv n tis m (dpStore limit lvl s e) := by
  intro p hp
  rw [dpStore] at hp
  split at hp
  · rcases List.mem_append.mp hp with h | h
    · exact hlvl p h
    · rcases List.mem_singleton.mp h with rfl
      exact hnew
  · split at hp
    · rcases List.mem_map.mp hp with ⟨q, hq, hqe⟩
      by_cases hqs : q.1 == s
      · rw [if_pos hqs] at hqe
        rcases hqe.symm with rfl
        exact hnew
      · rw [if_neg hqs] at hqe
        rcases hqe.symm with rfl
        exact hlvl _ hq
    · exact hlvl p hp

/-- Building level `x[m]` from invariant-satisfying lower levels yields an
invariant-satisfying level. -/
theorem dpBuildLevel_inv (olabels : List Char) (limit : Option Nat)
    (n : Nat) (tis : List Nat) (built : List DpLevel) (m : Nat) (hm : 2 ≤ m)
    (hbuilt : ∀ k, 1 ≤ k → LvlInv n tis k (lvlAt built k)) :
    LvlInv n tis m (dpBuildLevel olabels limit built m) := by
  rw [dpBuildLevel]
  suffices h : ∀ (ks : List Nat), (∀ k ∈ ks, 1 ≤ k ∧ k ≤ m / 2) →
      ∀ (acc : DpLevel), LvlInv n tis m acc →
      LvlInv n tis m (List.foldl
        (fun acc k =>
          List.foldl
            (fun acc p₁ =>
              List.foldl
                (fun acc p₂ =>
                  if skeyDisjoint p₁.1 p₂.1 then
                    match dpCombine olabels p₁.2 p₂.2 with
                    | some e => dpStore limit acc (skeyUnion p₁.1 p₂.1) e
                    | none => acc
                  else acc)
                acc (lvlAt built k))
            acc (lvlAt built (m - k)))
        acc ks) by
    refine h _ ?_ [] (by intro p hp; cases hp)
    intro k hk
    rw [List.mem_range'_1] at hk
    omega
  intro ks
  induction ks with
  | nil => intro _ acc hacc; exact hacc
  | cons k ks ihk =>
    intro hks acc hacc
    rw [List.foldl_cons]
    refine ihk (fun k' hk' => hks k' (List.mem_cons_of_mem _ hk')) _ ?_
    have hkk := hks k (List.mem_cons_self _ _)
    have hup : ∀ p₁, EntryInv n tis (m - k) p₁ →
        ∀ (acc : DpLevel), LvlInv n tis m acc →
        LvlInv n tis m (List.foldl
          (fun acc p₂ =>
            if skeyDisjoint p₁.1 p₂.1 then
              match dpCombine olabels p₁.2 p₂.2 with
              | some e => dpStore limit acc (skeyUnion p₁.1 p₂.1) e
              | none => acc
            else acc)
          acc (lvlAt built k)) := by
      intro p₁ hp₁
      have hlvlk := hbuilt k (by omega)
      revert hlvlk
      generalize lvlAt built k = l₂
      intro hlvlk
      induction l₂ with
      | nil => intro acc hacc; exact hacc
      | cons p₂ l₂ ihl =>
        intro acc hacc
        rw [List.foldl_cons]
        refine ihl (fun q hq => hlvlk q (List.mem_cons_of_mem _ hq)) _ ?_
        have hp₂ := hlvlk p₂ (List.mem_cons_self _ _)
        by_cases hdisj : skeyDisjoint p₁.1 p₂.1
        · rw [if_pos hdisj]
          cases hcomb : dpCombine olabels p₁.2 p₂.2 with
          | none => exact hacc
          | some e =>
            refine dpStore_inv n tis m limit acc _ e hacc ?_
            have hndapp : (p₁.1 ++ p₂.1).Nodup := by
              rw [List.nodup_append]
              exact ⟨hp₁.1, hp₂.1, skeyDisjoint_disjoint _ _ hdisj⟩
            have hperm := skeyUnion_perm p₁.1 p₂.1 hndapp
            have htree : e.tree = .node p₁.2.tree p₂.2.tree := by
              rw [dpCombine] at hcomb
              split at hcomb
              · cases hcomb; rfl
              · cases hcomb
            refine ⟨hperm.symm.nodup hndapp, ?_, ?_, ?_⟩
            · intro j hj
              rcases List.mem_append.mp (hperm.mem_iff.mp hj) with h | h
              · exact hp₁.2.1 j h
              · exact hp₂.2.1 j h
            · rw [hperm.length_eq, List.length_append, hp₁.2.2.1, hp₂.2.2.1]
              omega
            · show e.tree.leaves.Perm _
              rw [htree]
              show (p₁.2.tree.leaves ++ p₂.2.tree.leaves).Perm _
              refine (List.Perm.append hp₁.2.2.2 hp₂.2.2.2).trans ?_
              rw [← List.map_append]
              exact ((hperm.map _)).symm
        · rw [if_neg hdisj]
          exact hacc
    have hmid : ∀ (l₁ : List (SKey × DpEntry)), (∀ q ∈ l₁, EntryInv n tis (m - k) q) →
        ∀ (acc : DpLevel), LvlInv n tis m acc →
        LvlInv n tis m (List.foldl
          (fun acc p₁ =>
            List.foldl
              (fun acc p₂ =>
                if skeyDisjoint p₁.1 p₂.1 then
                  match dpCombine olabels p₁.2 p₂.2 with
                  | some e => dpStore limit acc (skeyUnion p₁.1 p₂.1) e
                  | none => acc
                else acc)
              acc (lvlAt built k))
          acc l₁) := by
      intro l₁
      induction l₁ with
      | nil => intro _ acc hacc; exact hacc
      | cons p₁ l₁ ihl1 =>
        intro hmem acc hacc
        rw [List.foldl_cons]
        exact ihl1 (fun q hq => hmem q (List.mem_cons_of_mem _ hq)) _
          (hup p₁ (hmem p₁ (List.mem_cons_self _ _)) acc hacc)
    exact hmid (lvlAt built (m - k)) (fun q hq => hbuilt (m - k) (by omega) q hq) acc hacc

/-- Folding further levels onto an invariant-satisfying prefix of memo levels
preserves the invariant (the next level index always being one past the
levels already built). -/
theorem dpLevels_aux (olabels : List Char) (limit : Option Nat) (n : Nat) (tis : List Nat) :
    ∀ (cnt m₀ : Nat) (built : List DpLevel),
      built.length + 1 = m₀ → 2 ≤ m₀ →
      (∀ k, 1 ≤ k → LvlInv n tis k (lvlAt built k)) →
      ∀ k, 1 ≤ k → LvlInv n tis k
        (lvlAt ((List.range' m₀ cnt).foldl
          (fun b m => b ++ [dpBuildLevel olabels limit b m]) built) k) := by
  intro cnt
  induction cnt with
  | zero => intro m₀ built _ _ hbuilt k hk; exact hbuilt k hk
  | succ cnt ih =>
    intro m₀ built hlen hm hbuilt k hk
    rw [List.range'_succ, List.foldl_cons]
    refine ih (m₀ + 1) (built ++ [dpBuildLevel olabels limit built m₀])
      (by simp [← hlen]) (by omega) ?_ k hk
    intro k' hk'
    by_cases hlt : k' - 1 < built.length
    · rw [lvlAt, List.getD_append _ _ _ _ hlt]
      exact hbuilt k' hk'
    · by_cases heq : k' - 1 = built.length
      · rw [lvlAt, List.getD_append_right _ _ _ _ (by omega), heq, Nat.sub_self]
        have hk'm : k' = m₀ := by omega
        rw [hk'm]
        exact dpBuildLevel_inv olabels limit n tis built m₀ hm hbuilt
      · rw [lvlAt, List.getD_append_right _ _ _ _ (by omega)]
        have : 1 ≤ k' - 1 - built.length := by omega
        rw [List.getD_eq_default _ _ (by simp; omega)]
        intro p hp
        cases hp

/-- Every memo level of `_einsum_optimize_dp_connected` satisfies the
invariant. -/
theorem dpLevels_inv (ishapes : List (List Nat)) (ilabels : List (List Char))
    (olabels : List Char) (limit : Option Nat) (tis : List Nat) :
    ∀ k, 1 ≤ k → LvlInv ishapes.length tis k
      (lvlAt (dpLevels ishapes ilabels olabels limit tis) k) := by
  rw [dpLevels]
  refine dpLevels_aux olabels limit ishapes.length tis (ishapes.length - 1) 2
    [dpLevel1 ishapes ilabels tis] (by simp) (by omega) ?_
  intro k hk
  cases k with
  | zero => omega
  | succ k =>
    cases k with
    | zero =>
      intro p hp
      have hp' : p ∈ dpLevel1 ishapes ilabels tis := hp
      rw [dpLevel1] at hp'
      rcases List.mem_map.mp hp' with ⟨j, hj, rfl⟩
      refine ⟨by simp, ?_, by simp, by simp [CTree.leaves]⟩
      intro j' hj'
      rcases List.mem_singleton.mp hj' with rfl
      exact List.mem_range.mp hj
    | succ k =>
      intro p hp
      rw [lvlAt] at hp
      rw [List.getD_eq_default _ _ (by simp)] at hp
      cases hp

/-- Reading a list back off `range` by positions is the identity. -/
theorem map_getD_range (l : List Nat) :
    (List.range l.length).map (fun i => l.getD i 0) = l := by
  apply List.ext_getElem (by simp)
  intro i h1 h2
  simp only [List.getElem_map, List.getElem_range]
  exact List.getD_eq_getElem l 0 h2

/-- A duplicate-free list of `n` positions below `n` is a permutation of
`range n`. -/
theorem key_perm_range (key : List Nat) (n : Nat) (hnd : key.Nodup)
    (hb : ∀ j ∈ key, j < n) (hl : key.length = n) : key.Perm (List.range n) := by
  have hsub : key ⊆ List.range n := fun j hj => List.mem_range.mpr (hb j hj)
  have hsp := List.subperm_of_subset hnd hsub
  exact hsp.perm_of_length_le (by simp [hl])

/-- A successful connected-component DP optimization returns a tree whose
leaves are a permutation of the component's tensor indices. -/
theorem dpConnected_leaves (ishapes : List (List Nat)) (ilabels : List (List Char))
    (olabels : List Char) (limit : Option Nat) (tis : List Nat) (tree : CTree)
    (hn : tis.length = ishapes.length)
    (hok : einsumOptimizeDpConnected ishapes ilabels olabels limit tis = .ok tree) :
    tree.leaves.Perm tis := by
  rw [einsumOptimizeDpConnected] at hok
  split at hok
  · rename_i p hhead
    cases hok
    by_cases h0 : ishapes.length = 0
    · exfalso
      have hlvls : dpLevels ishapes ilabels olabels limit tis
          = [dpLevel1 ishapes ilabels tis] := by
        rw [dpLevels, h0]
        rfl
      have hlvl1 : dpLevel1 ishapes ilabels tis = [] := by
        rw [dpLevel1, h0]
        rfl
      rw [hlvls, h0] at hhead
      rw [show lvlAt [dpLevel1 ishapes ilabels tis] 0 = dpLevel1 ishapes ilabels tis from rfl,
        hlvl1] at hhead
      cases hhead
    · have h1 : 1 ≤ ishapes.length := by omega
      have hmem : p ∈ lvlAt (dpLevels ishapes ilabels olabels limit tis) ishapes.length := by
        cases hlist : lvlAt (dpLevels ishapes ilabels olabels limit tis) ishapes.length with
        | nil => rw [hlist] at hhead; cases hhead
        | cons q rest =>
          rw [hlist] at hhead
          have hq : q = p := by
            have : some q = some p := hhead
            cases this
            rfl
          rw [hq]
          exact List.mem_cons_self _ _
      have hinv := dpLevels_inv ishapes ilabels olabels limit tis ishapes.length h1 p hmem
      rcases hinv with ⟨hnd, hb, hl, hleaves⟩
      have hkey : p.1.Perm (List.range ishapes.length) := key_perm_range _ _ hnd hb hl
      refine hleaves.trans ?_
      have := hkey.map (fun j => tis.getD j 0)
      refine this.trans ?_
      rw [← hn, map_getD_range]
  · cases hok

/-- A successful `mapM` over `Except` succeeds pointwise. -/
theorem mapM_ok_forall₂ {β : Type _} (F : β → Except Err CTree) :
    ∀ (comps : List β) (trees : List CTree),
      comps.mapM F = .ok trees → List.Forall₂ (fun g t => F g = .ok t) comps trees := by
  intro comps
  induction comps with
  | nil =>
    intro trees h
    have h' : Except.ok [] = (Except.ok trees : Except Err (List CTree)) := h
    cases h'
    exact List.Forall₂.nil
  | cons g gs ih =>
    intro trees h
    rw [List.mapM_cons] at h
    cases hF : F g with
    | error e => rw [hF] at h; simp [Bind.bind, Except.bind] at h
    | ok t =>
      rw [hF] at h
      cases hM : gs.mapM F with
      | error e =>
        rw [hM] at h
        simp [Bind.bind, Except.bind, Pure.pure] at h
      | ok ts =>
        rw [hM] at h
        simp only [Bind.bind, Except.bind, Pure.pure, Except.pure, Except.ok.injEq] at h
        rw [← h]
        exact List.Forall₂.cons hF (ih ts hM)

/-- Component trees with per-component leaf permutations cover the
concatenation. -/
theorem forall₂_leaves_flatten {comps : List (List Nat)} {trees : List CTree}
    (h : List.Forall₂ (fun g t => t.leaves.Perm g) comps trees) :
    (trees.flatMap CTree.leaves).Perm comps.flatten := by
  induction h with
  | nil => simp
  | cons h₁ _ ih =>
    simp only [List.flatMap_cons, List.flatten_cons]
    exact h₁.append ih

/-- Reading any list back off `range` by positions is the identity. -/
theorem map_getD_range_gen {α : Type _} (l : List α) (d : α) :
    (List.range l.length).map (fun i => l.getD i d) = l := by
  apply List.ext_getElem (by simp)
  intro i h1 h2
  simp only [List.getElem_map, List.getElem_range]
  exact List.getD_eq_getElem l d h2

/-- A successful run of the DP optimizer linearizes a tree whose leaves
cover the operand positions. -/
theorem einsumOptimizeDp_spec (ishapes : List (List Nat)) (ilabels : List (List Char))
    (olabels : List Char) (limit : Option Nat) (seq : List (Nat × Nat))
    (hok : einsumOptimizeDp ishapes ilabels olabels limit = .ok seq)
    (hlen : ilabels.length = ishapes.length) :
    ∃ tree : CTree, tree.leaves.Perm (List.range ishapes.length)
      ∧ seq = treeToSequence tree := by
  rw [einsumOptimizeDp] at hok
  cases hM : (findSubgraphs ilabels olabels).mapM
      (fun g => einsumOptimizeDpConnected (g.map fun j => ishapes.getD j [])
        (g.map fun j => ilabels.getD j []) olabels limit g) with
  | error e =>
    rw [hM] at hok
    simp [Bind.bind, Except.bind] at hok
  | ok trees =>
    rw [hM] at hok
    simp only [Bind.bind, Except.bind] at hok
    cases trees with
    | nil => cases hok
    | cons c rest =>
      have hseq : seq = treeToSequence (foldPair c rest) := by
        have h' : Except.ok (treeToSequence (foldPair c rest))
            = (Except.ok seq : Except Err (List (Nat × Nat))) := hok
        cases h'
        rfl
      refine ⟨foldPair c rest, ?_, hseq⟩
      have hf2 := mapM_ok_forall₂ _ _ _ hM
      have hf2' : List.Forall₂ (fun g t => CTree.leaves t |>.Perm g)
          (findSubgraphs ilabels olabels) (c :: rest) := by
        refine hf2.imp ?_
        intro g t hgt
        refine dpConnected_leaves _ _ olabels limit g t (by simp) hgt
      have hflat := forall₂_leaves_flatten hf2'
      have hleaves : (foldPair c rest).leaves = (c :: rest).flatMap CTree.leaves := by
        rw [foldPair_leaves, List.flatMap_cons]
      rw [hleaves]
      refine hflat.trans ?_
      rw [← hlen]
      exact findSubgraphs_partition ilabels olabels

/-- C2 counterexample: with the DP strategy, `einsum_optimize` need not
return a sequence at all.  On the connected operands `'ij','jk','jl'` with
empty output, every candidate combination at the top level shares no summable
label (the outer-product filter rejects it), the full-subset memo level stays
empty, and `x[n][list(x[n].keys())[0]]` raises an IndexError (modelled
`.error .dpFail`) instead of returning the `N - 1 = 2` step sequence the
claim promises for every `N ≥ 1` and every strategy. -/
theorem dp_optimize_no_full_subset_entry :
    einsumOptimize [[2, 2], [2, 2], [2, 2]]
      [['i', 'j'], ['j', 'k'], ['j', 'l']] [] .sDp none = .error .dpFail := by rfl

/-- C2 (amended): whenever `einsum_optimize` does return a sequence, the
sequence has exactly `N - 1` steps, and replaying it left-to-right against
any `N`-element operand list — each step popping positions `max j k` then
`min j k` of the live list and prepending the combined operand — succeeds at
every step and leaves exactly one operand; moreover the sequence emitted by
`_tree_to_sequence` performs exactly the pairwise combinations of its
contraction tree, reducing the operand list to the tree's value. -/
theorem einsum_optimize_round_trip {α : Type _} (f : α → α → α) (g : Nat → α)
    (strat : Strategy) (ishapes : List (List Nat)) (ilabels : List (List Char))
    (olabels : List Char) (limit : Option Nat) (seq : List (Nat × Nat))
    (init : List α) (tree : CTree) (M : Nat)
    (hok : einsumOptimize ishapes ilabels olabels strat limit = .ok seq)
    (hlen : ilabels.length = ishapes.length)
    (hinit : init.length = ishapes.length)
    (hN : 1 ≤ ishapes.length)
    (htree : tree.leaves.Perm (List.range M)) :
    (seq.length = ishapes.length - 1 ∧
      ∃ x, replay f seq init = some x ∧ x.length = 1) ∧
    replay f (treeToSequence tree) ((List.range M).map g)
      = some [orientEval f g tree] := by
  refine ⟨?_, treeToSequence_replay f g M tree htree⟩
  cases strat with
  | sFalse =>
    rw [einsumOptimize] at hok
    have hseq : seq = List.replicate (ishapes.length - 1) (0, 1) := by
      have h' : Except.ok (List.replicate (ishapes.length - 1) (0, 1))
          = (Except.ok seq : Except Err (List (Nat × Nat))) := hok
      cases h'
      rfl
    subst hseq
    refine ⟨by simp, ?_⟩
    have hwf : SeqWF init.length (List.replicate (ishapes.length - 1) (0, 1)) :=
      seqWF_replicate _ _ (by omega)
    rcases replay_of_seqWF f _ init hwf with ⟨x, hx, hxlen⟩
    refine ⟨x, hx, ?_⟩
    rw [hxlen]
    simp only [List.length_replicate]
    omega
  | sTrue =>
    rw [einsumOptimize] at hok
    rcases einsumOptimizeDp_spec _ _ _ _ _ hok hlen with ⟨tr, hperm, hseq⟩
    subst hseq
    have hlen1 : (treeToSequence tr).length = ishapes.length - 1 := by
      rw [treeToSequence_length]
      have h1 := CTree.isize_eq tr
      have h2 := hperm.length_eq
      simp only [List.length_range] at h2
      omega
    refine ⟨hlen1, ?_⟩
    cases init with
    | nil => simp at hinit; omega
    | cons a rest =>
      have hinit' : (a :: rest) = (List.range ishapes.length).map
          (fun i => (a :: rest).getD i a) := by
        rw [← hinit]
        exact (map_getD_range_gen (a :: rest) a).symm
      rw [hinit', ← hinit,
        treeToSequence_replay f _ (a :: rest).length tr (hinit ▸ hperm)]
      exact ⟨_, rfl, rfl⟩
  | sDp =>
    rw [einsumOptimize] at hok
    rcases einsumOptimizeDp_spec _ _ _ _ _ hok hlen with ⟨tr, hperm, hseq⟩
    subst hseq
    have hlen1 : (treeToSequence tr).length = ishapes.length - 1 := by
      rw [treeToSequence_length]
      have h1 := CTree.isize_eq tr
      have h2 := hperm.length_eq
      simp only [List.length_range] at h2
      omega
    refine ⟨hlen1, ?_⟩
    cases init with
    | nil => simp at hinit; omega
    | cons a rest =>
      have hinit' : (a :: rest) = (List.range ishapes.length).map
          (fun i => (a :: rest).getD i a) := by
        rw [← hinit]
        exact (map_getD_range_gen (a :: rest) a).symm
      rw [hinit', ← hinit,
        treeToSequence_replay f _ (a :: rest).length tr (hinit ▸ hperm)]
      exact ⟨_, rfl, rfl⟩
  | sGreedy =>
    rw [einsumOptimize] at hok
    rcases greedyGo_wf olabels _ _ _ _ hok with ⟨hwf, hlen1⟩
    refine ⟨hlen1, ?_⟩
    rcases replay_of_seqWF f seq init (by rw [hinit]; exact hwf) with ⟨x, hx, hxlen⟩
    refine ⟨x, hx, ?_⟩
    omega

/-- Witness for the C2 theorem: the DP strategy on `'ij,jk->ik'` over
`2 × 2` operands returns the single-step sequence `[(0, 1)]`, whose replay
over a two-element list succeeds and leaves one operand, and
`_tree_to_sequence` of the tree `(0, 1)` replays to the tree's value. -/
theorem einsum_optimize_round_trip_witness :
    (([(0, 1)] : List (Nat × Nat)).length = 2 - 1 ∧
      ∃ x, replay (fun a b : Int => a + b) [(0, 1)] [10, 20] = some x ∧ x.length = 1) ∧
    replay (fun a b : Int => a + b) (treeToSequence (.node (.leaf 0) (.leaf 1)))
        ((List.range 2).map (fun i => (i : Int)))
      = some [orientEval (fun a b : Int => a + b) (fun i => (i : Int))
          (.node (.leaf 0) (.leaf 1))] :=
  einsum_optimize_round_trip (fun a b : Int => a + b) (fun i => (i : Int)) .sDp
    [[2, 2], [2, 2]] [['i', 'j'], ['j', 'k']] ['i', 'k'] none [(0, 1)] [10, 20]
    (.node (.leaf 0) (.leaf 1)) 2 (by rfl) (by rfl) (by rfl) (by decide) (by decide)

/-! ## C4: the fallback's canonical axis order -/

/-- Folding fresh keys into the `axis_order` dict appends them with
consecutive values. -/
theorem foldl_aoUpsert_fresh :
    ∀ (ks : List Char) (acc : List (Char × Nat)),
      (∀ k ∈ ks, acc.find? (fun p => p.1 == k) = none) → ks.Nodup →
      List.foldl aoUpsert acc ks
        = acc ++ (ks.enumFrom acc.length).map (fun p => (p.2, p.1)) := by
  intro ks
  induction ks with
  | nil => intro acc _ _; simp
  | cons k ks ih =>
    intro acc hfresh hnd
    rw [List.foldl_cons]
    have hupd : aoUpsert acc k = acc ++ [(k, acc.length)] := by
      rw [aoUpsert, hfresh k (List.mem_cons_self _ _)]
    rw [hupd]
    have hkks : k ∉ ks := (List.nodup_cons.mp hnd).1
    rw [ih (acc ++ [(k, acc.length)]) ?_ (List.nodup_cons.mp hnd).2]
    · simp [List.enumFrom_cons, List.length_append]
    · intro k' hk'
      rw [List.find?_append, hfresh k' (List.mem_cons_of_mem _ hk')]
      have hkk' : (k == k') = false := by
        have : k ≠ k' := fun h => hkks (h ▸ hk')
        simpa using this
      simp [List.find?, hkk']

/-- Position lookup in the dict built from distinct keys. -/
theorem find?_swap_enumFrom :
    ∀ (ks : List Char) (i : Nat) (c : Char), c ∈ ks → ks.Nodup →
      (((ks.enumFrom i).map (fun p => (p.2, p.1))).find? (fun p => p.1 == c)).map (·.2)
        = some (i + ks.indexOf c) := by
  intro ks
  induction ks with
  | nil => intro i c hc; cases hc
  | cons k ks ih =>
    intro i c hc hnd
    rw [List.enumFrom_cons, List.map_cons]
    by_cases hkc : k = c
    · subst hkc
      rw [List.find?_cons_of_pos _ (by simp)]
      simp [List.indexOf_cons_self]
    · rw [List.find?_cons_of_neg _ (by simpa using hkc)]
      have hc' : c ∈ ks := by
        rcases List.mem_cons.mp hc with h | h
        · exact absurd h.symm hkc
        · exact h
      rw [ih (i + 1) c hc' (List.nodup_cons.mp hnd).2]
      rw [List.indexOf_cons_ne _ hkc]
      exact congrArg some (by omega)

/-- The rank the fallback's `axis_order` dict actually assigns: position in
the list "non-output labels first (in `idx_all` order), then the output
labels in output-string order". -/
theorem aoGet_axisOrder (idxAll idxOut : List Char)
    (hnd : (idxAll.filter (fun c => !idxOut.contains c) ++ idxOut).Nodup) :
    ∀ c ∈ idxAll.filter (fun c => !idxOut.contains c) ++ idxOut,
      aoGet (axisOrder idxAll idxOut) c
        = (idxAll.filter (fun c => !idxOut.contains c) ++ idxOut).indexOf c := by
  intro c hc
  rw [axisOrder, foldl_aoUpsert_fresh _ [] (by intro k _; rfl) hnd, aoGet]
  have h := find?_swap_enumFrom _ 0 c hc hnd
  simp only [List.nil_append, List.length_nil] at h ⊢
  rw [h]
  simp

/-- The reduction positions the fallback's alignment loop collects: exactly
the canonical-order positions whose label is absent from the output. -/
theorem alignStep_snd (idxOut : List Char) (idxIn : List (List Char))
    (st s' : List (List Int) × List Nat) (p : Nat × Char)
    (h : alignStep idxOut idxIn st p = .ok s') :
    s'.2 = if idxOut.contains p.2 then st.2 else st.2 ++ [p.1] := by
  rw [alignStep] at h
  split at h
  · cases h
  · cases h
    rfl

/-- See `fallbackAlign_reductionIdx`: the generalized loop invariant. -/
theorem fallbackAlign_aux (idxOut : List Char) (idxIn : List (List Char)) :
    ∀ (ps : List (Nat × Char)) (st : List (List Int) × List Nat)
      (shapes : List (List Int)) (ridx : List Nat),
      List.foldlM (alignStep idxOut idxIn) st ps
          = (.ok (shapes, ridx) : Except Err (List (List Int) × List Nat)) →
      ridx = st.2 ++ (ps.filter (fun p => !idxOut.contains p.2)).map (·.1) := by
  intro ps
  induction ps with
  | nil =>
    intro st shapes ridx h
    have h' : (Except.ok st : Except Err (List (List Int) × List Nat))
        = .ok (shapes, ridx) := h
    cases h'
    simp
  | cons p ps ih =>
    intro st shapes ridx h
    rw [List.foldlM_cons] at h
    cases hstep : alignStep idxOut idxIn st p with
    | error e =>
      rw [hstep] at h
      simp [Bind.bind, Except.bind] at h
    | ok s' =>
      rw [hstep] at h
      have h' : List.foldlM (alignStep idxOut idxIn) s' ps
          = (Except.ok (shapes, ridx) : Except Err (List (List Int) × List Nat)) := h
      have h2 := ih s' shapes ridx h'
      rw [h2, alignStep_snd idxOut idxIn st s' p hstep, List.filter_cons]
      by_cases hout : p.2 ∈ idxOut
      · simp [hout]
      · simp [hout]

/-- The positions the fallback sums over are exactly the canonical-order
positions whose label is absent from the output. -/
theorem fallbackAlign_reductionIdx (idxOut : List Char) (idxIn : List (List Char))
    (sortedAll : List Char) (shapes0 shapes : List (List Int)) (ridx : List Nat)
    (h : fallbackAlign idxOut idxIn sortedAll shapes0 = .ok (shapes, ridx)) :
    ridx = (sortedAll.enum.filter fun p => !idxOut.contains p.2).map (·.1) := by
  have := fallbackAlign_aux idxOut idxIn sortedAll.enum (shapes0, []) shapes ridx h
  simpa using this

/-- The claim's canonical order, following the spec's words: non-output
labels first (alphabetically), then the output labels ALSO sorted
alphabetically (instead of in output-string order). -/
def axisOrderSpec (idxAll idxOut : List Char) : List (Char × Nat) :=
  (idxAll.filter (fun c => !idxOut.contains c) ++ pySorted charLe idxOut).foldl aoUpsert []

/-- The fallback as the claim describes it: identical to
`exponentialSpaceEinsum` except that the canonical axis order sorts the
output axes alphabetically (`axisOrderSpec`) rather than by output-string
position. -/
def exponentialSpaceEinsumSpec (equation : List Char) (inputs : List Tensor) :
    Except Err Tensor := do
  let (idxIn0, idxOut) ← parseEq equation (inputs.map (·.static))
  let idxAll := pySet (idxIn0.flatten ++ idxOut)
  let missing := idxOut.dedup.filter fun c => !idxAll.contains c
  if ¬ missing.isEmpty then .error .unknownOutput else
  let ao := axisOrderSpec idxAll idxOut
  let prepped ← (inputs.zip idxIn0).mapM fun p => fallbackPrep ao p.1 p.2
  let inputs' := prepped.map (·.1)
  let idxIn := prepped.map (·.2)
  let shapes0 : List (List Int) := inputs'.map fun t => t.static.map fun d =>
    match d with
    | some v => if v = 0 then (-1 : Int) else (v : Int)
    | none => -1
  let sortedAll := pySorted (fun a b => aoGet ao a ≤ aoGet ao b) idxAll
  let (shapes, reductionIdx) ← fallbackAlign idxOut idxIn sortedAll shapes0
  let expanded ← (inputs'.zip shapes).mapM fun p => fallbackReshape p.1 p.2
  let product ← expanded.foldlM mulT oneScalarT
  .ok (reduceSumT product reductionIdx)

/-- C4 counterexample: the fallback's canonical order puts the output axes in
OUTPUT-STRING order, not alphabetical order.  On `'ij->ji'` the code
transposes the operand (axis `j`, first in the output, gets canonical
position 0) and correctly returns the transpose; under the claim's
alphabetical output order the operand `'ij'` would already be canonical and
the result would be the untransposed matrix, which differs. -/
theorem fallback_output_axes_follow_output_order :
    okTensorBeqF (exponentialSpaceEinsum ['i', 'j', '-', '>', 'j', 'i']
        [mkTensor [2, 2] [1, 2, 3, 4]]) (mkTensor [2, 2] [1, 3, 2, 4]) = true ∧
    okTensorBeqF (exponentialSpaceEinsumSpec ['i', 'j', '-', '>', 'j', 'i']
        [mkTensor [2, 2] [1, 2, 3, 4]]) (mkTensor [2, 2] [1, 2, 3, 4]) = true ∧
    tensorBeq (mkTensor [2, 2] [1, 3, 2, 4]) (mkTensor [2, 2] [1, 2, 3, 4]) = false := by
  refine ⟨by decide, by decide, by decide⟩

/-- C4 (amended): when the exponential-space fallback executes, the rank dict
`axis_order` places the labels absent from the output first (in `idx_all`
order, which is alphabetical at the call site) and then the output labels in
output-string order — their position in the concatenated list — and the
product is summed over exactly the canonical-order axis positions whose
labels are absent from the output. -/
theorem fallback_canonical_axis_order (idxAll idxOut sortedAll : List Char)
    (idxIn : List (List Char)) (shapes0 shapes : List (List Int)) (ridx : List Nat)
    (hnd : (idxAll.filter (fun c => !idxOut.contains c) ++ idxOut).Nodup)
    (halign : fallbackAlign idxOut idxIn sortedAll shapes0 = .ok (shapes, ridx)) :
    (∀ c ∈ idxAll.filter (fun c => !idxOut.contains c) ++ idxOut,
      aoGet (axisOrder idxAll idxOut) c
        = (idxAll.filter (fun c => !idxOut.contains c) ++ idxOut).indexOf c) ∧
    ridx = (sortedAll.enum.filter fun p => !idxOut.contains p.2).map (·.1) :=
  ⟨aoGet_axisOrder idxAll idxOut hnd,
    fallbackAlign_reductionIdx idxOut idxIn sortedAll shapes0 shapes ridx halign⟩

/-- Witness for the C4 theorem on `'ij->ji'`-shaped data: ranks are `j ↦ 0`,
`i ↦ 1` (output order, not alphabetical), and no axis is summed. -/
theorem fallback_canonical_axis_order_witness :
    (∀ c ∈ (['i', 'j'].filter (fun c => !(['j', 'i'].contains c)) ++ ['j', 'i']),
      aoGet (axisOrder ['i', 'j'] ['j', 'i']) c
        = (['i', 'j'].filter (fun c => !(['j', 'i'].contains c)) ++ ['j', 'i']).indexOf c) ∧
    ([] : List Nat) = ((['j', 'i'].enum.filter
        fun p => !(['j', 'i'].contains p.2)).map (·.1)) :=
  fallback_canonical_axis_order ['i', 'j'] ['j', 'i'] ['j', 'i'] [['j', 'i']]
    [[2, 2]] [[2, 2]] [] (by decide) (by rfl)

/-! ## C7: the failure modes of the pairwise reduction -/

/-- C7 counterexample: the shape check on contracted labels is not the
claimed per-label "both known and greater than 1" test.  The code compacts
each operand's summed axes into a single dimension whose size is computed
from `t0` alone, so (a) `'ij,jk->ik'` with `j` sized 2 against 1 — sizes not
both greater than 1, hence no error per the claim — fails the reshape's
element-count check; and (b) `'ijk,jkl->il'` with `j,k` sized (2,3) against
(3,2) — each label disagreeing with both sizes known and greater than 1,
hence an error per the claim — passes silently because the summed products
coincide (6 = 6). -/
theorem einsum_reduction_summed_size_errors :
    errCode (einsumReduction (mkTensor [2, 2] [1, 2, 3, 4]) ['i', 'j']
        (mkTensor [1, 3] [1, 2, 3]) ['j', 'k'] ['j']) = some .shapeMismatch ∧
    isOkE (einsumReduction (mkTensor [2, 2, 3] ((List.range 12).map Int.ofNat))
        ['i', 'j', 'k'] (mkTensor [3, 2, 2] ((List.range 12).map Int.ofNat))
        ['j', 'k', 'l'] ['j', 'k']) = true := by
  refine ⟨by decide, by decide⟩

/-- C7 (amended): the rank half of the claim is exact — whenever either
operand's label-string length differs from its static rank,
`_einsum_reduction` raises the rank ValueError before doing anything else.
(The shape half is not as claimed: contracted sizes are only compared through
the product-compaction reshape; see the counterexample.) -/
theorem einsum_reduction_rank_check (t0 t1 : Tensor) (l0 l1 axesToSum : List Char)
    (h : l0.length ≠ t0.static.length ∨ l1.length ≠ t1.static.length) :
    einsumReduction t0 l0 t1 l1 axesToSum = .error .rankMismatch := by
  rw [einsumReduction]
  by_cases h0 : l0.length ≠ t0.static.length
  · rw [if_pos h0]
  · rw [if_neg h0]
    rcases h with h | h
    · exact absurd h h0
    · rw [if_pos h]

/-- Witness for the C7 theorem: a rank-1 operand against a two-label
string. -/
theorem einsum_reduction_rank_check_witness :
    einsumReduction (mkTensor [2] [1, 2]) ['i', 'j'] (mkTensor [2] [1, 2]) ['j'] []
      = .error .rankMismatch :=
  einsum_reduction_rank_check (mkTensor [2] [1, 2]) (mkTensor [2] [1, 2])
    ['i', 'j'] ['j'] [] (Or.inl (by decide))

/-! ## C1: semantic framework — assignments over labels -/

/-- Point update of a label assignment. -/
def upd (σ : Char → Nat) (c : Char) (x : Nat) : Char → Nat :=
  fun d => if d = c then x else σ d

theorem upd_same (σ : Char → Nat) (c : Char) (x : Nat) : upd σ c x c = x := by
  simp [upd]

theorem upd_other (σ : Char → Nat) (c d : Char) (x : Nat) (h : d ≠ c) :
    upd σ c x d = σ d := by
  simp [upd, h]

theorem upd_comm (σ : Char → Nat) (c d : Char) (x y : Nat) (h : c ≠ d) :
    upd (upd σ c x) d y = upd (upd σ d y) c x := by
  funext e
  by_cases hec : e = c <;> by_cases hed : e = d <;>
    simp_all [upd]

theorem upd_idem (σ : Char → Nat) (c : Char) (x y : Nat) :
    upd (upd σ c x) c y = upd σ c y := by
  funext e
  by_cases hec : e = c <;> simp_all [upd]

/-- Iterated sum over all assignments of the labels in `S`, each ranging
below its size. -/
def sumAssign (sz : Char → Nat) : List Char → ((Char → Nat) → Int) → (Char → Nat) → Int
  | [], F, σ => F σ
  | c :: cs, F, σ => ∑ x ∈ Finset.range (sz c), sumAssign sz cs F (upd σ c x)

/-- `F` reads an assignment only at the labels in `L`. -/
def DependsOn (F : (Char → Nat) → Int) (L : List Char) : Prop :=
  ∀ σ τ : Char → Nat, (∀ c ∈ L, σ c = τ c) → F σ = F τ

theorem sumAssign_ext (sz : Char → Nat) :
    ∀ (S : List Char) (F G : (Char → Nat) → Int) (σ : Char → Nat),
      (∀ ρ : Char → Nat, F ρ = G ρ) →
      sumAssign sz S F σ = sumAssign sz S G σ := by
  intro S
  induction S with
  | nil => intro F G σ h; exact h σ
  | cons c cs ih =>
    intro F G σ h
    rw [sumAssign, sumAssign]
    exact Finset.sum_congr rfl fun x _ => ih F G (upd σ c x) h

/-- `sumAssign` reads the outer assignment only away from the summed
labels (on the labels the summand depends on). -/
theorem sumAssign_eqOn (sz : Char → Nat) (L : List Char)
    (F : (Char → Nat) → Int) (hdep : DependsOn F L) :
    ∀ (S : List Char) (σ τ : Char → Nat),
      (∀ c ∈ L, c ∉ S → σ c = τ c) →
      sumAssign sz S F σ = sumAssign sz S F τ := by
  intro S
  induction S with
  | nil =>
    intro σ τ h
    exact hdep σ τ fun c hc => h c hc (by intro hx; cases hx)
  | cons c cs ih =>
    intro σ τ h
    rw [sumAssign, sumAssign]
    refine Finset.sum_congr rfl fun x _ => ih (upd σ c x) (upd τ c x) ?_
    intro d hd hdcs
    by_cases hdc : d = c
    · subst hdc; simp [upd]
    · rw [upd_other _ _ _ _ hdc, upd_other _ _ _ _ hdc]
      exact h d hd (by simp [hdcs, hdc])

theorem sumAssign_swap (sz : Char → Nat) (a b : Char) (S : List Char)
    (F : (Char → Nat) → Int) (σ : Char → Nat) :
    sumAssign sz (a :: b :: S) F σ = sumAssign sz (b :: a :: S) F σ := by
  by_cases hab : a = b
  · subst hab; rfl
  · simp only [sumAssign]
    rw [Finset.sum_comm]
    refine Finset.sum_congr rfl fun y _ => Finset.sum_congr rfl fun x _ => ?_
    rw [upd_comm σ a b x y hab]

theorem sumAssign_perm (sz : Char → Nat) (F : (Char → Nat) → Int)
    {S S' : List Char} (hp : S.Perm S') :
    ∀ σ : Char → Nat, sumAssign sz S F σ = sumAssign sz S' F σ := by
  induction hp with
  | nil => intro σ; rfl
  | cons x _ ih =>
    intro σ
    rw [sumAssign, sumAssign]
    exact Finset.sum_congr rfl fun v _ => ih (upd σ x v)
  | swap x y l => intro σ; exact sumAssign_swap sz y x l F σ
  | trans _ _ ih₁ ih₂ => intro σ; rw [ih₁ σ, ih₂ σ]

theorem sumAssign_append (sz : Char → Nat) :
    ∀ (S₁ S₂ : List Char) (F : (Char → Nat) → Int) (σ : Char → Nat),
      sumAssign sz (S₁ ++ S₂) F σ
        = sumAssign sz S₁ (fun τ => sumAssign sz S₂ F τ) σ := by
  intro S₁
  induction S₁ with
  | nil => intro S₂ F σ; rfl
  | cons c cs ih =>
    intro S₂ F σ
    rw [List.cons_append, sumAssign, sumAssign]
    exact Finset.sum_congr rfl fun x _ => ih S₂ F (upd σ c x)

/-- Pulling a factor that does not mention the summed labels out of the
sum. -/
theorem sumAssign_mul_left (sz : Char → Nat) (L : List Char)
    (G H : (Char → Nat) → Int) (hdep : DependsOn G L) :
    ∀ (S : List Char) (σ : Char → Nat), (∀ c ∈ S, c ∉ L) →
      sumAssign sz S (fun ρ => G ρ * H ρ) σ = G σ * sumAssign sz S H σ := by
  intro S
  induction S with
  | nil => intro σ _; rfl
  | cons c cs ih =>
    intro σ hS
    rw [sumAssign, sumAssign, Finset.mul_sum]
    refine Finset.sum_congr rfl fun x _ => ?_
    rw [ih (upd σ c x) (fun d hd => hS d (List.mem_cons_of_mem _ hd))]
    have : G (upd σ c x) = G σ := by
      refine hdep _ _ fun d hd => ?_
      have : d ≠ c := fun h => hS c (List.mem_cons_self _ _) (h ▸ hd)
      exact upd_other _ _ _ _ this
    rw [this]

theorem DependsOn.mono {F : (Char → Nat) → Int} {L L' : List Char}
    (h : DependsOn F L) (hsub : ∀ c ∈ L, c ∈ L') : DependsOn F L' :=
  fun σ τ hagree => h σ τ fun c hc => hagree c (hsub c hc)

theorem DependsOn.mul {F G : (Char → Nat) → Int} {L : List Char}
    (hF : DependsOn F L) (hG : DependsOn G L) :
    DependsOn (fun σ => F σ * G σ) L := by
  intro σ τ h
  show F σ * G σ = F τ * G τ
  rw [hF σ τ h, hG σ τ h]

theorem dependsOn_sumAssign {F : (Char → Nat) → Int} {L : List Char}
    (sz : Char → Nat) (hF : DependsOn F L) (S : List Char) :
    DependsOn (fun σ => sumAssign sz S F σ) L := by
  induction S with
  | nil => exact fun σ τ h => hF σ τ h
  | cons c cs ih =>
    intro σ τ h
    show sumAssign sz (c :: cs) F σ = sumAssign sz (c :: cs) F τ
    rw [sumAssign, sumAssign]
    refine Finset.sum_congr rfl fun x _ => ih (upd σ c x) (upd τ c x) ?_
    intro d hd
    by_cases hdc : d = c
    · subst hdc; simp [upd]
    · rw [upd_other _ _ _ _ hdc, upd_other _ _ _ _ hdc]
      exact h d hd

/-! ## C1: row-major index arithmetic -/

theorem idxOk_nil_iff (idx : Idx) : idxOk [] idx = true ↔ idx = [] := by
  cases idx <;> simp [idxOk]

theorem idxOk_cons_iff (d : Nat) (ds : List Nat) (i : Nat) (is : Idx) :
    idxOk (d :: ds) (i :: is) = true ↔ i < d ∧ idxOk ds is = true := by
  simp [idxOk, and_comm, and_left_comm]

theorem prod_pos_of_idxOk : ∀ (ds : List Nat) (idx : Idx),
    idxOk ds idx = true → 0 < ds.prod := by
  intro ds
  induction ds with
  | nil => intro idx _; simp
  | cons d ds ih =>
    intro idx h
    cases idx with
    | nil => simp [idxOk] at h
    | cons i is =>
      rcases (idxOk_cons_iff d ds i is).mp h with ⟨hi, his⟩
      have := ih is his
      simp only [List.prod_cons]
      exact Nat.mul_pos (by omega) this

theorem flat_lt : ∀ (ds : List Nat) (idx : Idx),
    idxOk ds idx = true → flat ds idx < ds.prod := by
  intro ds
  induction ds with
  | nil => intro idx h; simp [flat]
  | cons d ds ih =>
    intro idx h
    cases idx with
    | nil => simp [idxOk] at h
    | cons i is =>
      rcases (idxOk_cons_iff d ds i is).mp h with ⟨hi, his⟩
      have hf := ih is his
      rw [flat, List.prod_cons]
      calc i * ds.prod + flat ds is < (i + 1) * ds.prod := by
            rw [Nat.succ_mul]; omega
        _ ≤ d * ds.prod := Nat.mul_le_mul_right _ (by omega)

theorem unflat_flat : ∀ (ds : List Nat) (idx : Idx),
    idxOk ds idx = true → unflat ds (flat ds idx) = idx := by
  intro ds
  induction ds with
  | nil =>
    intro idx h
    rw [(idxOk_nil_iff idx).mp h]
    rfl
  | cons d ds ih =>
    intro idx h
    cases idx with
    | nil => simp [idxOk] at h
    | cons i is =>
      rcases (idxOk_cons_iff d ds i is).mp h with ⟨hi, his⟩
      have hP : 0 < ds.prod := prod_pos_of_idxOk ds is his
      have hf : flat ds is < ds.prod := flat_lt ds is his
      rw [flat, unflat]
      have hcomm : i * ds.prod + flat ds is = ds.prod * i + flat ds is := by ring
      congr 1
      · rw [hcomm, Nat.mul_add_div hP, Nat.div_eq_of_lt hf]
        omega
      · rw [hcomm, Nat.mul_add_mod, Nat.mod_eq_of_lt hf]
        exact ih is his

theorem unflat_ok : ∀ (ds : List Nat) (k : Nat),
    k < ds.prod → idxOk ds (unflat ds k) = true := by
  intro ds
  induction ds with
  | nil => intro k _; rfl
  | cons d ds ih =>
    intro k hk
    rw [List.prod_cons] at hk
    have hP : 0 < ds.prod := by
      rcases Nat.eq_zero_or_pos ds.prod with h | h
      · rw [h, Nat.mul_zero] at hk; omega
      · exact h
    rw [unflat, idxOk_cons_iff]
    constructor
    · exact Nat.div_lt_of_lt_mul (by rw [Nat.mul_comm]; omega)
    · exact ih _ (Nat.mod_lt _ hP)

theorem flat_append : ∀ (ds₁ : List Nat) (i₁ : Idx) (ds₂ : List Nat) (i₂ : Idx),
    i₁.length = ds₁.length →
    flat (ds₁ ++ ds₂) (i₁ ++ i₂) = flat ds₁ i₁ * ds₂.prod + flat ds₂ i₂ := by
  intro ds₁
  induction ds₁ with
  | nil =>
    intro i₁ ds₂ i₂ hlen
    rw [List.length_nil] at hlen
    rw [List.eq_nil_of_length_eq_zero hlen]
    simp [flat]
  | cons d ds ih =>
    intro i₁ ds₂ i₂ hlen
    cases i₁ with
    | nil => simp at hlen
    | cons i is =>
      rw [List.cons_append, List.cons_append, flat, flat,
        ih is ds₂ i₂ (by simpa using hlen), List.prod_append]
      ring

/-- Direct nested sum over all multi-indices of a shape. -/
def sumIdx (ds : List Nat) (F : Idx → Int) : Int :=
  match ds with
  | [] => F []
  | d :: ds => ∑ x ∈ Finset.range d, sumIdx ds (fun is => F (x :: is))

/-- Splitting a sum over `range (d * P)` by quotient and remainder. -/
theorem sum_range_mul_split (d P : Nat) (G : Nat → Int) :
    ∑ k ∈ Finset.range (d * P), G k
      = ∑ i ∈ Finset.range d, ∑ j ∈ Finset.range P, G (i * P + j) := by
  induction d with
  | zero => simp
  | succ d ih =>
    have h : (d + 1) * P = d * P + P := by ring
    rw [h, Finset.sum_range_add, ih, Finset.sum_range_succ]

/-- A linear sum over `range ds.prod` read through `unflat` is the nested
multi-index sum. -/
theorem sum_range_unflat : ∀ (ds : List Nat) (F : Idx → Int),
    ∑ k ∈ Finset.range ds.prod, F (unflat ds k) = sumIdx ds F := by
  intro ds
  induction ds with
  | nil =>
    intro F
    simp [sumIdx, unflat]
  | cons d ds ih =>
    intro F
    rw [List.prod_cons, sum_range_mul_split d ds.prod, sumIdx]
    by_cases hP : ds.prod = 0
    · refine Finset.sum_congr rfl fun i _ => ?_
      rw [hP]
      rw [← ih (fun is => F (i :: is))]
      rw [hP]
      simp
    · have hP' : 0 < ds.prod := Nat.pos_of_ne_zero hP
      refine Finset.sum_congr rfl fun i _ => ?_
      rw [← ih (fun is => F (i :: is))]
      refine Finset.sum_congr rfl fun j hj => ?_
      rw [Finset.mem_range] at hj
      rw [unflat]
      have hcomm : i * ds.prod + j = ds.prod * i + j := by ring
      congr 2
      · rw [hcomm, Nat.mul_add_div hP', Nat.div_eq_of_lt hj]
        omega
      · rw [hcomm, Nat.mul_add_mod, Nat.mod_eq_of_lt hj]

/-- Iterated point updates along a label list. -/
def updList (σ : Char → Nat) : List Char → Idx → (Char → Nat)
  | c :: cs, x :: xs => updList (upd σ c x) cs xs
  | _, _ => σ

theorem sumAssign_eq_sumIdx (sz : Char → Nat) :
    ∀ (S : List Char) (F : (Char → Nat) → Int) (σ : Char → Nat),
      sumAssign sz S F σ = sumIdx (S.map sz) (fun is => F (updList σ S is)) := by
  intro S
  induction S with
  | nil => intro F σ; rfl
  | cons c cs ih =>
    intro F σ
    rw [sumAssign, List.map_cons, sumIdx]
    exact Finset.sum_congr rfl fun x _ => ih F (upd σ c x)

/-! ## C1: insertion-sort characterization -/

theorem mem_insSorted {le : α → α → Bool} {a x : α} {l : List α} :
    a ∈ insSorted le x l ↔ a = x ∨ a ∈ l := by
  rw [(perm_insSorted le x l).mem_iff]
  simp

theorem pairwise_insSorted (le : α → α → Bool)
    (htot : ∀ a b, le a b = true ∨ le b a = true)
    (htr : ∀ a b c, le a b = true → le b c = true → le a c = true) (x : α) :
    ∀ l : List α, l.Pairwise (le · · = true) →
      (insSorted le x l).Pairwise (le · · = true) := by
  intro l
  induction l with
  | nil => intro _; simp [insSorted]
  | cons y ys ih =>
    intro hpw
    rw [insSorted]
    by_cases hyx : le y x = true
    · rw [if_pos hyx]
      refine List.pairwise_cons.mpr ⟨?_, ih hpw.of_cons⟩
      intro z hz
      rcases mem_insSorted.mp hz with rfl | hz
      · exact hyx
      · exact List.rel_of_pairwise_cons hpw hz
    · rw [if_neg hyx]
      have hxy : le x y = true := by
        rcases htot x y with h | h
        · exact h
        · exact absurd h hyx
      refine List.pairwise_cons.mpr ⟨?_, hpw⟩
      intro z hz
      rcases List.mem_cons.mp hz with rfl | hz
      · exact hxy
      · exact htr x y z hxy (List.rel_of_pairwise_cons hpw hz)

theorem pairwise_pySorted (le : α → α → Bool)
    (htot : ∀ a b, le a b = true ∨ le b a = true)
    (htr : ∀ a b c, le a b = true → le b c = true → le a c = true) (l : List α) :
    (pySorted le l).Pairwise (le · · = true) := by
  suffices h : ∀ acc : List α, acc.Pairwise (le · · = true) →
      (l.foldl (fun acc x => insSorted le x acc) acc).Pairwise (le · · = true) by
    exact h [] List.Pairwise.nil
  induction l with
  | nil => intro acc hacc; exact hacc
  | cons x xs ih =>
    intro acc hacc
    rw [List.foldl_cons]
    exact ih _ (pairwise_insSorted le htot htr x acc hacc)

/-- A permutation sorted on both sides by a total antisymmetric Boolean
relation is unique. -/
theorem eq_of_perm_of_sortedBool (le : α → α → Bool)
    (hanti : ∀ a b, le a b = true → le b a = true → a = b) :
    ∀ (l₁ l₂ : List α), l₁.Perm l₂ → l₁.Pairwise (le · · = true) →
      l₂.Pairwise (le · · = true) → l₁ = l₂ := by
  intro l₁
  induction l₁ with
  | nil =>
    intro l₂ hp _ _
    exact hp.nil_eq
  | cons a l₁ ih =>
    intro l₂ hp h1 h2
    cases l₂ with
    | nil => exact absurd hp.symm.nil_eq (by simp)
    | cons b l₂ =>
      have hab : a = b := by
        have ha2 : a ∈ b :: l₂ := hp.mem_iff.mp (List.mem_cons_self _ _)
        have hb1 : b ∈ a :: l₁ := hp.symm.mem_iff.mp (List.mem_cons_self _ _)
        rcases List.mem_cons.mp ha2 with h | h
        · exact h
        · rcases List.mem_cons.mp hb1 with h' | h'
          · exact h'.symm
          · exact hanti a b (List.rel_of_pairwise_cons h1 h') (List.rel_of_pairwise_cons h2 h)
      subst hab
      rw [ih l₂ hp.cons_inv h1.of_cons h2.of_cons]

theorem charLe_total (a b : Char) : charLe a b = true ∨ charLe b a = true := by
  rw [charLe, charLe]
  rcases le_total a b with h | h
  · left; simpa using h
  · right; simpa using h

theorem charLe_trans (a b c : Char) :
    charLe a b = true → charLe b c = true → charLe a c = true := by
  rw [charLe, charLe, charLe]
  simp only [decide_eq_true_eq]
  exact le_trans

theorem charLe_antisymm (a b : Char) :
    charLe a b = true → charLe b a = true → a = b := by
  rw [charLe, charLe]
  simp only [decide_eq_true_eq]
  exact le_antisymm

theorem rkLe_total (key : Char → Nat) (a b : Char) :
    rkLe key a b = true ∨ rkLe key b a = true := by
  rw [rkLe, rkLe]
  rcases Nat.lt_trichotomy (key a) (key b) with h | h | h
  · left; simp [h]
  · rcases le_total a b with h' | h'
    · left; simp [h, h']
    · right; simp [h, h']
  · right; simp [h]

theorem rkLe_trans (key : Char → Nat) (a b c : Char) :
    rkLe key a b = true → rkLe key b c = true → rkLe key a c = true := by
  rw [rkLe, rkLe, rkLe]
  simp only [Bool.or_eq_true, Bool.and_eq_true, decide_eq_true_eq, beq_iff_eq]
  rintro (h | ⟨h1, h2⟩) (h' | ⟨h1', h2'⟩)
  · left; omega
  · left; omega
  · left; omega
  · right; exact ⟨by omega, le_trans h2 h2'⟩

theorem rkLe_antisymm (key : Char → Nat) (a b : Char) :
    rkLe key a b = true → rkLe key b a = true → a = b := by
  rw [rkLe, rkLe]
  simp only [Bool.or_eq_true, Bool.and_eq_true, decide_eq_true_eq, beq_iff_eq]
  rintro (h | ⟨h1, h2⟩) (h' | ⟨h1', h2'⟩) <;> first
    | omega
    | exact le_antisymm h2 h2'

/-- Sorting a permutation gives the same char-sorted list. -/
theorem pySorted_charLe_perm {l l' : List Char} (hp : l.Perm l') :
    pySorted charLe l = pySorted charLe l' := by
  refine eq_of_perm_of_sortedBool charLe charLe_antisymm _ _ ?_ ?_ ?_
  · exact (perm_pySorted charLe l).trans (hp.trans (perm_pySorted charLe l').symm)
  · exact pairwise_pySorted charLe charLe_total charLe_trans l
  · exact pairwise_pySorted charLe charLe_total charLe_trans l'

/-- The three-class rank sort groups the list into its classes, each sorted
alphabetically. -/
theorem pySorted_rkLe_decomp (key : Char → Nat) (hkey : ∀ c, key c ≤ 2) (l : List Char) :
    pySorted (rkLe key) l
      = pySorted charLe (l.filter fun c => key c == 0)
        ++ pySorted charLe (l.filter fun c => key c == 1)
        ++ pySorted charLe (l.filter fun c => key c == 2) := by
  refine eq_of_perm_of_sortedBool (rkLe key) (rkLe_antisymm key) _ _ ?_
    (pairwise_pySorted _ (rkLe_total key) (rkLe_trans key) l) ?_
  · refine (perm_pySorted _ l).trans ?_
    refine List.Perm.symm ?_
    refine List.Perm.trans (List.Perm.append
      (List.Perm.append (perm_pySorted charLe _) (perm_pySorted charLe _))
      (perm_pySorted charLe _)) ?_
    have h1 := List.filter_append_perm (fun c => key c == 0) l
    have h2 := List.filter_append_perm (fun c => key c == 1)
      (l.filter fun c => !(key c == 0))
    have e2 : (List.filter (fun c => key c == 1) (l.filter fun c => !(key c == 0)))
        = l.filter fun c => key c == 1 := by
      rw [List.filter_filter]
      refine List.filter_congr ?_
      intro c _
      rcases Nat.lt_or_ge (key c) 1 with h | h
      · have : key c = 0 := by omega
        simp [this]
      · have : ¬ (key c = 0) := by omega
        simp [this]
    have e3 : (List.filter (fun c => !(key c == 1)) (l.filter fun c => !(key c == 0)))
        = l.filter fun c => key c == 2 := by
      rw [List.filter_filter]
      refine List.filter_congr ?_
      intro c _
      have hc := hkey c
      rcases Nat.lt_trichotomy (key c) 1 with h | h | h
      · have : key c = 0 := by omega
        simp [this]
      · simp [h]
      · have h2' : key c = 2 := by omega
        have h0 : ¬ (key c = 0) := by omega
        have h1' : ¬ (key c = 1) := by omega
        simp [h2', h0, h1']
    rw [e2, e3] at h2
    have hfull : ((l.filter fun c => key c == 0)
        ++ ((l.filter fun c => key c == 1) ++ (l.filter fun c => key c == 2))).Perm l :=
      List.Perm.trans (List.Perm.append_left _ h2) h1
    rw [List.append_assoc]
    exact hfull
  · have hmem : ∀ (i : Nat) (c : Char), c ∈ pySorted charLe (l.filter fun x => key x == i)
        → key c = i := by
      intro i c hc
      have := mem_pySorted.mp hc
      rcases List.mem_filter.mp this with ⟨_, h⟩
      simpa using h
    have hGpw : ∀ (i : Nat),
        (pySorted charLe (l.filter fun x => key x == i)).Pairwise (rkLe key · · = true) := by
      intro i
      refine List.Pairwise.imp_of_mem ?_
        (pairwise_pySorted charLe charLe_total charLe_trans _)
      intro a b ha hb hab
      have hka := hmem i a ha
      have hkb := hmem i b hb
      rw [charLe] at hab
      simp only [decide_eq_true_eq] at hab
      rw [rkLe]
      simp [hka, hkb, hab]
    have hcross : ∀ (i j : Nat), i < j →
        ∀ a ∈ pySorted charLe (l.filter fun x => key x == i),
        ∀ b ∈ pySorted charLe (l.filter fun x => key x == j),
          rkLe key a b = true := by
      intro i j hij a ha b hb
      have hka := hmem i a ha
      have hkb := hmem j b hb
      rw [rkLe]
      simp [hka, hkb, hij]
    rw [List.pairwise_append]
    refine ⟨?_, hGpw 2, ?_⟩
    · rw [List.pairwise_append]
      exact ⟨hGpw 0, hGpw 1, fun a ha b hb => hcross 0 1 (by omega) a ha b hb⟩
    · intro a ha b hb
      rcases List.mem_append.mp ha with h | h
      · exact hcross 0 2 (by omega) a h b hb
      · exact hcross 1 2 (by omega) a h b hb

/-! ## C1: the transpose-by-label-permutation lemma -/

theorem indexOf_injOn {l : List Char} (hnd : l.Nodup) {a b : Char}
    (ha : a ∈ l) (hb : b ∈ l) (h : l.indexOf a = l.indexOf b) : a = b := by
  have ha' := List.indexOf_lt_length.mpr ha
  have hb' := List.indexOf_lt_length.mpr hb
  have h2 : l[l.indexOf b] = b := List.getElem_indexOf hb'
  have h1 : l[l.indexOf b] = a := by
    have h0 := List.getElem_indexOf ha'
    convert h0 using 2
    exact h.symm
  exact h1.symm.trans h2

/-- Shape of the label-permuting transpose. -/
theorem transposeT_shape (t : Tensor) (l sorted : List Char) (sz : Char → Nat)
    (hperm : sorted.Perm l) (hsh : t.shape = l.map sz) :
    (transposeT t (sorted.map (l.indexOf ·))).shape = sorted.map sz := by
  show (sorted.map (l.indexOf ·)).map (t.shape.getD · 0) = sorted.map sz
  rw [List.map_map]
  refine List.map_eq_map_iff.mpr ?_
  intro c hc
  have hcl : c ∈ l := hperm.mem_iff.mp hc
  have hlt := List.indexOf_lt_length.mpr hcl
  show t.shape.getD (l.indexOf c) 0 = sz c
  rw [hsh, List.getD_eq_getElem _ _ (by simpa using hlt), List.getElem_map,
    List.getElem_indexOf hlt]

/-- Static shape of the label-permuting transpose (fully known case). -/
theorem transposeT_static (t : Tensor) (l sorted : List Char) (sz : Char → Nat)
    (hperm : sorted.Perm l) (hsh : t.shape = l.map sz)
    (hfk : t.static = t.shape.map some) :
    (transposeT t (sorted.map (l.indexOf ·))).static
      = (sorted.map sz).map some := by
  show (sorted.map (l.indexOf ·)).map (t.static.getD · none) = (sorted.map sz).map some
  rw [List.map_map, List.map_map]
  refine List.map_eq_map_iff.mpr ?_
  intro c hc
  have hcl : c ∈ l := hperm.mem_iff.mp hc
  have hlt := List.indexOf_lt_length.mpr hcl
  show t.static.getD (l.indexOf c) none = some (sz c)
  rw [hfk, hsh, List.map_map,
    List.getD_eq_getElem _ _ (by simpa using hlt), List.getElem_map,
    List.getElem_indexOf hlt]
  rfl

/-- Data of the label-permuting transpose: reading the transposed tensor at
the sorted labels' coordinates reads the original at the original labels'
coordinates. -/
theorem transposeT_data (t : Tensor) (l sorted : List Char) (hnd : l.Nodup)
    (hperm : sorted.Perm l) (σ : Char → Nat) (hlen : t.shape.length = l.length) :
    (transposeT t (sorted.map (l.indexOf ·))).data (sorted.map σ) = t.data (l.map σ) := by
  show t.data ((List.range t.shape.length).map fun j =>
    (sorted.map σ).getD ((sorted.map (l.indexOf ·)).indexOf j) 0) = t.data (l.map σ)
  congr 1
  have hndsorted : sorted.Nodup := hperm.symm.nodup hnd
  have hndperm : (sorted.map (l.indexOf ·)).Nodup := by
    refine List.Nodup.map_on ?_ hndsorted
    intro a ha b hb hab
    exact indexOf_injOn hnd (hperm.mem_iff.mp ha) (hperm.mem_iff.mp hb) hab
  refine List.ext_getElem (by simp [hlen]) ?_
  intro j hj1 hj2
  rw [List.getElem_map, List.getElem_range]
  have hj : j < l.length := by simpa [hlen] using hj2
  set c := l[j] with hc
  have hcl : c ∈ l := List.getElem_mem _
  have hcs : c ∈ sorted := hperm.symm.mem_iff.mp hcl
  have hi : sorted.indexOf c < sorted.length := List.indexOf_lt_length.mpr hcs
  have hi' : sorted.indexOf c < (sorted.map (l.indexOf ·)).length := by simpa using hi
  have hpermval : (sorted.map (l.indexOf ·))[sorted.indexOf c] = j := by
    rw [List.getElem_map, List.getElem_indexOf hi, hc, List.indexOf_getElem hnd j hj]
  have hidx : (sorted.map (l.indexOf ·)).indexOf j = sorted.indexOf c := by
    rw [← hpermval]
    exact List.indexOf_getElem hndperm _ _
  rw [hidx, List.getD_eq_getElem _ _ (by simpa using hi), List.getElem_map,
    List.getElem_indexOf hi, List.getElem_map]


/-! ## C1: expand-dims folds and mixed-shape facts -/

theorem insertIdx_append_boundary (A B : List α) (x : α) :
    (A ++ B).insertIdx A.length x = A ++ x :: B := by
  induction A with
  | nil => rfl
  | cons a A ih => simp [List.insertIdx_succ_cons, ih]


/-- Appending `n` trailing size-1 axes (`expand_dims(t, -1)` iterated):
shape, static shape, and data at full-length indices. -/
theorem expandEnd_spec :
    ∀ (n : Nat) (t : Tensor), t.static.length = t.shape.length →
      ((List.range n).foldl (fun t _ => expandDimsT t t.shape.length) t).shape
          = t.shape ++ List.replicate n 1 ∧
        ((List.range n).foldl (fun t _ => expandDimsT t t.shape.length) t).static
          = t.static ++ List.replicate n (some 1) ∧
        ∀ idx : Idx, idx.length = t.shape.length + n →
          ((List.range n).foldl (fun t _ => expandDimsT t t.shape.length) t).data idx
            = t.data (idx.take t.shape.length) := by
  intro n
  induction n with
  | zero =>
    intro t _
    refine ⟨by simp, by simp, ?_⟩
    intro idx hlen
    simp only [List.range_zero, List.foldl_nil]
    congr 1
    rw [List.take_of_length_le (by omega)]
  | succ n ih =>
    intro t hwf
    rcases ih t hwf with ⟨hsh, hst, hdata⟩
    rw [List.range_succ, List.foldl_append, List.foldl_cons, List.foldl_nil]
    have hlen : ((List.range n).foldl (fun t _ => expandDimsT t t.shape.length) t).shape.length
        = t.shape.length + n := by
      rw [hsh]; simp
    refine ⟨?_, ?_, ?_⟩
    · show ((List.range n).foldl (fun t _ => expandDimsT t t.shape.length) t).shape.insertIdx
          ((List.range n).foldl (fun t _ => expandDimsT t t.shape.length) t).shape.length 1
        = t.shape ++ List.replicate (n + 1) 1
      rw [List.insertIdx_length_self, hsh, List.append_assoc, ← List.replicate_succ']
    · show ((List.range n).foldl (fun t _ => expandDimsT t t.shape.length) t).static.insertIdx
          ((List.range n).foldl (fun t _ => expandDimsT t t.shape.length) t).shape.length
          (some 1)
        = t.static ++ List.replicate (n + 1) (some 1)
      have hstlen : ((List.range n).foldl (fun t _ => expandDimsT t t.shape.length) t).shape.length
          = ((List.range n).foldl (fun t _ => expandDimsT t t.shape.length) t).static.length := by
        rw [hst, hlen]
        simp [hwf]
      rw [hstlen, List.insertIdx_length_self, hst, List.append_assoc, ← List.replicate_succ']
    · intro idx hlenidx
      show ((List.range n).foldl (fun t _ => expandDimsT t t.shape.length) t).data
          (idx.eraseIdx ((List.range n).foldl (fun t _ => expandDimsT t t.shape.length) t).shape.length)
        = t.data (idx.take t.shape.length)
      rw [hlen, List.eraseIdx_eq_take_drop_succ,
        List.drop_eq_nil_of_le (by omega), List.append_nil,
        hdata _ (by rw [List.length_take]; omega),
        List.take_take]
      congr 2
      omega

/-- Inserting `n` size-1 axes at a fixed position (`expand_dims(t, p)`
iterated): shape, static shape, and data at long-enough indices. -/
theorem expandMid_spec (p : Nat) :
    ∀ (n : Nat) (t : Tensor), t.static.length = t.shape.length → p ≤ t.shape.length →
      ((List.range n).foldl (fun t _ => expandDimsT t p) t).shape
          = t.shape.take p ++ List.replicate n 1 ++ t.shape.drop p ∧
        ((List.range n).foldl (fun t _ => expandDimsT t p) t).static
          = t.static.take p ++ List.replicate n (some 1) ++ t.static.drop p ∧
        ∀ idx : Idx, p + n ≤ idx.length →
          ((List.range n).foldl (fun t _ => expandDimsT t p) t).data idx
            = t.data (idx.take p ++ idx.drop (p + n)) := by
  intro n
  induction n with
  | zero =>
    intro t hwf hp
    refine ⟨by simp, by simp, ?_⟩
    intro idx hlen
    simp only [List.range_zero, List.foldl_nil, List.replicate_zero, Nat.add_zero]
    rw [List.take_append_drop]
  | succ n ih =>
    intro t hwf hp
    rcases ih t hwf hp with ⟨hsh, hst, hdata⟩
    rw [List.range_succ, List.foldl_append, List.foldl_cons, List.foldl_nil]
    refine ⟨?_, ?_, ?_⟩
    · show (((List.range n).foldl (fun t _ => expandDimsT t p) t).shape.insertIdx p 1)
        = t.shape.take p ++ List.replicate (n + 1) 1 ++ t.shape.drop p
      rw [hsh]
      have h1 : (t.shape.take p).length = p := by
        rw [List.length_take]; omega
      have h2 : t.shape.take p ++ List.replicate n 1 ++ t.shape.drop p
          = t.shape.take p ++ (List.replicate n 1 ++ t.shape.drop p) := by
        rw [List.append_assoc]
      have hb := insertIdx_append_boundary (t.shape.take p)
        (List.replicate n 1 ++ t.shape.drop p) 1
      rw [h1] at hb
      rw [h2, hb, List.append_assoc]
      congr 1
    · show (((List.range n).foldl (fun t _ => expandDimsT t p) t).static.insertIdx p (some 1))
        = t.static.take p ++ List.replicate (n + 1) (some 1) ++ t.static.drop p
      rw [hst]
      have h1 : (t.static.take p).length = p := by
        rw [List.length_take]; omega
      have h2 : t.static.take p ++ List.replicate n (some 1) ++ t.static.drop p
          = t.static.take p ++ (List.replicate n (some 1) ++ t.static.drop p) := by
        rw [List.append_assoc]
      have hb := insertIdx_append_boundary (t.static.take p)
        (List.replicate n (some 1) ++ t.static.drop p) (some 1)
      rw [h1] at hb
      rw [h2, hb, List.append_assoc]
      congr 1
    · intro idx hlen
      show ((List.range n).foldl (fun t _ => expandDimsT t p) t).data (idx.eraseIdx p)
        = t.data (idx.take p ++ idx.drop (p + (n + 1)))
      rw [hdata _ (by rw [List.length_eraseIdx, if_pos (by omega)]; omega)]
      rw [List.eraseIdx_eq_take_drop_succ]
      have h1 : (idx.take p).length = p := by
        rw [List.length_take]; omega
      rw [List.take_left' h1]
      congr 1
      have h2 : p + n = (idx.take p).length + n := by omega
      rw [h2, List.drop_append, List.drop_drop]
      congr 2
      omega

theorem zipShape_known : ∀ (sh : List Nat),
    ((sh.map some).zip sh).map (fun p =>
        match p.1 with
        | some v => MDim.known v
        | none => MDim.dynVal p.2)
      = sh.map .known := by
  intro sh
  induction sh with
  | nil => rfl
  | cons d ds ih => simp [ih]

theorem getShapeM_fullyKnown (t : Tensor) (hfk : t.static = t.shape.map some) :
    getShapeM t = t.shape.map .known := by
  rw [getShapeM, hfk]
  exact zipShape_known t.shape

theorem totalSize_known (sh : List Nat) :
    totalSize (sh.map .known) = .known sh.prod := by
  rw [totalSize, if_pos]
  · congr 1
    congr 1
    rw [List.map_map]
    rw [show (MDim.rt ∘ MDim.known) = id from rfl, List.map_id]
  · rw [List.all_eq_true]
    intro x hx
    rcases List.mem_map.mp hx with ⟨v, _, rfl⟩
    rfl

theorem map_rt_known (ns : List Nat) : (ns.map MDim.known).map MDim.rt = ns := by
  rw [List.map_map, show (MDim.rt ∘ MDim.known) = id from rfl, List.map_id]

theorem map_st_known (ns : List Nat) : (ns.map MDim.known).map MDim.st = ns.map some := by
  rw [List.map_map]
  rfl

/-- Fully known reshape with matching element counts: the result is the
row-major reindexing, whether or not the source short-circuits it. -/
theorem reshape_known_sem (t : Tensor) (ns : List Nat)
    (hfk : t.static = t.shape.map some)
    (hprod : t.shape.prod = ns.prod) :
    ∃ t', reshapeIfNecessary t (ns.map .known) = .ok t' ∧
      t'.shape = ns ∧ t'.static = ns.map some ∧
      ∀ idx, idxOk ns idx = true → t'.data idx = t.data (unflat t.shape (flat ns idx)) := by
  rw [reshapeIfNecessary]
  by_cases hskip : (ns.map MDim.known).length = t.static.length ∧
      ((t.static.zip (ns.map MDim.known)).all fun p =>
        match p.1, p.2 with
        | some a, .known b => a == b
        | _, _ => false) = true
  · rw [if_pos hskip]
    rcases hskip with ⟨hlen, hall⟩
    have hshl : t.shape.length = ns.length := by
      have := congrArg List.length hfk
      simp only [List.length_map] at this hlen ⊢
      omega
    have hsh : t.shape = ns := by
      refine List.ext_getElem hshl ?_
      intro i h1 h2
      rw [List.all_eq_true] at hall
      have hi : i < (t.static.zip (ns.map MDim.known)).length := by
        rw [List.length_zip]
        simp only [List.length_map]
        rw [hfk]
        simp only [List.length_map]
        omega
      have := hall _ (List.getElem_mem hi)
      simp only [List.getElem_zip, hfk, List.getElem_map] at this
      simpa using this
    refine ⟨t, rfl, hsh, by rw [hfk, hsh], ?_⟩
    intro idx hok
    rw [← hsh] at hok ⊢
    rw [unflat_flat _ _ hok]
  · rw [if_neg hskip]
    have hc : ¬ ((ns.map MDim.known).all MDim.isKnown = true ∧
        t.static.all Option.isSome = true ∧
        t.shape.prod ≠ ((ns.map MDim.known).map MDim.rt).prod) := by
      intro h
      rcases h with ⟨_, _, h3⟩
      rw [map_rt_known] at h3
      exact h3 hprod
    rw [if_neg hc]
    refine ⟨_, rfl, ?_, ?_, ?_⟩
    · show ((ns.map MDim.known).map MDim.rt) = ns
      exact map_rt_known ns
    · show ((ns.map MDim.known).map MDim.st) = ns.map some
      exact map_st_known ns
    · intro idx hok
      show t.data (unflat t.shape (flat ((ns.map MDim.known).map MDim.rt) idx))
        = t.data (unflat t.shape (flat ns idx))
      rw [map_rt_known]

theorem updList_notMem (σ : Char → Nat) :
    ∀ (S : List Char) (is : Idx) (c : Char), c ∉ S → updList σ S is c = σ c := by
  intro S
  induction S generalizing σ with
  | nil => intro is c _; cases is <;> rfl
  | cons d ds ih =>
    intro is c hc
    cases is with
    | nil => rfl
    | cons x xs =>
      rw [updList]
      rw [ih (upd σ d x) xs c (fun h => hc (List.mem_cons_of_mem _ h))]
      exact upd_other _ _ _ _ (fun h => hc (h ▸ List.mem_cons_self _ _))

theorem map_updList (σ : Char → Nat) :
    ∀ (S : List Char) (is : Idx), S.Nodup → is.length = S.length →
      S.map (updList σ S is) = is := by
  intro S
  induction S generalizing σ with
  | nil =>
    intro is _ hlen
    rw [List.length_nil] at hlen
    rw [List.eq_nil_of_length_eq_zero hlen]
    rfl
  | cons d ds ih =>
    intro is hnd hlen
    cases is with
    | nil => simp at hlen
    | cons x xs =>
      rw [List.map_cons, updList]
      have hd : d ∉ ds := (List.nodup_cons.mp hnd).1
      congr 1
      · rw [updList_notMem _ _ _ _ hd, upd_same]
      · exact ih (upd σ d x) xs (List.nodup_cons.mp hnd).2 (by simpa using hlen)

/-- Coordinates written by `updList` are bounded by the sizes when the index
is valid for the label sizes. -/
theorem updList_lt (sz : Char → Nat) (σ : Char → Nat) (S : List Char) (is : Idx)
    (hnd : S.Nodup) (hok : idxOk (S.map sz) is = true) :
    ∀ c ∈ S, updList σ S is c < sz c := by
  intro c hc
  have hlen : is.length = S.length := by
    rw [idxOk, Bool.and_eq_true, beq_iff_eq] at hok
    simpa using hok.1
  have hmap := map_updList σ S is hnd hlen
  have hi := List.indexOf_lt_length.mpr hc
  have hia : S.indexOf c < (S.map (updList σ S is)).length := by simpa using hi
  have hib : S.indexOf c < is.length := by rw [hlen]; exact hi
  have hic : S.indexOf c < (S.map sz).length := by simpa using hi
  have h1 : (S.map (updList σ S is))[S.indexOf c]
      = updList σ S is c := by
    rw [List.getElem_map, List.getElem_indexOf hi]
  have h2 : is[S.indexOf c] = updList σ S is c := by
    rw [← h1]
    congr 1
    exact hmap.symm
  rw [idxOk, Bool.and_eq_true, List.all_eq_true] at hok
  have hjz : S.indexOf c < (is.zip (S.map sz)).length := by
    rw [List.length_zip]
    simp only [List.length_map]
    omega
  have hp := hok.2 _ (List.getElem_mem hjz)
  rw [List.getElem_zip] at hp
  simp only [decide_eq_true_eq] at hp
  have h3 : (S.map sz)[S.indexOf c] = sz c := by
    rw [List.getElem_map, List.getElem_indexOf hi]
  calc updList σ S is c = is[S.indexOf c] := h2.symm
    _ < (S.map sz)[S.indexOf c] := hp
    _ = sz c := h3

theorem mapM_option_eq_some_map {α β : Type _} (f : α → Option β) (g : α → β) :
    ∀ (l : List α), (∀ a ∈ l, f a = some (g a)) → l.mapM f = some (l.map g) := by
  intro l
  induction l with
  | nil => intro _; rfl
  | cons a l ih =>
    intro h
    rw [List.mapM_cons, h a (List.mem_cons_self _ _),
      ih (fun b hb => h b (List.mem_cons_of_mem _ hb))]
    rfl

theorem mapM_option_map {α β γ : Type _} (f : β → Option γ) (h : α → β) :
    ∀ l : List α, (l.map h).mapM f = l.mapM (fun a => f (h a)) := by
  intro l
  induction l with
  | nil => rfl
  | cons a l ih => rw [List.map_cons, List.mapM_cons, List.mapM_cons, ih]

theorem bcastNat_max (a b : Nat) (ha : 1 ≤ a) (hb : 1 ≤ b)
    (hc : a = b ∨ a = 1 ∨ b = 1) : bcastNat a b = some (max a b) := by
  rw [bcastNat]
  by_cases hab : a = b
  · rw [if_pos hab]
    subst hab
    rw [Nat.max_self]
  · rw [if_neg hab]
    rcases hc with h | h | h
    · exact absurd h hab
    · rw [if_pos h]
      subst h
      congr 1
      omega
    · rw [if_neg, if_pos h]
      · subst h
        congr 1
        omega
      · omega

/-- Elementwise multiply of two equal-rank fully known tensors with
broadcast-compatible positive shapes. -/
theorem mulT_known (t₁ t₂ : Tensor)
    (h₁ : t₁.static = t₁.shape.map some) (h₂ : t₂.static = t₂.shape.map some)
    (hr : t₂.shape.length = t₁.shape.length)
    (hcompat : ∀ p ∈ t₁.shape.zip t₂.shape,
      (1 ≤ p.1 ∧ 1 ≤ p.2) ∧ (p.1 = p.2 ∨ p.1 = 1 ∨ p.2 = 1)) :
    ∃ t, mulT t₁ t₂ = .ok t ∧
      t.shape = (t₁.shape.zip t₂.shape).map (fun p => max p.1 p.2) ∧
      t.static = ((t₁.shape.zip t₂.shape).map (fun p => max p.1 p.2)).map some ∧
      ∀ idx : Idx, t.data idx
        = t₁.data (bcastIdx t₁.shape (max t₁.shape.length t₂.shape.length) idx)
          * t₂.data (bcastIdx t₂.shape (max t₁.shape.length t₂.shape.length) idx) := by
  have e0 : max t₁.shape.length t₂.shape.length = t₁.shape.length := by omega
  have e1 : max t₁.shape.length t₂.shape.length - t₁.shape.length = 0 := by omega
  have e2 : max t₁.shape.length t₂.shape.length - t₂.shape.length = 0 := by omega
  have e3 : max t₁.shape.length t₂.shape.length - t₁.static.length = 0 := by
    rw [h₁]
    simp only [List.length_map]
    omega
  have e4 : max t₁.shape.length t₂.shape.length - t₂.static.length = 0 := by
    rw [h₂]
    simp only [List.length_map]
    omega
  have hstz : ((List.replicate (max t₁.shape.length t₂.shape.length - t₁.static.length)
        (some 1) ++ t₁.static).zip
      (List.replicate (max t₁.shape.length t₂.shape.length - t₂.static.length)
        (some 1) ++ t₂.static)).mapM (fun p : Option Nat × Option Nat => bcastStatic p.1 p.2)
      = some (((t₁.shape.zip t₂.shape).map (fun p => max p.1 p.2)).map some) := by
    rw [e3, e4]
    simp only [List.replicate_zero, List.nil_append]
    rw [h₁, h₂, List.zip_map, mapM_option_map]
    rw [show ((t₁.shape.zip t₂.shape).map (fun p => max p.1 p.2)).map some
      = (t₁.shape.zip t₂.shape).map (fun p => some (max p.1 p.2)) from by rw [List.map_map]; rfl]
    refine mapM_option_eq_some_map _ _ _ ?_
    intro p hp
    rcases hcompat p hp with ⟨⟨ha, hb⟩, hc⟩
    show bcastStatic (some p.1) (some p.2) = some (some (max p.1 p.2))
    rw [bcastStatic]
    rw [bcastNat_max p.1 p.2 ha hb hc]
    rfl
  rw [mulT]
  rw [hstz]
  refine ⟨_, rfl, ?_, ?_, ?_⟩
  · show ((List.replicate (max t₁.shape.length t₂.shape.length - t₁.shape.length) 1
        ++ t₁.shape).zip
      (List.replicate (max t₁.shape.length t₂.shape.length - t₂.shape.length) 1
        ++ t₂.shape)).map (fun p : Nat × Nat => max p.1 p.2)
      = (t₁.shape.zip t₂.shape).map (fun p : Nat × Nat => max p.1 p.2)
    rw [e1, e2]
    simp
  · rfl
  · intro idx
    rfl

/-! ## C1: further index-arithmetic and broadcast-index helpers -/

theorem flat_unflat : ∀ (ds : List Nat) (k : Nat),
    k < ds.prod → flat ds (unflat ds k) = k := by
  intro ds
  induction ds with
  | nil =>
    intro k hk
    simp only [List.prod_nil] at hk
    have hk0 : k = 0 := by omega
    rw [hk0]
    rfl
  | cons d ds ih =>
    intro k hk
    rw [List.prod_cons] at hk
    have hP : 0 < ds.prod := by
      rcases Nat.eq_zero_or_pos ds.prod with h | h
      · rw [h, Nat.mul_zero] at hk; omega
      · exact h
    rw [unflat, flat, ih _ (Nat.mod_lt _ hP), Nat.mul_comm (k / ds.prod) ds.prod]
    exact Nat.div_add_mod k ds.prod

theorem unflat_length : ∀ (ds : List Nat) (k : Nat), (unflat ds k).length = ds.length := by
  intro ds
  induction ds with
  | nil => intro k; rfl
  | cons d ds ih => intro k; rw [unflat, List.length_cons, List.length_cons, ih]

theorem idxOk_map_of_lt (sz σ : Char → Nat) :
    ∀ (X : List Char), (∀ c ∈ X, σ c < sz c) → idxOk (X.map sz) (X.map σ) = true := by
  intro X
  induction X with
  | nil => intro _; rfl
  | cons c cs ih =>
    intro h
    rw [List.map_cons, List.map_cons, idxOk_cons_iff]
    exact ⟨h c (List.mem_cons_self _ _), ih fun d hd => h d (List.mem_cons_of_mem _ hd)⟩

theorem idxOk_append (ds₁ : List Nat) (i₁ : Idx) (ds₂ : List Nat) (i₂ : Idx)
    (h₁ : idxOk ds₁ i₁ = true) (h₂ : idxOk ds₂ i₂ = true) :
    idxOk (ds₁ ++ ds₂) (i₁ ++ i₂) = true := by
  induction ds₁ generalizing i₁ with
  | nil =>
    rw [(idxOk_nil_iff i₁).mp h₁]
    exact h₂
  | cons d ds ih =>
    cases i₁ with
    | nil => simp [idxOk] at h₁
    | cons i is =>
      rcases (idxOk_cons_iff d ds i is).mp h₁ with ⟨hi, his⟩
      rw [List.cons_append, List.cons_append, idxOk_cons_iff]
      exact ⟨hi, ih is his⟩

theorem map_ite_one_replicate (v : List Nat) :
    ∀ (n : Nat), v.length = n →
      ((List.replicate n 1).zip v).map (fun p => if p.1 = 1 then 0 else p.2)
        = List.replicate n 0 := by
  induction v with
  | nil =>
    intro n hn
    rw [← hn]
    rfl
  | cons x xs ih =>
    intro n hn
    cases n with
    | zero => simp at hn
    | succ m =>
      rw [List.replicate_succ, List.zip_cons_cons, List.map_cons,
        ih m (by simpa using hn), List.replicate_succ]
      rfl

theorem map_ite_sz (sz σ : Char → Nat) (X : List Char) (h : ∀ c ∈ X, σ c < sz c) :
    ((X.map sz).zip (X.map σ)).map (fun p => if p.1 = 1 then 0 else p.2) = X.map σ := by
  induction X with
  | nil => rfl
  | cons c cs ih =>
    rw [List.map_cons, List.map_cons, List.zip_cons_cons, List.map_cons,
      ih fun d hd => h d (List.mem_cons_of_mem _ hd)]
    have hc := h c (List.mem_cons_self _ _)
    by_cases h1 : sz c = 1
    · have h0 : σ c = 0 := by omega
      show (if sz c = 1 then 0 else σ c) :: List.map σ cs = σ c :: List.map σ cs
      rw [if_pos h1, h0]
    · show (if sz c = 1 then 0 else σ c) :: List.map σ cs = σ c :: List.map σ cs
      rw [if_neg h1]

theorem bcastIdx_eq_zip (shape : List Nat) (outRank : Nat) (idx : Idx)
    (h : shape.length = outRank) :
    bcastIdx shape outRank idx
      = (shape.zip idx).map (fun p => if p.1 = 1 then 0 else p.2) := by
  rw [bcastIdx, h, Nat.sub_self, List.drop_zero]

/-! ## C1: the three axis classes of `_einsum_reduction` -/

/-- Labels preserved by a pairwise reduction: common to both operands and not
summed. -/
def redPres (l0 l1 S : List Char) : List Char :=
  l0.filter fun c => l1.contains c && !S.contains c

/-- Labels exclusive to operand 0. -/
def redB0 (l0 l1 : List Char) : List Char := l0.filter fun c => !l1.contains c

/-- Labels exclusive to operand 1. -/
def redB1 (l0 l1 : List Char) : List Char := l1.filter fun c => !l0.contains c

/-- The label list a pairwise reduction attaches to its result. -/
def redOut (l0 l1 S : List Char) : List Char :=
  pySorted charLe (redPres l0 l1 S) ++ pySorted charLe (redB0 l0 l1)
    ++ pySorted charLe (redB1 l0 l1)

theorem mem_redPres {l0 l1 S : List Char} {c : Char} :
    c ∈ redPres l0 l1 S ↔ c ∈ l0 ∧ c ∈ l1 ∧ c ∉ S := by
  rw [redPres, List.mem_filter, Bool.and_eq_true, Bool.not_eq_true']
  constructor
  · rintro ⟨h0, h1, hS⟩
    refine ⟨h0, List.elem_iff.mp h1, fun hc => ?_⟩
    have hS' : List.elem c S = false := hS
    rw [List.elem_eq_true_of_mem hc] at hS'
    cases hS'
  · rintro ⟨h0, h1, hS⟩
    refine ⟨h0, List.elem_iff.mpr h1, ?_⟩
    cases hc : S.contains c
    · rfl
    · exact absurd (List.elem_iff.mp hc) hS

theorem mem_redB0 {l0 l1 : List Char} {c : Char} :
    c ∈ redB0 l0 l1 ↔ c ∈ l0 ∧ c ∉ l1 := by
  rw [redB0, List.mem_filter, Bool.not_eq_true']
  constructor
  · rintro ⟨h0, h1⟩
    refine ⟨h0, fun hc => ?_⟩
    have h1' : List.elem c l1 = false := h1
    rw [List.elem_eq_true_of_mem hc] at h1'
    cases h1'
  · rintro ⟨h0, h1⟩
    refine ⟨h0, ?_⟩
    cases hc : l1.contains c
    · rfl
    · exact absurd (List.elem_iff.mp hc) h1

theorem mem_redB1 {l0 l1 : List Char} {c : Char} :
    c ∈ redB1 l0 l1 ↔ c ∈ l1 ∧ c ∉ l0 := mem_redB0

theorem redOut_mem {l0 l1 S : List Char} {c : Char}
    (hS0 : ∀ c ∈ S, c ∈ l0) (hS1 : ∀ c ∈ S, c ∈ l1) :
    c ∈ redOut l0 l1 S ↔ (c ∈ l0 ∨ c ∈ l1) ∧ c ∉ S := by
  rw [redOut, List.mem_append, List.mem_append, mem_pySorted, mem_pySorted,
    mem_pySorted, mem_redPres, mem_redB0, mem_redB1]
  constructor
  · rintro ((⟨h0, h1, hS⟩ | ⟨h0, h1⟩) | ⟨h1, h0⟩)
    · exact ⟨Or.inl h0, hS⟩
    · exact ⟨Or.inl h0, fun hc => h1 (hS1 c hc)⟩
    · exact ⟨Or.inr h1, fun hc => h0 (hS0 c hc)⟩
  · rintro ⟨h01, hS⟩
    by_cases h0 : c ∈ l0
    · by_cases h1 : c ∈ l1
      · exact Or.inl (Or.inl ⟨h0, h1, hS⟩)
      · exact Or.inl (Or.inr ⟨h0, h1⟩)
    · rcases h01 with h | h1
      · exact absurd h h0
      · exact Or.inr ⟨h1, h0⟩

theorem redOut_nodup {l0 l1 S : List Char} (hnd0 : l0.Nodup) (hnd1 : l1.Nodup) :
    (redOut l0 l1 S).Nodup := by
  have hP : (pySorted charLe (redPres l0 l1 S)).Nodup :=
    (perm_pySorted charLe _).symm.nodup (hnd0.filter _)
  have hB0 : (pySorted charLe (redB0 l0 l1)).Nodup :=
    (perm_pySorted charLe _).symm.nodup (hnd0.filter _)
  have hB1 : (pySorted charLe (redB1 l0 l1)).Nodup :=
    (perm_pySorted charLe _).symm.nodup (hnd1.filter _)
  rw [redOut, List.nodup_append, List.nodup_append]
  refine ⟨⟨hP, hB0, ?_⟩, hB1, ?_⟩
  · intro c hc hc'
    rw [mem_pySorted, mem_redPres] at hc
    rw [mem_pySorted, mem_redB0] at hc'
    exact hc'.2 hc.2.1
  · intro c hc hc'
    rw [mem_pySorted, mem_redB1] at hc'
    rw [List.mem_append, mem_pySorted, mem_pySorted, mem_redPres, mem_redB0] at hc
    rcases hc with h | h
    · exact hc'.2 h.1
    · exact hc'.2 h.1

theorem contains_eq_true_iff (l : List Char) (c : Char) : l.contains c = true ↔ c ∈ l :=
  List.elem_iff

theorem contains_eq_false_iff (l : List Char) (c : Char) : l.contains c = false ↔ c ∉ l := by
  constructor
  · intro h hc
    have h' : List.elem c l = false := h
    rw [List.elem_eq_true_of_mem hc] at h'
    cases h'
  · intro h
    cases hc : l.contains c
    · rfl
    · exact absurd ((contains_eq_true_iff l c).mp hc) h

theorem redPres_eq (l0 l1 S : List Char) (hnd0 : l0.Nodup) :
    ((l0.filter fun c => l1.contains c).dedup.filter fun c => !S.contains c)
      = redPres l0 l1 S := by
  rw [List.Nodup.dedup (hnd0.filter _), List.filter_filter, redPres]
  refine List.filter_congr ?_
  intro c _
  exact Bool.and_comm _ _

theorem redB0_eq (l0 l1 S : List Char) (hnd0 : l0.Nodup) (hS1 : ∀ c ∈ S, c ∈ l1) :
    (l0.dedup.filter fun c => !(redPres l0 l1 S).contains c && !S.contains c)
      = redB0 l0 l1 := by
  rw [List.Nodup.dedup hnd0, redB0]
  refine List.filter_congr ?_
  intro c hc
  refine Bool.coe_iff_coe.mp ?_
  simp only [Bool.and_eq_true, Bool.not_eq_true', contains_eq_false_iff]
  rw [mem_redPres]
  constructor
  · rintro ⟨hp, hs⟩ h1
    exact hp ⟨hc, h1, hs⟩
  · intro h1
    exact ⟨fun h => h1 h.2.1, fun h => h1 (hS1 c h)⟩

theorem redB1_eq (l0 l1 S : List Char) (hnd1 : l1.Nodup) (hS0 : ∀ c ∈ S, c ∈ l0) :
    (l1.dedup.filter fun c => !(redPres l0 l1 S).contains c && !S.contains c)
      = redB1 l0 l1 := by
  rw [List.Nodup.dedup hnd1, redB1]
  refine List.filter_congr ?_
  intro c hc
  refine Bool.coe_iff_coe.mp ?_
  simp only [Bool.and_eq_true, Bool.not_eq_true', contains_eq_false_iff]
  rw [mem_redPres]
  constructor
  · rintro ⟨hp, hs⟩ h0
    exact hp ⟨h0, hc, hs⟩
  · intro h0
    exact ⟨fun h => h0 h.1, fun h => h0 (hS0 c h)⟩

theorem sorted0_decomp (l0 l1 S : List Char) (hnd0 : l0.Nodup) (hndS : S.Nodup)
    (hS0 : ∀ c ∈ S, c ∈ l0) (hS1 : ∀ c ∈ S, c ∈ l1) :
    pySorted (rkLe fun a => if (redPres l0 l1 S).contains a = true then 0
        else if (redB0 l0 l1).contains a = true then 1 else 2) l0
      = pySorted charLe (redPres l0 l1 S) ++ pySorted charLe (redB0 l0 l1)
        ++ pySorted charLe S := by
  have hkey : ∀ c : Char, (if (redPres l0 l1 S).contains c = true then 0
      else if (redB0 l0 l1).contains c = true then (1 : Nat) else 2) ≤ 2 := by
    intro c
    split
    · omega
    · split <;> omega
  have hdec := pySorted_rkLe_decomp (fun a => if (redPres l0 l1 S).contains a = true then 0
      else if (redB0 l0 l1).contains a = true then 1 else 2) hkey l0
  rw [hdec]
  congr 1
  · congr 1
    · refine pySorted_charLe_perm ((List.perm_ext_iff_of_nodup (hnd0.filter _)
        (hnd0.filter _)).mpr ?_)
      intro c
      simp only [List.mem_filter, beq_iff_eq]
      constructor
      · rintro ⟨hc, hk⟩
        refine ⟨hc, ?_⟩
        by_cases hp : c ∈ redPres l0 l1 S
        · exact (List.mem_filter.mp hp).2
        · rw [if_neg (fun h => hp ((contains_eq_true_iff _ _).mp h))] at hk
          split at hk <;> omega
      · rintro ⟨hc, hpred⟩
        refine ⟨hc, ?_⟩
        have hp : c ∈ redPres l0 l1 S := List.mem_filter.mpr ⟨hc, hpred⟩
        rw [if_pos ((contains_eq_true_iff _ _).mpr hp)]
    · refine pySorted_charLe_perm ((List.perm_ext_iff_of_nodup (hnd0.filter _)
        (hnd0.filter _)).mpr ?_)
      intro c
      simp only [List.mem_filter, beq_iff_eq]
      rw [Bool.not_eq_true', contains_eq_false_iff]
      constructor
      · rintro ⟨hc, hk⟩
        refine ⟨hc, ?_⟩
        intro h1
        by_cases hp : c ∈ redPres l0 l1 S
        · rw [if_pos ((contains_eq_true_iff _ _).mpr hp)] at hk
          omega
        · rw [if_neg (fun h => hp ((contains_eq_true_iff _ _).mp h))] at hk
          by_cases hb : c ∈ redB0 l0 l1
          · exact (mem_redB0.mp hb).2 h1
          · rw [if_neg (fun h => hb ((contains_eq_true_iff _ _).mp h))] at hk
            omega
      · rintro ⟨hc, h1⟩
        refine ⟨hc, ?_⟩
        have hb : c ∈ redB0 l0 l1 := mem_redB0.mpr ⟨hc, h1⟩
        have hp : c ∉ redPres l0 l1 S := fun h => h1 (mem_redPres.mp h).2.1
        rw [if_neg (fun h => hp ((contains_eq_true_iff _ _).mp h)),
          if_pos ((contains_eq_true_iff _ _).mpr hb)]
  · refine pySorted_charLe_perm ((List.perm_ext_iff_of_nodup (hnd0.filter _) hndS).mpr ?_)
    intro c
    simp only [List.mem_filter, beq_iff_eq]
    constructor
    · rintro ⟨hc, hk⟩
      by_cases hp : c ∈ redPres l0 l1 S
      · rw [if_pos ((contains_eq_true_iff _ _).mpr hp)] at hk
        omega
      · rw [if_neg (fun h => hp ((contains_eq_true_iff _ _).mp h))] at hk
        by_cases hb : c ∈ redB0 l0 l1
        · rw [if_pos ((contains_eq_true_iff _ _).mpr hb)] at hk
          omega
        · by_contra hS
          have h1 : c ∈ l1 := by
            by_contra h1
            exact hb (mem_redB0.mpr ⟨hc, h1⟩)
          exact hp (mem_redPres.mpr ⟨hc, h1, hS⟩)
    · intro hS
      have hc : c ∈ l0 := hS0 c hS
      refine ⟨hc, ?_⟩
      have hp : c ∉ redPres l0 l1 S := fun h => (mem_redPres.mp h).2.2 hS
      have hb : c ∉ redB0 l0 l1 := fun h => (mem_redB0.mp h).2 (hS1 c hS)
      rw [if_neg (fun h => hp ((contains_eq_true_iff _ _).mp h)),
        if_neg (fun h => hb ((contains_eq_true_iff _ _).mp h))]

theorem sorted1_decomp (l0 l1 S : List Char) (hnd0 : l0.Nodup) (hnd1 : l1.Nodup)
    (hndS : S.Nodup) (hS0 : ∀ c ∈ S, c ∈ l0) (hS1 : ∀ c ∈ S, c ∈ l1) :
    pySorted (rkLe fun a => if (redPres l0 l1 S).contains a = true then 0
        else if S.contains a = true then 1 else 2) l1
      = pySorted charLe (redPres l0 l1 S) ++ pySorted charLe S
        ++ pySorted charLe (redB1 l0 l1) := by
  have hkey : ∀ c : Char, (if (redPres l0 l1 S).contains c = true then 0
      else if S.contains c = true then (1 : Nat) else 2) ≤ 2 := by
    intro c
    split
    · omega
    · split <;> omega
  have hdec := pySorted_rkLe_decomp (fun a => if (redPres l0 l1 S).contains a = true then 0
      else if S.contains a = true then 1 else 2) hkey l1
  rw [hdec]
  congr 1
  · congr 1
    · refine pySorted_charLe_perm ((List.perm_ext_iff_of_nodup (hnd1.filter _)
        (hnd0.filter _)).mpr ?_)
      intro c
      simp only [List.mem_filter, beq_iff_eq]
      constructor
      · rintro ⟨hc, hk⟩
        by_cases hp : c ∈ redPres l0 l1 S
        · exact List.mem_filter.mp hp
        · rw [if_neg (fun h => hp ((contains_eq_true_iff _ _).mp h))] at hk
          split at hk <;> omega
      · intro hp'
        have hp : c ∈ redPres l0 l1 S := List.mem_filter.mpr hp'
        refine ⟨(mem_redPres.mp hp).2.1, ?_⟩
        rw [if_pos ((contains_eq_true_iff _ _).mpr hp)]
    · refine pySorted_charLe_perm ((List.perm_ext_iff_of_nodup (hnd1.filter _) hndS).mpr ?_)
      intro c
      simp only [List.mem_filter, beq_iff_eq]
      constructor
      · rintro ⟨hc, hk⟩
        by_cases hp : c ∈ redPres l0 l1 S
        · rw [if_pos ((contains_eq_true_iff _ _).mpr hp)] at hk
          omega
        · rw [if_neg (fun h => hp ((contains_eq_true_iff _ _).mp h))] at hk
          by_cases hs : c ∈ S
          · exact hs
          · rw [if_neg (fun h => hs ((contains_eq_true_iff _ _).mp h))] at hk
            omega
      · intro hs
        have hp : c ∉ redPres l0 l1 S := fun h => (mem_redPres.mp h).2.2 hs
        rw [if_neg (fun h => hp ((contains_eq_true_iff _ _).mp h)),
          if_pos ((contains_eq_true_iff _ _).mpr hs)]
        exact ⟨hS1 c hs, rfl⟩
  · refine pySorted_charLe_perm ((List.perm_ext_iff_of_nodup (hnd1.filter _)
      (hnd1.filter _)).mpr ?_)
    intro c
    simp only [List.mem_filter, beq_iff_eq]
    rw [Bool.not_eq_true', contains_eq_false_iff]
    constructor
    · rintro ⟨hc, hk⟩
      refine ⟨hc, ?_⟩
      intro h0
      by_cases hp : c ∈ redPres l0 l1 S
      · rw [if_pos ((contains_eq_true_iff _ _).mpr hp)] at hk
        omega
      · rw [if_neg (fun h => hp ((contains_eq_true_iff _ _).mp h))] at hk
        by_cases hs : c ∈ S
        · rw [if_pos ((contains_eq_true_iff _ _).mpr hs)] at hk
          omega
        · exact hp (mem_redPres.mpr ⟨h0, hc, hs⟩)
    · rintro ⟨hc, h0⟩
      refine ⟨hc, ?_⟩
      have hs : c ∉ S := fun h => h0 (hS0 c h)
      have hp : c ∉ redPres l0 l1 S := fun h => h0 (mem_redPres.mp h).1
      rw [if_neg (fun h => hp ((contains_eq_true_iff _ _).mp h)),
        if_neg (fun h => hs ((contains_eq_true_iff _ _).mp h))]

theorem zip_replicate_right {α β : Type _} (x : β) :
    ∀ (v : List α) (n : Nat), v.length = n →
      v.zip (List.replicate n x) = v.map fun a => (a, x) := by
  intro v
  induction v with
  | nil => intro n _; rfl
  | cons a as ih =>
    intro n hn
    cases n with
    | zero => simp at hn
    | succ m =>
      rw [List.replicate_succ, List.zip_cons_cons, List.map_cons, ih m (by simpa using hn)]

theorem zip_replicate_left {α β : Type _} (x : α) :
    ∀ (n : Nat) (v : List β), v.length = n →
      (List.replicate n x).zip v = v.map fun b => (x, b) := by
  intro n
  induction n with
  | zero =>
    intro v hv
    rw [List.eq_nil_of_length_eq_zero hv]
    rfl
  | succ m ih =>
    intro v hv
    cases v with
    | nil => simp at hv
    | cons b bs =>
      rw [List.replicate_succ, List.zip_cons_cons, List.map_cons, ih bs (by simpa using hv)]

theorem except_bind_ok {α β : Type _} (a : α) (f : α → Except Err β) :
    (Except.ok a >>= f) = f a := rfl

/-- The batched matrix multiply on fully known operands with matching batch
and inner dimensions. -/
theorem matmulT_sem (t₁ t₂ : Tensor) (A : List Nat) (m k n : Nat)
    (hsh1 : t₁.shape = A ++ [m, k]) (hsh2 : t₂.shape = A ++ [k, n])
    (hst1 : t₁.static = t₁.shape.map some) (hst2 : t₂.static = t₂.shape.map some) :
    ∃ t, matmulT t₁ t₂ = .ok t ∧ t.shape = A ++ [m, n] ∧ t.static = t.shape.map some ∧
      ∀ (b : Idx) (i j : Nat), b.length = A.length →
        t.data (b ++ [i, j]) = ∑ x ∈ Finset.range k,
          t₁.data (b ++ [i, x]) * t₂.data (b ++ [x, j]) := by
  have hr1 : t₁.shape.length = A.length + 2 := by rw [hsh1]; simp
  have hr2 : t₂.shape.length = A.length + 2 := by rw [hsh2]; simp
  have hA2 : A.length + 2 - 2 = A.length := by omega
  have htk1 : t₁.shape.take (A.length + 2 - 2) = A := by
    rw [hA2, hsh1, List.take_left' rfl]
  have htk2 : t₂.shape.take (A.length + 2 - 2) = A := by
    rw [hA2, hsh2, List.take_left' rfl]
  have hstk1 : t₁.static.take (A.length + 2 - 2) = A.map some := by
    rw [hst1, hsh1, hA2, List.map_append, List.take_left' (by simp)]
  have hstk2 : t₂.static.take (A.length + 2 - 2) = A.map some := by
    rw [hst2, hsh2, hA2, List.map_append, List.take_left' (by simp)]
  have hgd1 : ∀ d, t₁.static.getD (A.length + 2 - 1) d = some k := by
    intro d
    rw [hst1, hsh1, List.map_append, List.getD_append_right _ _ _ _ (by simp)]
    simp
  have hgd2 : ∀ d, t₂.static.getD (A.length + 2 - 2) d = some k := by
    intro d
    rw [hst2, hsh2, List.map_append, List.getD_append_right _ _ _ _ (by simp)]
    simp [hA2]
  rw [matmulT]
  rw [hr1, hr2]
  rw [if_neg (by omega : ¬ (A.length + 2 < 2 ∨ A.length + 2 ≠ A.length + 2))]
  have hokbatch : (((t₁.static.take (A.length + 2 - 2)).zip
      (t₂.static.take (A.length + 2 - 2))).all fun p =>
        match p.1, p.2 with
        | some x, some y => x == y
        | _, _ => true) = true := by
    rw [hstk1, hstk2, List.zip_map' some some, List.all_eq_true]
    intro p hp
    rcases List.mem_map.mp hp with ⟨a, _, rfl⟩
    simp
  rw [if_neg (by rw [hokbatch]; intro h; exact h rfl)]
  rw [if_neg (by rw [hgd1, hgd2]; intro h; exact h (by simp))]
  refine ⟨_, rfl, ?_, ?_, ?_⟩
  · show t₁.shape.take (A.length + 2 - 2) ++
      [t₁.shape.getD (A.length + 2 - 2) 0, t₂.shape.getD (A.length + 2 - 1) 0] = A ++ [m, n]
    rw [htk1, hsh1, hsh2, List.getD_append_right _ _ _ _ (by omega), List.getD_append_right _ _ _ _ (by omega)]
    simp [hA2]
  · show ((t₁.static.take (A.length + 2 - 2)).zip (t₂.static.take (A.length + 2 - 2))).map
        (fun p => p.1.orElse fun _ => p.2) ++
      [t₁.static.getD (A.length + 2 - 2) none, t₂.static.getD (A.length + 2 - 1) none]
      = (t₁.shape.take (A.length + 2 - 2) ++
        [t₁.shape.getD (A.length + 2 - 2) 0, t₂.shape.getD (A.length + 2 - 1) 0]).map some
    have hsm : t₁.static.getD (A.length + 2 - 2) none = some m := by
      rw [hst1, hsh1, List.map_append, List.getD_append_right _ _ _ _ (by simp)]
      simp [hA2]
    have hsn : t₂.static.getD (A.length + 2 - 1) none = some n := by
      rw [hst2, hsh2, List.map_append, List.getD_append_right _ _ _ _ (by simp)]
      have h1 : A.length + 2 - 1 - (A.map some).length = 1 := by simp
      rw [h1]
      rfl
    have hm : t₁.shape.getD (A.length + 2 - 2) 0 = m := by
      rw [hsh1, List.getD_append_right _ _ _ _ (by omega)]
      simp [hA2]
    have hn : t₂.shape.getD (A.length + 2 - 1) 0 = n := by
      rw [hsh2, List.getD_append_right _ _ _ _ (by omega)]
      have h1 : A.length + 2 - 1 - A.length = 1 := by omega
      rw [h1]
      rfl
    rw [hsm, hsn, hm, hn, hstk1, hstk2, htk1, List.zip_map' some some, List.map_map,
      List.map_append]
    congr 1
  · intro b i j hb
    show ∑ x ∈ Finset.range (t₁.shape.getD (A.length + 2 - 1) 0),
        t₁.data ((b ++ [i, j]).take (A.length + 2 - 2) ++
          [(b ++ [i, j]).getD (A.length + 2 - 2) 0, x]) *
        t₂.data ((b ++ [i, j]).take (A.length + 2 - 2) ++
          [x, (b ++ [i, j]).getD (A.length + 2 - 1) 0])
      = ∑ x ∈ Finset.range k, t₁.data (b ++ [i, x]) * t₂.data (b ++ [x, j])
    have hkk : t₁.shape.getD (A.length + 2 - 1) 0 = k := by
      rw [hsh1, List.getD_append_right _ _ _ _ (by omega)]
      simp
    have htkb : (b ++ [i, j]).take (A.length + 2 - 2) = b := by
      rw [hA2, List.take_left' hb]
    have hgi : (b ++ [i, j]).getD (A.length + 2 - 2) 0 = i := by
      rw [List.getD_append_right _ _ _ _ (by omega)]
      simp [hA2, hb]
    have hgj : (b ++ [i, j]).getD (A.length + 2 - 1) 0 = j := by
      rw [List.getD_append_right _ _ _ _ (by omega)]
      have h1 : A.length + 2 - 1 - b.length = 1 := by omega
      rw [h1]
      rfl
    rw [hkk, htkb, hgi, hgj]

theorem flat_pair (a b x y : Nat) : flat [a, b] [x, y] = x * b + y := by
  show x * ([b] : List Nat).prod + (y * ([] : List Nat).prod + 0) = x * b + y
  simp

theorem flat_three (X Y Z : List Nat) (x y z : Idx)
    (hx : x.length = X.length) (hy : y.length = Y.length) :
    flat (X ++ Y ++ Z) (x ++ y ++ z)
      = (flat X x * Y.prod + flat Y y) * Z.prod + flat Z z := by
  rw [flat_append (X ++ Y) (x ++ y) Z z (by simp [hx, hy]), flat_append X x Y y hx]

theorem flat_app_pair (X : List Nat) (x : Idx) (hx : x.length = X.length)
    (a b u v : Nat) :
    flat (X ++ [a, b]) (x ++ [u, v]) = flat X x * (a * b) + (u * b + v) := by
  rw [flat_append X x [a, b] [u, v] hx, flat_pair]
  have h : ([a, b] : List Nat).prod = a * b := by simp
  rw [h]

theorem einsumReduction_sem (sz : Char → Nat) (t0 t1 : Tensor) (l0 l1 S : List Char)
    (hnd0 : l0.Nodup) (hnd1 : l1.Nodup) (hndS : S.Nodup)
    (hS0 : ∀ c ∈ S, c ∈ l0) (hS1 : ∀ c ∈ S, c ∈ l1)
    (hpos : ∀ c, 1 ≤ sz c)
    (hsh0 : t0.shape = l0.map sz) (hsh1 : t1.shape = l1.map sz)
    (hfk0 : t0.static = t0.shape.map some) (hfk1 : t1.static = t1.shape.map some) :
    ∃ t, einsumReduction t0 l0 t1 l1 S = .ok (t, redOut l0 l1 S) ∧
      t.shape = (redOut l0 l1 S).map sz ∧
      t.static = t.shape.map some ∧
      ∀ σ : Char → Nat, (∀ c ∈ redOut l0 l1 S, σ c < sz c) →
        t.data ((redOut l0 l1 S).map σ)
          = sumAssign sz S (fun ρ => t0.data (l0.map ρ) * t1.data (l1.map ρ)) σ := by
  have hst0len : t0.static.length = l0.length := by rw [hfk0, hsh0]; simp
  have hst1len : t1.static.length = l1.length := by rw [hfk1, hsh1]; simp
  have hsh0len : t0.shape.length = l0.length := by rw [hsh0]; simp
  have hsh1len : t1.shape.length = l1.length := by rw [hsh1]; simp
  have hall : (S.all fun a => l0.contains a && l1.contains a) = true := by
    rw [List.all_eq_true]
    intro a ha
    rw [Bool.and_eq_true]
    exact ⟨(contains_eq_true_iff _ _).mpr (hS0 a ha),
      (contains_eq_true_iff _ _).mpr (hS1 a ha)⟩
  rw [einsumReduction]
  rw [if_neg (by omega : ¬ l0.length ≠ t0.static.length),
    if_neg (by omega : ¬ l1.length ≠ t1.static.length),
    if_neg (show ¬¬(S.all fun a => l0.contains a && l1.contains a) = true from fun h => h hall)]
  by_cases hSnil : S = []
  · subst hSnil
    simp only [List.isEmpty_nil, if_true]
    rw [redPres_eq l0 l1 [] hnd0,
      redB0_eq l0 l1 [] hnd0 (fun c hc => absurd hc (List.not_mem_nil c)),
      redB1_eq l0 l1 [] hnd1 (fun c hc => absurd hc (List.not_mem_nil c)),
      sorted0_decomp l0 l1 [] hnd0 List.nodup_nil
        (fun c hc => absurd hc (List.not_mem_nil c))
        (fun c hc => absurd hc (List.not_mem_nil c)),
      sorted1_decomp l0 l1 [] hnd0 hnd1 List.nodup_nil
        (fun c hc => absurd hc (List.not_mem_nil c))
        (fun c hc => absurd hc (List.not_mem_nil c))]
    have hsnil : pySorted charLe ([] : List Char) = ([] : List Char) := rfl
    rw [hsnil]
    simp only [List.append_nil]
    simp only [transposeIfNecessary]
    have hperm0 : ((pySorted charLe (redPres l0 l1 [])) ++ (pySorted charLe (redB0 l0 l1))).Perm l0 := by
      have h := perm_pySorted (rkLe fun a => if (redPres l0 l1 []).contains a = true then 0
          else if (redB0 l0 l1).contains a = true then 1 else 2) l0
      rw [sorted0_decomp l0 l1 [] hnd0 List.nodup_nil (fun c hc => absurd hc (List.not_mem_nil c)) (fun c hc => absurd hc (List.not_mem_nil c)), hsnil,
        List.append_nil] at h
      exact h
    have hperm1 : ((pySorted charLe (redPres l0 l1 [])) ++ (pySorted charLe (redB1 l0 l1))).Perm l1 := by
      have h := perm_pySorted (rkLe fun a => if (redPres l0 l1 []).contains a = true then 0
          else if ([] : List Char).contains a = true then 1 else 2) l1
      rw [sorted1_decomp l0 l1 [] hnd0 hnd1 List.nodup_nil (fun c hc => absurd hc (List.not_mem_nil c)) (fun c hc => absurd hc (List.not_mem_nil c)), hsnil,
        List.append_nil] at h
      exact h
    have hplen : (pySorted charLe (redPres l0 l1 [])).length = (redPres l0 l1 []).length :=
      (perm_pySorted charLe _).length_eq
    have hb0len : (pySorted charLe (redB0 l0 l1)).length = (redB0 l0 l1).length :=
      (perm_pySorted charLe _).length_eq
    have hb1len : (pySorted charLe (redB1 l0 l1)).length = (redB1 l0 l1).length :=
      (perm_pySorted charLe _).length_eq
    have h0sh := transposeT_shape t0 l0 ((pySorted charLe (redPres l0 l1 [])) ++ (pySorted charLe (redB0 l0 l1))) sz hperm0 hsh0
    have h0st := transposeT_static t0 l0 ((pySorted charLe (redPres l0 l1 [])) ++ (pySorted charLe (redB0 l0 l1))) sz hperm0 hsh0 hfk0
    have h0data := fun τ => transposeT_data t0 l0 ((pySorted charLe (redPres l0 l1 [])) ++ (pySorted charLe (redB0 l0 l1))) hnd0 hperm0 τ (by omega)
    have h1sh := transposeT_shape t1 l1 ((pySorted charLe (redPres l0 l1 [])) ++ (pySorted charLe (redB1 l0 l1))) sz hperm1 hsh1
    have h1st := transposeT_static t1 l1 ((pySorted charLe (redPres l0 l1 [])) ++ (pySorted charLe (redB1 l0 l1))) sz hperm1 hsh1 hfk1
    have h1data := fun τ => transposeT_data t1 l1 ((pySorted charLe (redPres l0 l1 [])) ++ (pySorted charLe (redB1 l0 l1))) hnd1 hperm1 τ (by omega)
    have h0data' : ∀ τ : Char → Nat,
        (transposeT t0 ((pySorted charLe (redPres l0 l1 []) ++ pySorted charLe (redB0 l0 l1)).map (l0.indexOf ·))).data ((pySorted charLe (redPres l0 l1 [])).map τ ++ (pySorted charLe (redB0 l0 l1)).map τ) = t0.data (l0.map τ) := by
      intro τ
      rw [← List.map_append]
      exact h0data τ
    have h1data' : ∀ τ : Char → Nat,
        (transposeT t1 ((pySorted charLe (redPres l0 l1 []) ++ pySorted charLe (redB1 l0 l1)).map (l1.indexOf ·))).data ((pySorted charLe (redPres l0 l1 [])).map τ ++ (pySorted charLe (redB1 l0 l1)).map τ) = t1.data (l1.map τ) := by
      intro τ
      rw [← List.map_append]
      exact h1data τ
    have hwf0 : (transposeT t0 ((pySorted charLe (redPres l0 l1 []) ++ pySorted charLe (redB0 l0 l1)).map (l0.indexOf ·))).static.length = (transposeT t0 ((pySorted charLe (redPres l0 l1 []) ++ pySorted charLe (redB0 l0 l1)).map (l0.indexOf ·))).shape.length := by
      rw [h0sh, h0st]
      simp
    obtain ⟨hesh0, hest0, hedata0⟩ := expandEnd_spec (redB1 l0 l1).length (transposeT t0 ((pySorted charLe (redPres l0 l1 []) ++ pySorted charLe (redB0 l0 l1)).map (l0.indexOf ·))) hwf0
    have hwf1 : (transposeT t1 ((pySorted charLe (redPres l0 l1 []) ++ pySorted charLe (redB1 l0 l1)).map (l1.indexOf ·))).static.length = (transposeT t1 ((pySorted charLe (redPres l0 l1 []) ++ pySorted charLe (redB1 l0 l1)).map (l1.indexOf ·))).shape.length := by
      rw [h1sh, h1st]
      simp
    have hple1 : (redPres l0 l1 []).length ≤ (transposeT t1 ((pySorted charLe (redPres l0 l1 []) ++ pySorted charLe (redB1 l0 l1)).map (l1.indexOf ·))).shape.length := by
      rw [h1sh, List.length_map, List.length_append]
      omega
    obtain ⟨hmsh1, hmst1, hmdata1⟩ := expandMid_spec (redPres l0 l1 []).length
      (redB0 l0 l1).length (transposeT t1 ((pySorted charLe (redPres l0 l1 []) ++ pySorted charLe (redB1 l0 l1)).map (l1.indexOf ·))) hwf1 hple1
    have hesh0' : (List.foldl (fun t x => expandDimsT t t.shape.length) (transposeT t0 ((pySorted charLe (redPres l0 l1 []) ++ pySorted charLe (redB0 l0 l1)).map (l0.indexOf ·))) (List.range (redB1 l0 l1).length)).shape
        = (pySorted charLe (redPres l0 l1 [])).map sz ++ (pySorted charLe (redB0 l0 l1)).map sz ++ List.replicate (redB1 l0 l1).length 1 := by
      rw [hesh0, h0sh, List.map_append]
    have hfke0 : (List.foldl (fun t x => expandDimsT t t.shape.length) (transposeT t0 ((pySorted charLe (redPres l0 l1 []) ++ pySorted charLe (redB0 l0 l1)).map (l0.indexOf ·))) (List.range (redB1 l0 l1).length)).static = (List.foldl (fun t x => expandDimsT t t.shape.length) (transposeT t0 ((pySorted charLe (redPres l0 l1 []) ++ pySorted charLe (redB0 l0 l1)).map (l0.indexOf ·))) (List.range (redB1 l0 l1).length)).shape.map some := by
      rw [hest0, hesh0, h0st, h0sh]
      simp [List.map_append, List.map_replicate]
    have htS : ((pySorted charLe (redPres l0 l1 [])).map sz ++ (pySorted charLe (redB1 l0 l1)).map sz).take (redPres l0 l1 []).length
        = (pySorted charLe (redPres l0 l1 [])).map sz := List.take_left' (by rw [List.length_map]; exact hplen)
    have hdS : ((pySorted charLe (redPres l0 l1 [])).map sz ++ (pySorted charLe (redB1 l0 l1)).map sz).drop (redPres l0 l1 []).length
        = (pySorted charLe (redB1 l0 l1)).map sz := List.drop_left' (by rw [List.length_map]; exact hplen)
    have hsh1e : (List.foldl (fun t x => expandDimsT t (redPres l0 l1 []).length) (transposeT t1 ((pySorted charLe (redPres l0 l1 []) ++ pySorted charLe (redB1 l0 l1)).map (l1.indexOf ·))) (List.range (redB0 l0 l1).length)).shape
        = (pySorted charLe (redPres l0 l1 [])).map sz ++ List.replicate (redB0 l0 l1).length 1 ++ (pySorted charLe (redB1 l0 l1)).map sz := by
      rw [hmsh1, h1sh, List.map_append, htS, hdS]
    have hfke1 : (List.foldl (fun t x => expandDimsT t (redPres l0 l1 []).length) (transposeT t1 ((pySorted charLe (redPres l0 l1 []) ++ pySorted charLe (redB1 l0 l1)).map (l1.indexOf ·))) (List.range (redB0 l0 l1).length)).static = (List.foldl (fun t x => expandDimsT t (redPres l0 l1 []).length) (transposeT t1 ((pySorted charLe (redPres l0 l1 []) ++ pySorted charLe (redB1 l0 l1)).map (l1.indexOf ·))) (List.range (redB0 l0 l1).length)).shape.map some := by
      have hstparts : (transposeT t1 ((pySorted charLe (redPres l0 l1 []) ++ pySorted charLe (redB1 l0 l1)).map (l1.indexOf ·))).static
          = ((pySorted charLe (redPres l0 l1 [])).map sz).map some ++ ((pySorted charLe (redB1 l0 l1)).map sz).map some := by
        rw [h1st, List.map_append, List.map_append]
      have htS' : (((pySorted charLe (redPres l0 l1 [])).map sz).map some ++ ((pySorted charLe (redB1 l0 l1)).map sz).map some).take
          (redPres l0 l1 []).length = ((pySorted charLe (redPres l0 l1 [])).map sz).map some :=
        List.take_left' (by rw [List.length_map, List.length_map]; exact hplen)
      have hdS' : (((pySorted charLe (redPres l0 l1 [])).map sz).map some ++ ((pySorted charLe (redB1 l0 l1)).map sz).map some).drop
          (redPres l0 l1 []).length = ((pySorted charLe (redB1 l0 l1)).map sz).map some :=
        List.drop_left' (by rw [List.length_map, List.length_map]; exact hplen)
      rw [hmst1, hstparts, htS', hdS', hsh1e, List.map_append, List.map_append,
        List.map_replicate]
    have hr : (List.foldl (fun t x => expandDimsT t (redPres l0 l1 []).length) (transposeT t1 ((pySorted charLe (redPres l0 l1 []) ++ pySorted charLe (redB1 l0 l1)).map (l1.indexOf ·))) (List.range (redB0 l0 l1).length)).shape.length = (List.foldl (fun t x => expandDimsT t t.shape.length) (transposeT t0 ((pySorted charLe (redPres l0 l1 []) ++ pySorted charLe (redB0 l0 l1)).map (l0.indexOf ·))) (List.range (redB1 l0 l1).length)).shape.length := by
      rw [hsh1e, hesh0']
      simp only [List.length_append, List.length_map, List.length_replicate]
      omega
    have hzip : (List.foldl (fun t x => expandDimsT t t.shape.length) (transposeT t0 ((pySorted charLe (redPres l0 l1 []) ++ pySorted charLe (redB0 l0 l1)).map (l0.indexOf ·))) (List.range (redB1 l0 l1).length)).shape.zip ((List.foldl (fun t x => expandDimsT t (redPres l0 l1 []).length) (transposeT t1 ((pySorted charLe (redPres l0 l1 []) ++ pySorted charLe (redB1 l0 l1)).map (l1.indexOf ·))) (List.range (redB0 l0 l1).length)).shape)
        = (pySorted charLe (redPres l0 l1 [])).map (fun c => (sz c, sz c)) ++ (pySorted charLe (redB0 l0 l1)).map (fun c => (sz c, 1))
          ++ (pySorted charLe (redB1 l0 l1)).map (fun c => (1, sz c)) := by
      rw [hesh0', hsh1e]
      rw [List.zip_append (by
        simp only [List.length_append, List.length_map, List.length_replicate]
        omega)]
      rw [List.zip_append (by simp)]
      rw [List.zip_map' sz sz]
      rw [zip_replicate_right 1 ((pySorted charLe (redB0 l0 l1)).map sz) (redB0 l0 l1).length
        (by rw [List.length_map]; exact hb0len)]
      rw [zip_replicate_left 1 (redB1 l0 l1).length ((pySorted charLe (redB1 l0 l1)).map sz)
        (by rw [List.length_map]; exact hb1len)]
      rw [List.map_map, List.map_map]
      rfl
    have hcompat : ∀ q ∈ (List.foldl (fun t x => expandDimsT t t.shape.length) (transposeT t0 ((pySorted charLe (redPres l0 l1 []) ++ pySorted charLe (redB0 l0 l1)).map (l0.indexOf ·))) (List.range (redB1 l0 l1).length)).shape.zip ((List.foldl (fun t x => expandDimsT t (redPres l0 l1 []).length) (transposeT t1 ((pySorted charLe (redPres l0 l1 []) ++ pySorted charLe (redB1 l0 l1)).map (l1.indexOf ·))) (List.range (redB0 l0 l1).length)).shape),
        (1 ≤ q.1 ∧ 1 ≤ q.2) ∧ (q.1 = q.2 ∨ q.1 = 1 ∨ q.2 = 1) := by
      intro q hq
      rw [hzip] at hq
      rcases List.mem_append.mp hq with h | h
      · rcases List.mem_append.mp h with h1 | h1
        · rcases List.mem_map.mp h1 with ⟨c, _, rfl⟩
          exact ⟨⟨hpos c, hpos c⟩, Or.inl rfl⟩
        · rcases List.mem_map.mp h1 with ⟨c, _, rfl⟩
          exact ⟨⟨hpos c, le_refl 1⟩, Or.inr (Or.inr rfl)⟩
      · rcases List.mem_map.mp h with ⟨c, _, rfl⟩
        exact ⟨⟨le_refl 1, hpos c⟩, Or.inr (Or.inl rfl)⟩
    obtain ⟨tP, hmul, hPsh, hPst, hPdata⟩ := mulT_known (List.foldl (fun t x => expandDimsT t t.shape.length) (transposeT t0 ((pySorted charLe (redPres l0 l1 []) ++ pySorted charLe (redB0 l0 l1)).map (l0.indexOf ·))) (List.range (redB1 l0 l1).length)) (List.foldl (fun t x => expandDimsT t (redPres l0 l1 []).length) (transposeT t1 ((pySorted charLe (redPres l0 l1 []) ++ pySorted charLe (redB1 l0 l1)).map (l1.indexOf ·))) (List.range (redB0 l0 l1).length)) hfke0 hfke1 hr hcompat
    refine ⟨tP, ?_, ?_, ?_, ?_⟩
    · rw [hmul]
      have hlab : (pySorted charLe (redPres l0 l1 [])) ++ (pySorted charLe (redB0 l0 l1))
          ++ List.drop (redPres l0 l1 []).length ((pySorted charLe (redPres l0 l1 [])) ++ (pySorted charLe (redB1 l0 l1))) = redOut l0 l1 [] := by
        rw [List.drop_left' hplen, redOut]
      rw [hlab]
      rfl
    · rw [hPsh, hzip, List.map_append, List.map_append, List.map_map, List.map_map,
        List.map_map, redOut, List.map_append, List.map_append]
      congr 1
      · congr 1
        · refine List.map_eq_map_iff.mpr fun c _ => ?_
          show max (sz c) (sz c) = sz c
          exact Nat.max_self _
        · refine List.map_eq_map_iff.mpr fun c _ => ?_
          show max (sz c) 1 = sz c
          have := hpos c
          omega
      · refine List.map_eq_map_iff.mpr fun c _ => ?_
        show max 1 (sz c) = sz c
        have := hpos c
        omega
    · rw [hPst, hPsh]
    · intro σ hσ
      rw [hPdata]
      have hmem0 : ∀ c ∈ (pySorted charLe (redPres l0 l1 [])), σ c < sz c := by
        intro c hc
        refine hσ c ?_
        rw [redOut]
        exact List.mem_append.mpr (Or.inl (List.mem_append.mpr (Or.inl hc)))
      have hmemB0 : ∀ c ∈ (pySorted charLe (redB0 l0 l1)), σ c < sz c := by
        intro c hc
        refine hσ c ?_
        rw [redOut]
        exact List.mem_append.mpr (Or.inl (List.mem_append.mpr (Or.inr hc)))
      have hmemB1 : ∀ c ∈ (pySorted charLe (redB1 l0 l1)), σ c < sz c := by
        intro c hc
        refine hσ c ?_
        rw [redOut]
        exact List.mem_append.mpr (Or.inr hc)
      have hlen0 : (List.foldl (fun t x => expandDimsT t t.shape.length) (transposeT t0 ((pySorted charLe (redPres l0 l1 []) ++ pySorted charLe (redB0 l0 l1)).map (l0.indexOf ·))) (List.range (redB1 l0 l1).length)).shape.length
          = max (List.foldl (fun t x => expandDimsT t t.shape.length) (transposeT t0 ((pySorted charLe (redPres l0 l1 []) ++ pySorted charLe (redB0 l0 l1)).map (l0.indexOf ·))) (List.range (redB1 l0 l1).length)).shape.length ((List.foldl (fun t x => expandDimsT t (redPres l0 l1 []).length) (transposeT t1 ((pySorted charLe (redPres l0 l1 []) ++ pySorted charLe (redB1 l0 l1)).map (l1.indexOf ·))) (List.range (redB0 l0 l1).length)).shape.length) := by
        rw [hr, Nat.max_self]
      have hlen1 : (List.foldl (fun t x => expandDimsT t (redPres l0 l1 []).length) (transposeT t1 ((pySorted charLe (redPres l0 l1 []) ++ pySorted charLe (redB1 l0 l1)).map (l1.indexOf ·))) (List.range (redB0 l0 l1).length)).shape.length
          = max (List.foldl (fun t x => expandDimsT t t.shape.length) (transposeT t0 ((pySorted charLe (redPres l0 l1 []) ++ pySorted charLe (redB0 l0 l1)).map (l0.indexOf ·))) (List.range (redB1 l0 l1).length)).shape.length ((List.foldl (fun t x => expandDimsT t (redPres l0 l1 []).length) (transposeT t1 ((pySorted charLe (redPres l0 l1 []) ++ pySorted charLe (redB1 l0 l1)).map (l1.indexOf ·))) (List.range (redB0 l0 l1).length)).shape.length) := by
        rw [hr, Nat.max_self]
      have hidx0 : bcastIdx (List.foldl (fun t x => expandDimsT t t.shape.length) (transposeT t0 ((pySorted charLe (redPres l0 l1 []) ++ pySorted charLe (redB0 l0 l1)).map (l0.indexOf ·))) (List.range (redB1 l0 l1).length)).shape
          (max (List.foldl (fun t x => expandDimsT t t.shape.length) (transposeT t0 ((pySorted charLe (redPres l0 l1 []) ++ pySorted charLe (redB0 l0 l1)).map (l0.indexOf ·))) (List.range (redB1 l0 l1).length)).shape.length (List.foldl (fun t x => expandDimsT t (redPres l0 l1 []).length) (transposeT t1 ((pySorted charLe (redPres l0 l1 []) ++ pySorted charLe (redB1 l0 l1)).map (l1.indexOf ·))) (List.range (redB0 l0 l1).length)).shape.length) ((redOut l0 l1 []).map σ)
          = (pySorted charLe (redPres l0 l1 [])).map σ ++ (pySorted charLe (redB0 l0 l1)).map σ ++ List.replicate (redB1 l0 l1).length 0 := by
        rw [bcastIdx_eq_zip _ _ _ hlen0]
        rw [hesh0', redOut, List.map_append, List.map_append]
        rw [List.zip_append (by
          simp only [List.length_append, List.length_map]
          try omega)]
        rw [List.zip_append (by simp)]
        rw [List.map_append, List.map_append]
        rw [map_ite_sz sz σ (pySorted charLe (redPres l0 l1 [])) hmem0, map_ite_sz sz σ (pySorted charLe (redB0 l0 l1)) hmemB0,
          map_ite_one_replicate ((pySorted charLe (redB1 l0 l1)).map σ) (redB1 l0 l1).length
            (by rw [List.length_map]; exact hb1len)]
      have hidx1 : bcastIdx (List.foldl (fun t x => expandDimsT t (redPres l0 l1 []).length) (transposeT t1 ((pySorted charLe (redPres l0 l1 []) ++ pySorted charLe (redB1 l0 l1)).map (l1.indexOf ·))) (List.range (redB0 l0 l1).length)).shape
          (max (List.foldl (fun t x => expandDimsT t t.shape.length) (transposeT t0 ((pySorted charLe (redPres l0 l1 []) ++ pySorted charLe (redB0 l0 l1)).map (l0.indexOf ·))) (List.range (redB1 l0 l1).length)).shape.length (List.foldl (fun t x => expandDimsT t (redPres l0 l1 []).length) (transposeT t1 ((pySorted charLe (redPres l0 l1 []) ++ pySorted charLe (redB1 l0 l1)).map (l1.indexOf ·))) (List.range (redB0 l0 l1).length)).shape.length) ((redOut l0 l1 []).map σ)
          = (pySorted charLe (redPres l0 l1 [])).map σ ++ List.replicate (redB0 l0 l1).length 0 ++ (pySorted charLe (redB1 l0 l1)).map σ := by
        rw [bcastIdx_eq_zip _ _ _ hlen1]
        rw [hsh1e, redOut, List.map_append, List.map_append]
        rw [List.zip_append (by
          simp only [List.length_append, List.length_map, List.length_replicate]
          try omega)]
        rw [List.zip_append (by simp)]
        rw [List.map_append, List.map_append]
        rw [map_ite_sz sz σ (pySorted charLe (redPres l0 l1 [])) hmem0,
          map_ite_one_replicate ((pySorted charLe (redB0 l0 l1)).map σ) (redB0 l0 l1).length
            (by rw [List.length_map]; exact hb0len),
          map_ite_sz sz σ (pySorted charLe (redB1 l0 l1)) hmemB1]
      rw [hidx0, hidx1]
      rw [hedata0 ((pySorted charLe (redPres l0 l1 [])).map σ ++ (pySorted charLe (redB0 l0 l1)).map σ ++ List.replicate (redB1 l0 l1).length 0) (by
        rw [h0sh]
        simp only [List.length_append, List.length_map, List.length_replicate]
        try omega)]
      have htk0 : ((pySorted charLe (redPres l0 l1 [])).map σ ++ (pySorted charLe (redB0 l0 l1)).map σ
          ++ List.replicate (redB1 l0 l1).length 0).take ((transposeT t0 ((pySorted charLe (redPres l0 l1 []) ++ pySorted charLe (redB0 l0 l1)).map (l0.indexOf ·))).shape.length)
          = (pySorted charLe (redPres l0 l1 [])).map σ ++ (pySorted charLe (redB0 l0 l1)).map σ := by
        rw [h0sh]
        exact List.take_left' (by simp)
      rw [htk0, h0data' σ]
      rw [hmdata1 ((pySorted charLe (redPres l0 l1 [])).map σ ++ List.replicate (redB0 l0 l1).length 0 ++ (pySorted charLe (redB1 l0 l1)).map σ) (by
        simp only [List.length_append, List.length_map, List.length_replicate]
        try omega)]
      have htk1 : ((pySorted charLe (redPres l0 l1 [])).map σ ++ List.replicate (redB0 l0 l1).length 0
          ++ (pySorted charLe (redB1 l0 l1)).map σ).take (redPres l0 l1 []).length = (pySorted charLe (redPres l0 l1 [])).map σ := by
        rw [List.append_assoc]
        exact List.take_left' (by rw [List.length_map]; exact hplen)
      have hdr1 : ((pySorted charLe (redPres l0 l1 [])).map σ ++ List.replicate (redB0 l0 l1).length 0
          ++ (pySorted charLe (redB1 l0 l1)).map σ).drop ((redPres l0 l1 []).length + (redB0 l0 l1).length)
          = (pySorted charLe (redB1 l0 l1)).map σ :=
        List.drop_left' (by
          simp only [List.length_append, List.length_map, List.length_replicate]
          omega)
      rw [htk1, hdr1, h1data' σ]
      rfl

  ·
    have hSE : S.isEmpty = false := by
      cases h : S.isEmpty
      · rfl
      · exact absurd (List.isEmpty_iff.mp h) hSnil
    simp only [hSE, Bool.false_eq_true, if_false]
    rw [redPres_eq l0 l1 S hnd0, redB0_eq l0 l1 S hnd0 hS1, redB1_eq l0 l1 S hnd1 hS0,
      sorted0_decomp l0 l1 S hnd0 hndS hS0 hS1,
      sorted1_decomp l0 l1 S hnd0 hnd1 hndS hS0 hS1]
    simp only [transposeIfNecessary]
    have hperm0 : (pySorted charLe (redPres l0 l1 S) ++ pySorted charLe (redB0 l0 l1) ++ pySorted charLe S).Perm l0 := by
      have h := perm_pySorted (rkLe fun a => if (redPres l0 l1 S).contains a = true then 0
          else if (redB0 l0 l1).contains a = true then 1 else 2) l0
      rw [sorted0_decomp l0 l1 S hnd0 hndS hS0 hS1] at h
      exact h
    have hperm1 : (pySorted charLe (redPres l0 l1 S) ++ pySorted charLe S ++ pySorted charLe (redB1 l0 l1)).Perm l1 := by
      have h := perm_pySorted (rkLe fun a => if (redPres l0 l1 S).contains a = true then 0
          else if S.contains a = true then 1 else 2) l1
      rw [sorted1_decomp l0 l1 S hnd0 hnd1 hndS hS0 hS1] at h
      exact h
    have hplen : (pySorted charLe (redPres l0 l1 S)).length = (redPres l0 l1 S).length :=
      (perm_pySorted charLe _).length_eq
    have hb0len : (pySorted charLe (redB0 l0 l1)).length = (redB0 l0 l1).length :=
      (perm_pySorted charLe _).length_eq
    have hb1len : (pySorted charLe (redB1 l0 l1)).length = (redB1 l0 l1).length :=
      (perm_pySorted charLe _).length_eq
    have hslen : (pySorted charLe S).length = S.length :=
      (perm_pySorted charLe _).length_eq
    have hndSs : (pySorted charLe S).Nodup := (perm_pySorted charLe S).symm.nodup hndS
    have h0sh := transposeT_shape t0 l0 (pySorted charLe (redPres l0 l1 S) ++ pySorted charLe (redB0 l0 l1) ++ pySorted charLe S) sz hperm0 hsh0
    have h0st := transposeT_static t0 l0 (pySorted charLe (redPres l0 l1 S) ++ pySorted charLe (redB0 l0 l1) ++ pySorted charLe S) sz hperm0 hsh0 hfk0
    have h0data := fun τ => transposeT_data t0 l0 (pySorted charLe (redPres l0 l1 S) ++ pySorted charLe (redB0 l0 l1) ++ pySorted charLe S) hnd0 hperm0 τ (by omega)
    have h1sh := transposeT_shape t1 l1 (pySorted charLe (redPres l0 l1 S) ++ pySorted charLe S ++ pySorted charLe (redB1 l0 l1)) sz hperm1 hsh1
    have h1st := transposeT_static t1 l1 (pySorted charLe (redPres l0 l1 S) ++ pySorted charLe S ++ pySorted charLe (redB1 l0 l1)) sz hperm1 hsh1 hfk1
    have h1data := fun τ => transposeT_data t1 l1 (pySorted charLe (redPres l0 l1 S) ++ pySorted charLe S ++ pySorted charLe (redB1 l0 l1)) hnd1 hperm1 τ (by omega)
    have hfkT0 : (transposeT t0 ((pySorted charLe (redPres l0 l1 S) ++ pySorted charLe (redB0 l0 l1) ++ pySorted charLe S).map (l0.indexOf ·))).static = (transposeT t0 ((pySorted charLe (redPres l0 l1 S) ++ pySorted charLe (redB0 l0 l1) ++ pySorted charLe S).map (l0.indexOf ·))).shape.map some := by
      rw [h0st, h0sh]
    have hfkT1 : (transposeT t1 ((pySorted charLe (redPres l0 l1 S) ++ pySorted charLe S ++ pySorted charLe (redB1 l0 l1)).map (l1.indexOf ·))).static = (transposeT t1 ((pySorted charLe (redPres l0 l1 S) ++ pySorted charLe S ++ pySorted charLe (redB1 l0 l1)).map (l1.indexOf ·))).shape.map some := by
      rw [h1st, h1sh]
    have hgm0 : getShapeM (transposeT t0 ((pySorted charLe (redPres l0 l1 S) ++ pySorted charLe (redB0 l0 l1) ++ pySorted charLe S).map (l0.indexOf ·))) = ((pySorted charLe (redPres l0 l1 S) ++ pySorted charLe (redB0 l0 l1) ++ pySorted charLe S).map sz).map MDim.known := by
      rw [getShapeM_fullyKnown _ hfkT0, h0sh]
    have hgm1 : getShapeM (transposeT t1 ((pySorted charLe (redPres l0 l1 S) ++ pySorted charLe S ++ pySorted charLe (redB1 l0 l1)).map (l1.indexOf ·))) = ((pySorted charLe (redPres l0 l1 S) ++ pySorted charLe S ++ pySorted charLe (redB1 l0 l1)).map sz).map MDim.known := by
      rw [getShapeM_fullyKnown _ hfkT1, h1sh]
    have hsplit0 : ((pySorted charLe (redPres l0 l1 S) ++ pySorted charLe (redB0 l0 l1) ++ pySorted charLe S).map sz).map MDim.known = (((pySorted charLe (redPres l0 l1 S)).map sz).map MDim.known) ++ (((pySorted charLe (redB0 l0 l1)).map sz).map MDim.known) ++ (((pySorted charLe S).map sz).map MDim.known) := by
      simp [List.map_append]
    have hsplit1 : ((pySorted charLe (redPres l0 l1 S) ++ pySorted charLe S ++ pySorted charLe (redB1 l0 l1)).map sz).map MDim.known = (((pySorted charLe (redPres l0 l1 S)).map sz).map MDim.known) ++ (((pySorted charLe S).map sz).map MDim.known) ++ (((pySorted charLe (redB1 l0 l1)).map sz).map MDim.known) := by
      simp [List.map_append]
    rw [hgm0, hgm1, hsplit0, hsplit1]
    have hTK0 : ((((pySorted charLe (redPres l0 l1 S)).map sz).map MDim.known) ++ (((pySorted charLe (redB0 l0 l1)).map sz).map MDim.known) ++ (((pySorted charLe S).map sz).map MDim.known)).take (redPres l0 l1 S).length = (((pySorted charLe (redPres l0 l1 S)).map sz).map MDim.known) := by
      rw [List.append_assoc]
      exact List.take_left' (by simp only [List.length_map]; exact hplen)
    have hDP0 : ((((pySorted charLe (redPres l0 l1 S)).map sz).map MDim.known) ++ (((pySorted charLe (redB0 l0 l1)).map sz).map MDim.known) ++ (((pySorted charLe S).map sz).map MDim.known)).drop (redPres l0 l1 S).length = (((pySorted charLe (redB0 l0 l1)).map sz).map MDim.known) ++ (((pySorted charLe S).map sz).map MDim.known) := by
      rw [List.append_assoc]
      exact List.drop_left' (by simp only [List.length_map]; exact hplen)
    have hDL0 : dropLastN S.length ((((pySorted charLe (redB0 l0 l1)).map sz).map MDim.known) ++ (((pySorted charLe S).map sz).map MDim.known)) = (((pySorted charLe (redB0 l0 l1)).map sz).map MDim.known) := by
      rw [dropLastN]
      have h1 : ((((pySorted charLe (redB0 l0 l1)).map sz).map MDim.known) ++ (((pySorted charLe S).map sz).map MDim.known)).length - S.length = ((((pySorted charLe (redB0 l0 l1)).map sz).map MDim.known)).length := by
        simp only [List.length_append, List.length_map]
        omega
      rw [h1, List.take_left]
    have hLN0 : lastN S.length ((((pySorted charLe (redPres l0 l1 S)).map sz).map MDim.known) ++ (((pySorted charLe (redB0 l0 l1)).map sz).map MDim.known) ++ (((pySorted charLe S).map sz).map MDim.known)) = (((pySorted charLe S).map sz).map MDim.known) := by
      rw [lastN]
      have h1 : ((((pySorted charLe (redPres l0 l1 S)).map sz).map MDim.known) ++ (((pySorted charLe (redB0 l0 l1)).map sz).map MDim.known) ++ (((pySorted charLe S).map sz).map MDim.known)).length - S.length = ((((pySorted charLe (redPres l0 l1 S)).map sz).map MDim.known) ++ (((pySorted charLe (redB0 l0 l1)).map sz).map MDim.known)).length := by
        simp only [List.length_append, List.length_map]
        omega
      rw [h1, List.drop_left]
    have hTK1 : ((((pySorted charLe (redPres l0 l1 S)).map sz).map MDim.known) ++ (((pySorted charLe S).map sz).map MDim.known) ++ (((pySorted charLe (redB1 l0 l1)).map sz).map MDim.known)).take (redPres l0 l1 S).length = (((pySorted charLe (redPres l0 l1 S)).map sz).map MDim.known) := by
      rw [List.append_assoc]
      exact List.take_left' (by simp only [List.length_map]; exact hplen)
    have hDP1 : ((((pySorted charLe (redPres l0 l1 S)).map sz).map MDim.known) ++ (((pySorted charLe S).map sz).map MDim.known) ++ (((pySorted charLe (redB1 l0 l1)).map sz).map MDim.known)).drop ((redPres l0 l1 S).length + S.length) = (((pySorted charLe (redB1 l0 l1)).map sz).map MDim.known) :=
      List.drop_left' (by simp only [List.length_append, List.length_map]; omega)
    have hLN1 : lastN (redB1 l0 l1).length ((((pySorted charLe (redPres l0 l1 S)).map sz).map MDim.known) ++ (((pySorted charLe S).map sz).map MDim.known) ++ (((pySorted charLe (redB1 l0 l1)).map sz).map MDim.known)) = (((pySorted charLe (redB1 l0 l1)).map sz).map MDim.known) := by
      rw [lastN]
      have h1 : ((((pySorted charLe (redPres l0 l1 S)).map sz).map MDim.known) ++ (((pySorted charLe S).map sz).map MDim.known) ++ (((pySorted charLe (redB1 l0 l1)).map sz).map MDim.known)).length - (redB1 l0 l1).length
          = ((((pySorted charLe (redPres l0 l1 S)).map sz).map MDim.known) ++ (((pySorted charLe S).map sz).map MDim.known)).length := by
        simp only [List.length_append, List.length_map]
        omega
      rw [h1, List.drop_left]
    have hTKB0 : ((((pySorted charLe (redPres l0 l1 S)).map sz).map MDim.known) ++ (((pySorted charLe (redB0 l0 l1)).map sz).map MDim.known) ++ (((pySorted charLe S).map sz).map MDim.known)).take
        ((redPres l0 l1 S).length + (redB0 l0 l1).length) = (((pySorted charLe (redPres l0 l1 S)).map sz).map MDim.known) ++ (((pySorted charLe (redB0 l0 l1)).map sz).map MDim.known) :=
      List.take_left' (by simp only [List.length_append, List.length_map]; omega)
    rw [hTK0, hDP0, hDL0, hLN0, hTK1, hDP1, hLN1, hTKB0]
    rw [totalSize_known ((pySorted charLe (redB0 l0 l1)).map sz), totalSize_known ((pySorted charLe S).map sz), totalSize_known ((pySorted charLe (redB1 l0 l1)).map sz)]
    have hfold0 : (((pySorted charLe (redPres l0 l1 S)).map sz ++ [((pySorted charLe (redB0 l0 l1)).map sz).prod, ((pySorted charLe S).map sz).prod]).map MDim.known)
        = (((pySorted charLe (redPres l0 l1 S)).map sz).map MDim.known) ++ [MDim.known (((pySorted charLe (redB0 l0 l1)).map sz).prod), MDim.known (((pySorted charLe S).map sz).prod)] := by
      simp [List.map_append]
    have hfold1 : (((pySorted charLe (redPres l0 l1 S)).map sz ++ [((pySorted charLe S).map sz).prod, ((pySorted charLe (redB1 l0 l1)).map sz).prod]).map MDim.known)
        = (((pySorted charLe (redPres l0 l1 S)).map sz).map MDim.known) ++ [MDim.known (((pySorted charLe S).map sz).prod), MDim.known (((pySorted charLe (redB1 l0 l1)).map sz).prod)] := by
      simp [List.map_append]
    rw [← hfold0, ← hfold1]
    have hprod0 : (transposeT t0 ((pySorted charLe (redPres l0 l1 S) ++ pySorted charLe (redB0 l0 l1) ++ pySorted charLe S).map (l0.indexOf ·))).shape.prod = ((pySorted charLe (redPres l0 l1 S)).map sz ++ [((pySorted charLe (redB0 l0 l1)).map sz).prod, ((pySorted charLe S).map sz).prod]).prod := by
      rw [h0sh]
      simp only [List.map_append, List.prod_append, List.prod_cons, List.prod_nil]
      ring
    obtain ⟨t0R, hres0, hsh0R, hst0R, hdata0R⟩ :=
      reshape_known_sem (transposeT t0 ((pySorted charLe (redPres l0 l1 S) ++ pySorted charLe (redB0 l0 l1) ++ pySorted charLe S).map (l0.indexOf ·))) ((pySorted charLe (redPres l0 l1 S)).map sz ++ [((pySorted charLe (redB0 l0 l1)).map sz).prod, ((pySorted charLe S).map sz).prod]) hfkT0 hprod0
    rw [hres0, except_bind_ok]
    have hprod1 : (transposeT t1 ((pySorted charLe (redPres l0 l1 S) ++ pySorted charLe S ++ pySorted charLe (redB1 l0 l1)).map (l1.indexOf ·))).shape.prod = ((pySorted charLe (redPres l0 l1 S)).map sz ++ [((pySorted charLe S).map sz).prod, ((pySorted charLe (redB1 l0 l1)).map sz).prod]).prod := by
      rw [h1sh]
      simp only [List.map_append, List.prod_append, List.prod_cons, List.prod_nil]
      ring
    obtain ⟨t1R, hres1, hsh1R, hst1R, hdata1R⟩ :=
      reshape_known_sem (transposeT t1 ((pySorted charLe (redPres l0 l1 S) ++ pySorted charLe S ++ pySorted charLe (redB1 l0 l1)).map (l1.indexOf ·))) ((pySorted charLe (redPres l0 l1 S)).map sz ++ [((pySorted charLe S).map sz).prod, ((pySorted charLe (redB1 l0 l1)).map sz).prod]) hfkT1 hprod1
    rw [hres1, except_bind_ok]
    have hst0R' : t0R.static = t0R.shape.map some := by
      rw [hst0R, hsh0R]
    have hst1R' : t1R.static = t1R.shape.map some := by
      rw [hst1R, hsh1R]
    obtain ⟨tM, hmm, hshM, hstM, hdataM⟩ :=
      matmulT_sem t0R t1R ((pySorted charLe (redPres l0 l1 S)).map sz) (((pySorted charLe (redB0 l0 l1)).map sz).prod) (((pySorted charLe S).map sz).prod) (((pySorted charLe (redB1 l0 l1)).map sz).prod) hsh0R hsh1R hst0R' hst1R'
    rw [hmm, except_bind_ok]
    have hfoldF : (((pySorted charLe (redPres l0 l1 S) ++ pySorted charLe (redB0 l0 l1) ++ pySorted charLe (redB1 l0 l1)).map sz).map MDim.known)
        = (((pySorted charLe (redPres l0 l1 S)).map sz).map MDim.known) ++ (((pySorted charLe (redB0 l0 l1)).map sz).map MDim.known) ++ (((pySorted charLe (redB1 l0 l1)).map sz).map MDim.known) := by
      simp [List.map_append]
    rw [← hfoldF]
    have hprodF : tM.shape.prod = ((pySorted charLe (redPres l0 l1 S) ++ pySorted charLe (redB0 l0 l1) ++ pySorted charLe (redB1 l0 l1)).map sz).prod := by
      rw [hshM]
      simp only [List.map_append, List.prod_append, List.prod_cons, List.prod_nil]
      ring
    obtain ⟨tF, hresF, hshF, hstF, hdataF⟩ :=
      reshape_known_sem tM ((pySorted charLe (redPres l0 l1 S) ++ pySorted charLe (redB0 l0 l1) ++ pySorted charLe (redB1 l0 l1)).map sz) hstM hprodF
    rw [hresF, except_bind_ok]
    have hlabT : (pySorted charLe (redPres l0 l1 S) ++ pySorted charLe (redB0 l0 l1) ++ pySorted charLe S).take ((redPres l0 l1 S).length + (redB0 l0 l1).length)
        = pySorted charLe (redPres l0 l1 S) ++ pySorted charLe (redB0 l0 l1) :=
      List.take_left' (by simp only [List.length_append]; omega)
    have hlabL : lastN (redB1 l0 l1).length (pySorted charLe (redPres l0 l1 S) ++ pySorted charLe S ++ pySorted charLe (redB1 l0 l1)) = pySorted charLe (redB1 l0 l1) := by
      rw [lastN]
      have h1 : (pySorted charLe (redPres l0 l1 S) ++ pySorted charLe S ++ pySorted charLe (redB1 l0 l1)).length - (redB1 l0 l1).length = (pySorted charLe (redPres l0 l1 S) ++ pySorted charLe S).length := by
        simp only [List.length_append]
        omega
      rw [h1, List.drop_left]
    rw [hlabT, hlabL]
    have hlab : (pySorted charLe (redPres l0 l1 S) ++ pySorted charLe (redB0 l0 l1)) ++ (pySorted charLe (redB1 l0 l1)) = redOut l0 l1 S := by
      rw [redOut]
    rw [hlab]
    refine ⟨tF, rfl, ?_, ?_, ?_⟩
    · rw [hshF, redOut]
    · rw [hstF, hshF]
    · intro σ hσ
      have hmemAll : ∀ c ∈ (pySorted charLe (redPres l0 l1 S) ++ pySorted charLe (redB0 l0 l1) ++ pySorted charLe (redB1 l0 l1)), σ c < sz c := by
        intro c hc
        refine hσ c ?_
        rw [redOut]
        exact hc
      have hmem0 : ∀ c ∈ (pySorted charLe (redPres l0 l1 S)), σ c < sz c := fun c hc =>
        hmemAll c (List.mem_append.mpr (Or.inl (List.mem_append.mpr (Or.inl hc))))
      have hmemB0 : ∀ c ∈ (pySorted charLe (redB0 l0 l1)), σ c < sz c := fun c hc =>
        hmemAll c (List.mem_append.mpr (Or.inl (List.mem_append.mpr (Or.inr hc))))
      have hmemB1 : ∀ c ∈ (pySorted charLe (redB1 l0 l1)), σ c < sz c := fun c hc =>
        hmemAll c (List.mem_append.mpr (Or.inr hc))
      have hokP : idxOk ((pySorted charLe (redPres l0 l1 S)).map sz) ((pySorted charLe (redPres l0 l1 S)).map σ) = true := idxOk_map_of_lt sz σ _ hmem0
      have hokB0 : idxOk ((pySorted charLe (redB0 l0 l1)).map sz) ((pySorted charLe (redB0 l0 l1)).map σ) = true := idxOk_map_of_lt sz σ _ hmemB0
      have hokB1 : idxOk ((pySorted charLe (redB1 l0 l1)).map sz) ((pySorted charLe (redB1 l0 l1)).map σ) = true := idxOk_map_of_lt sz σ _ hmemB1
      have hfB0lt : (flat ((pySorted charLe (redB0 l0 l1)).map sz) ((pySorted charLe (redB0 l0 l1)).map σ)) < (((pySorted charLe (redB0 l0 l1)).map sz).prod) := flat_lt _ _ hokB0
      have hfB1lt : (flat ((pySorted charLe (redB1 l0 l1)).map sz) ((pySorted charLe (redB1 l0 l1)).map σ)) < (((pySorted charLe (redB1 l0 l1)).map sz).prod) := flat_lt _ _ hokB1
      rw [redOut]
      rw [hdataF ((pySorted charLe (redPres l0 l1 S) ++ pySorted charLe (redB0 l0 l1) ++ pySorted charLe (redB1 l0 l1)).map σ) (idxOk_map_of_lt sz σ _ hmemAll)]
      rw [hshM]
      have hK : flat (((pySorted charLe (redPres l0 l1 S) ++ pySorted charLe (redB0 l0 l1) ++ pySorted charLe (redB1 l0 l1))).map sz) ((pySorted charLe (redPres l0 l1 S) ++ pySorted charLe (redB0 l0 l1) ++ pySorted charLe (redB1 l0 l1)).map σ)
          = flat ((pySorted charLe (redPres l0 l1 S)).map sz ++ [((pySorted charLe (redB0 l0 l1)).map sz).prod, ((pySorted charLe (redB1 l0 l1)).map sz).prod]) ((pySorted charLe (redPres l0 l1 S)).map σ ++ [flat ((pySorted charLe (redB0 l0 l1)).map sz) ((pySorted charLe (redB0 l0 l1)).map σ), flat ((pySorted charLe (redB1 l0 l1)).map sz) ((pySorted charLe (redB1 l0 l1)).map σ)]) := by
        simp only [List.map_append]
        rw [flat_three ((pySorted charLe (redPres l0 l1 S)).map sz) ((pySorted charLe (redB0 l0 l1)).map sz) ((pySorted charLe (redB1 l0 l1)).map sz) ((pySorted charLe (redPres l0 l1 S)).map σ) ((pySorted charLe (redB0 l0 l1)).map σ)
          ((pySorted charLe (redB1 l0 l1)).map σ) (by simp) (by simp)]
        rw [flat_app_pair ((pySorted charLe (redPres l0 l1 S)).map sz) ((pySorted charLe (redPres l0 l1 S)).map σ) (by simp) (((pySorted charLe (redB0 l0 l1)).map sz).prod) (((pySorted charLe (redB1 l0 l1)).map sz).prod) (flat ((pySorted charLe (redB0 l0 l1)).map sz) ((pySorted charLe (redB0 l0 l1)).map σ)) (flat ((pySorted charLe (redB1 l0 l1)).map sz) ((pySorted charLe (redB1 l0 l1)).map σ))]
        ring
      rw [hK]
      have hokM : idxOk ((pySorted charLe (redPres l0 l1 S)).map sz ++ [((pySorted charLe (redB0 l0 l1)).map sz).prod, ((pySorted charLe (redB1 l0 l1)).map sz).prod])
          ((pySorted charLe (redPres l0 l1 S)).map σ ++ [flat ((pySorted charLe (redB0 l0 l1)).map sz) ((pySorted charLe (redB0 l0 l1)).map σ), flat ((pySorted charLe (redB1 l0 l1)).map sz) ((pySorted charLe (redB1 l0 l1)).map σ)]) = true :=
        idxOk_append _ _ _ _ hokP ((idxOk_cons_iff _ _ _ _).mpr ⟨hfB0lt,
          (idxOk_cons_iff _ _ _ _).mpr ⟨hfB1lt, rfl⟩⟩)
      rw [unflat_flat _ _ hokM]
      rw [hdataM ((pySorted charLe (redPres l0 l1 S)).map σ) (flat ((pySorted charLe (redB0 l0 l1)).map sz) ((pySorted charLe (redB0 l0 l1)).map σ)) (flat ((pySorted charLe (redB1 l0 l1)).map sz) ((pySorted charLe (redB1 l0 l1)).map σ)) (by simp)]
      rw [← sumAssign_perm sz (fun ρ => t0.data (l0.map ρ) * t1.data (l1.map ρ))
        (perm_pySorted charLe S) σ]
      rw [sumAssign_eq_sumIdx sz (pySorted charLe S)
        (fun ρ => t0.data (l0.map ρ) * t1.data (l1.map ρ)) σ]
      rw [← sum_range_unflat ((pySorted charLe S).map sz)]
      refine Finset.sum_congr rfl ?_
      intro x hx
      rw [Finset.mem_range] at hx
      have hokS : idxOk ((pySorted charLe S).map sz) (unflat ((pySorted charLe S).map sz) x) = true := unflat_ok _ _ hx
      have hok0x : idxOk ((pySorted charLe (redPres l0 l1 S)).map sz ++ [((pySorted charLe (redB0 l0 l1)).map sz).prod, ((pySorted charLe S).map sz).prod]) ((pySorted charLe (redPres l0 l1 S)).map σ ++ [flat ((pySorted charLe (redB0 l0 l1)).map sz) ((pySorted charLe (redB0 l0 l1)).map σ), x]) = true :=
        idxOk_append _ _ _ _ hokP ((idxOk_cons_iff _ _ _ _).mpr ⟨hfB0lt,
          (idxOk_cons_iff _ _ _ _).mpr ⟨hx, rfl⟩⟩)
      rw [hdata0R ((pySorted charLe (redPres l0 l1 S)).map σ ++ [flat ((pySorted charLe (redB0 l0 l1)).map sz) ((pySorted charLe (redB0 l0 l1)).map σ), x]) hok0x, h0sh]
      have hK0 : flat ((pySorted charLe (redPres l0 l1 S)).map sz ++ [((pySorted charLe (redB0 l0 l1)).map sz).prod, ((pySorted charLe S).map sz).prod]) ((pySorted charLe (redPres l0 l1 S)).map σ ++ [flat ((pySorted charLe (redB0 l0 l1)).map sz) ((pySorted charLe (redB0 l0 l1)).map σ), x])
          = flat (((pySorted charLe (redPres l0 l1 S) ++ pySorted charLe (redB0 l0 l1) ++ pySorted charLe S)).map sz)
            ((pySorted charLe (redPres l0 l1 S)).map σ ++ (pySorted charLe (redB0 l0 l1)).map σ ++ unflat ((pySorted charLe S).map sz) x) := by
        simp only [List.map_append]
        rw [flat_app_pair ((pySorted charLe (redPres l0 l1 S)).map sz) ((pySorted charLe (redPres l0 l1 S)).map σ) (by simp) (((pySorted charLe (redB0 l0 l1)).map sz).prod) (((pySorted charLe S).map sz).prod) (flat ((pySorted charLe (redB0 l0 l1)).map sz) ((pySorted charLe (redB0 l0 l1)).map σ)) x]
        rw [flat_three ((pySorted charLe (redPres l0 l1 S)).map sz) ((pySorted charLe (redB0 l0 l1)).map sz) ((pySorted charLe S).map sz) ((pySorted charLe (redPres l0 l1 S)).map σ) ((pySorted charLe (redB0 l0 l1)).map σ)
          (unflat ((pySorted charLe S).map sz) x) (by simp) (by simp)]
        rw [flat_unflat ((pySorted charLe S).map sz) x hx]
        ring
      rw [hK0]
      have hok0full : idxOk (((pySorted charLe (redPres l0 l1 S) ++ pySorted charLe (redB0 l0 l1) ++ pySorted charLe S)).map sz)
          ((pySorted charLe (redPres l0 l1 S)).map σ ++ (pySorted charLe (redB0 l0 l1)).map σ ++ unflat ((pySorted charLe S).map sz) x) = true := by
        simp only [List.map_append]
        exact idxOk_append _ _ _ _ (idxOk_append _ _ _ _ hokP hokB0) hokS
      rw [unflat_flat _ _ hok0full]
      have hidx0τ : (pySorted charLe (redPres l0 l1 S)).map σ ++ (pySorted charLe (redB0 l0 l1)).map σ ++ unflat ((pySorted charLe S).map sz) x
          = (pySorted charLe (redPres l0 l1 S) ++ pySorted charLe (redB0 l0 l1) ++ pySorted charLe S).map (updList σ (pySorted charLe S) (unflat ((pySorted charLe S).map sz) x)) := by
        simp only [List.map_append]
        congr 1
        · congr 1
          · refine List.map_eq_map_iff.mpr fun c hc => ?_
            refine (updList_notMem σ (pySorted charLe S) (unflat ((pySorted charLe S).map sz) x) c ?_).symm
            intro hcS
            exact (mem_redPres.mp (mem_pySorted.mp hc)).2.2 (mem_pySorted.mp hcS)
          · refine List.map_eq_map_iff.mpr fun c hc => ?_
            refine (updList_notMem σ (pySorted charLe S) (unflat ((pySorted charLe S).map sz) x) c ?_).symm
            intro hcS
            exact (mem_redB0.mp (mem_pySorted.mp hc)).2 (hS1 c (mem_pySorted.mp hcS))
        · exact (map_updList σ (pySorted charLe S) (unflat ((pySorted charLe S).map sz) x) hndSs
            (by rw [unflat_length]; simp)).symm
      rw [hidx0τ, h0data (updList σ (pySorted charLe S) (unflat ((pySorted charLe S).map sz) x))]
      have hok1x : idxOk ((pySorted charLe (redPres l0 l1 S)).map sz ++ [((pySorted charLe S).map sz).prod, ((pySorted charLe (redB1 l0 l1)).map sz).prod]) ((pySorted charLe (redPres l0 l1 S)).map σ ++ [x, flat ((pySorted charLe (redB1 l0 l1)).map sz) ((pySorted charLe (redB1 l0 l1)).map σ)]) = true :=
        idxOk_append _ _ _ _ hokP ((idxOk_cons_iff _ _ _ _).mpr ⟨hx,
          (idxOk_cons_iff _ _ _ _).mpr ⟨hfB1lt, rfl⟩⟩)
      rw [hdata1R ((pySorted charLe (redPres l0 l1 S)).map σ ++ [x, flat ((pySorted charLe (redB1 l0 l1)).map sz) ((pySorted charLe (redB1 l0 l1)).map σ)]) hok1x, h1sh]
      have hK1 : flat ((pySorted charLe (redPres l0 l1 S)).map sz ++ [((pySorted charLe S).map sz).prod, ((pySorted charLe (redB1 l0 l1)).map sz).prod]) ((pySorted charLe (redPres l0 l1 S)).map σ ++ [x, flat ((pySorted charLe (redB1 l0 l1)).map sz) ((pySorted charLe (redB1 l0 l1)).map σ)])
          = flat (((pySorted charLe (redPres l0 l1 S) ++ pySorted charLe S ++ pySorted charLe (redB1 l0 l1))).map sz)
            ((pySorted charLe (redPres l0 l1 S)).map σ ++ unflat ((pySorted charLe S).map sz) x ++ (pySorted charLe (redB1 l0 l1)).map σ) := by
        simp only [List.map_append]
        rw [flat_app_pair ((pySorted charLe (redPres l0 l1 S)).map sz) ((pySorted charLe (redPres l0 l1 S)).map σ) (by simp) (((pySorted charLe S).map sz).prod) (((pySorted charLe (redB1 l0 l1)).map sz).prod) x (flat ((pySorted charLe (redB1 l0 l1)).map sz) ((pySorted charLe (redB1 l0 l1)).map σ))]
        rw [flat_three ((pySorted charLe (redPres l0 l1 S)).map sz) ((pySorted charLe S).map sz) ((pySorted charLe (redB1 l0 l1)).map sz) ((pySorted charLe (redPres l0 l1 S)).map σ) (unflat ((pySorted charLe S).map sz) x)
          ((pySorted charLe (redB1 l0 l1)).map σ) (by simp) (by rw [unflat_length])]
        rw [flat_unflat ((pySorted charLe S).map sz) x hx]
        ring
      rw [hK1]
      have hok1full : idxOk (((pySorted charLe (redPres l0 l1 S) ++ pySorted charLe S ++ pySorted charLe (redB1 l0 l1))).map sz)
          ((pySorted charLe (redPres l0 l1 S)).map σ ++ unflat ((pySorted charLe S).map sz) x ++ (pySorted charLe (redB1 l0 l1)).map σ) = true := by
        simp only [List.map_append]
        exact idxOk_append _ _ _ _ (idxOk_append _ _ _ _ hokP hokS) hokB1
      rw [unflat_flat _ _ hok1full]
      have hidx1τ : (pySorted charLe (redPres l0 l1 S)).map σ ++ unflat ((pySorted charLe S).map sz) x ++ (pySorted charLe (redB1 l0 l1)).map σ
          = (pySorted charLe (redPres l0 l1 S) ++ pySorted charLe S ++ pySorted charLe (redB1 l0 l1)).map (updList σ (pySorted charLe S) (unflat ((pySorted charLe S).map sz) x)) := by
        simp only [List.map_append]
        congr 1
        · congr 1
          · refine List.map_eq_map_iff.mpr fun c hc => ?_
            refine (updList_notMem σ (pySorted charLe S) (unflat ((pySorted charLe S).map sz) x) c ?_).symm
            intro hcS
            exact (mem_redPres.mp (mem_pySorted.mp hc)).2.2 (mem_pySorted.mp hcS)
          · exact (map_updList σ (pySorted charLe S) (unflat ((pySorted charLe S).map sz) x) hndSs
              (by rw [unflat_length]; simp)).symm
        · refine List.map_eq_map_iff.mpr fun c hc => ?_
          refine (updList_notMem σ (pySorted charLe S) (unflat ((pySorted charLe S).map sz) x) c ?_).symm
          intro hcS
          exact (mem_redB1.mp (mem_pySorted.mp hc)).2 (hS0 c (mem_pySorted.mp hcS))
      rw [hidx1τ, h1data (updList σ (pySorted charLe S) (unflat ((pySorted charLe S).map sz) x))]

/-! ## C1: contraction-loop bookkeeping helpers -/

theorem perm_getElem_eraseIdx {α : Type _} (l : List α) (i : Nat) (h : i < l.length) :
    l.Perm (l[i] :: l.eraseIdx i) := by
  conv_lhs => rw [← List.take_append_drop i l]
  rw [List.eraseIdx_eq_take_drop_succ]
  have hd : l.drop i = l[i] :: l.drop (i + 1) := (List.get_drop_eq_drop l i h).symm
  rw [hd]
  exact List.perm_middle

theorem countP_eraseIdx {α : Type _} (p : α → Bool) :
    ∀ (l : List α) (i : Nat) (h : i < l.length),
      l.countP p = (l.eraseIdx i).countP p + (if p (l.get ⟨i, h⟩) then 1 else 0) := by
  intro l
  induction l with
  | nil => intro i hi; simp at hi
  | cons a as ih =>
    intro i hi
    cases i with
    | zero =>
      rw [List.eraseIdx_cons_zero, List.countP_cons]
      rfl
    | succ n =>
      rw [List.eraseIdx_cons_succ, List.countP_cons, List.countP_cons,
        ih n (by simpa using hi)]
      have hsame : (a :: as).get ⟨n + 1, hi⟩ = as.get ⟨n, by simpa using hi⟩ := rfl
      rw [hsame]
      omega

theorem zip_eraseIdx {α β : Type _} :
    ∀ (xs : List α) (ys : List β) (i : Nat), xs.length = ys.length →
      (xs.eraseIdx i).zip (ys.eraseIdx i) = (xs.zip ys).eraseIdx i := by
  intro xs
  induction xs with
  | nil => intro ys i _; simp
  | cons x xs ih =>
    intro ys i hlen
    cases ys with
    | nil => simp at hlen
    | cons y ys =>
      cases i with
      | zero => simp
      | succ n =>
        rw [List.eraseIdx_cons_succ, List.eraseIdx_cons_succ, List.zip_cons_cons,
          List.zip_cons_cons, List.eraseIdx_cons_succ, ih ys n (by simpa using hlen)]

theorem sumAssign_congr_bounded (sz : Char → Nat) :
    ∀ (S : List Char) (F G : (Char → Nat) → Int) (σ : Char → Nat),
      (∀ c, σ c < sz c) →
      (∀ ρ : Char → Nat, (∀ c, ρ c < sz c) → F ρ = G ρ) →
      sumAssign sz S F σ = sumAssign sz S G σ := by
  intro S
  induction S with
  | nil => intro F G σ hσ h; exact h σ hσ
  | cons c cs ih =>
    intro F G σ hσ h
    rw [sumAssign, sumAssign]
    refine Finset.sum_congr rfl fun x hx => ?_
    rw [Finset.mem_range] at hx
    refine ih F G (upd σ c x) ?_ h
    intro d
    by_cases hdc : d = c
    · subst hdc; rw [upd_same]; exact hx
    · rw [upd_other _ _ _ _ hdc]; exact hσ d

theorem dependsOn_dataMap (t : Tensor) (l : List Char) :
    DependsOn (fun ρ => t.data (l.map ρ)) l := by
  intro σ τ h
  show t.data (l.map σ) = t.data (l.map τ)
  congr 1
  exact List.map_eq_map_iff.mpr h

theorem dependsOn_prodZip (ts : List Tensor) (ls : List (List Char)) (L : List Char)
    (h : ∀ l ∈ ls, ∀ c ∈ l, c ∈ L) :
    DependsOn (fun ρ => ((ts.zip ls).map fun p => p.1.data (p.2.map ρ)).prod) L := by
  intro σ τ hagree
  show ((ts.zip ls).map fun p => p.1.data (p.2.map σ)).prod
    = ((ts.zip ls).map fun p => p.1.data (p.2.map τ)).prod
  congr 1
  refine List.map_eq_map_iff.mpr ?_
  intro p hp
  have hl : p.2 ∈ ls := (List.of_mem_zip hp).2
  congr 1
  exact List.map_eq_map_iff.mpr fun c hc => hagree c (h _ hl _ hc)

/-- The duplicate-free list of live labels missing from the output. -/
def nonOutL (olabels : List Char) (ls : List (List Char)) : List Char :=
  ls.flatten.dedup.filter fun c => !olabels.contains c

theorem mem_nonOutL {olabels : List Char} {ls : List (List Char)} {c : Char} :
    c ∈ nonOutL olabels ls ↔ (∃ l ∈ ls, c ∈ l) ∧ c ∉ olabels := by
  rw [nonOutL, List.mem_filter, List.mem_dedup, Bool.not_eq_true', contains_eq_false_iff,
    List.mem_flatten]

theorem nonOutL_nodup (olabels : List Char) (ls : List (List Char)) :
    (nonOutL olabels ls).Nodup := (List.nodup_dedup _).filter _

theorem einsumLoop_sem (olabels : List Char) (sz : Char → Nat) (hpos : ∀ c, 1 ≤ sz c) :
    ∀ (seq : List (Nat × Nat)) (ts : List Tensor) (ls : List (List Char))
      (res : List Tensor × List (List Char)),
      einsumLoop olabels seq ts ls = .ok res →
      ts.length = ls.length →
      (∀ p ∈ ts.zip ls, p.2.Nodup ∧ p.1.shape = p.2.map sz ∧ p.1.static = p.1.shape.map some) →
      (∀ c, c ∉ olabels → ls.countP (fun l => l.contains c) ≤ 2) →
      res.1.length = res.2.length ∧
      res.1.length + seq.length = ts.length ∧
      (∀ p ∈ res.1.zip res.2, p.2.Nodup ∧ p.1.shape = p.2.map sz ∧
        p.1.static = p.1.shape.map some) ∧
      (∀ σ : Char → Nat, (∀ c, σ c < sz c) →
        sumAssign sz (nonOutL olabels res.2)
          (fun ρ => ((res.1.zip res.2).map fun p => p.1.data (p.2.map ρ)).prod) σ
        = sumAssign sz (nonOutL olabels ls)
          (fun ρ => ((ts.zip ls).map fun p => p.1.data (p.2.map ρ)).prod) σ) := by
  intro seq
  induction seq with
  | nil =>
    intro ts ls res hrun hlen hrep hocc
    have hres : res = (ts, ls) := by
      have h : Except.ok (ts, ls) = (Except.ok res : Except Err (List Tensor × List (List Char))) := hrun
      cases h
      rfl
    subst hres
    exact ⟨hlen, by simp, hrep, fun σ _ => rfl⟩
  | cons jk rest ih =>
    rcases jk with ⟨j0, k0⟩
    intro ts ls res hrun hlen hrep hocc
    rw [einsumLoop] at hrun
    split at hrun
    · rename_i t2 l2 hget2t hget2l
      simp only [] at hrun
      split at hrun
      · rename_i t1 l1 hget1t hget1l
        split at hrun
        · rename_i t3 l3 heq
          -- index bounds and list elements
          obtain ⟨hkK, hgt2⟩ := List.get?_eq_some.mp hget2t
          obtain ⟨hkKl, hgl2⟩ := List.get?_eq_some.mp hget2l
          obtain ⟨hjJ, hgt1⟩ := List.get?_eq_some.mp hget1t
          obtain ⟨hjJl, hgl1⟩ := List.get?_eq_some.mp hget1l
          have hlenE1 : (ts.eraseIdx (max j0 k0)).length = ts.length - 1 := by
            rw [List.length_eraseIdx, if_pos hkK]
          have hlenE1l : (ls.eraseIdx (max j0 k0)).length = ls.length - 1 := by
            rw [List.length_eraseIdx, if_pos hkKl]
          have hlenE2 : ((ts.eraseIdx (max j0 k0)).eraseIdx (min j0 k0)).length
              = ts.length - 2 := by
            rw [List.length_eraseIdx, if_pos hjJ, hlenE1]
            omega
          have hlenE2l : ((ls.eraseIdx (max j0 k0)).eraseIdx (min j0 k0)).length
              = ls.length - 2 := by
            rw [List.length_eraseIdx, if_pos hjJl, hlenE1l]
            omega
          -- memberships in the original zip
          have hzk : max j0 k0 < (ts.zip ls).length := by
            rw [List.length_zip]
            omega
          have hmem2 : (t2, l2) ∈ ts.zip ls := by
            have hg : (ts.zip ls).get ⟨max j0 k0, hzk⟩ = (t2, l2) := by
              rw [List.get_eq_getElem, List.getElem_zip]
              rw [show ts[max j0 k0] = t2 from hgt2, show ls[max j0 k0] = l2 from hgl2]
            rw [← hg]
            exact List.get_mem _ _ _
          have hzipE1 : (ts.eraseIdx (max j0 k0)).zip (ls.eraseIdx (max j0 k0))
              = (ts.zip ls).eraseIdx (max j0 k0) := zip_eraseIdx ts ls _ hlen
          have hzipE2 : ((ts.eraseIdx (max j0 k0)).eraseIdx (min j0 k0)).zip
                ((ls.eraseIdx (max j0 k0)).eraseIdx (min j0 k0))
              = ((ts.zip ls).eraseIdx (max j0 k0)).eraseIdx (min j0 k0) := by
            rw [zip_eraseIdx _ _ _ (by omega), hzipE1]
          have hzj : min j0 k0 < ((ts.eraseIdx (max j0 k0)).zip
              (ls.eraseIdx (max j0 k0))).length := by
            rw [List.length_zip]
            omega
          have hmem1E : (t1, l1) ∈ (ts.eraseIdx (max j0 k0)).zip
              (ls.eraseIdx (max j0 k0)) := by
            have hg : ((ts.eraseIdx (max j0 k0)).zip (ls.eraseIdx (max j0 k0))).get
                ⟨min j0 k0, hzj⟩ = (t1, l1) := by
              rw [List.get_eq_getElem, List.getElem_zip]
              rw [show (ts.eraseIdx (max j0 k0))[min j0 k0] = t1 from hgt1,
                show (ls.eraseIdx (max j0 k0))[min j0 k0] = l1 from hgl1]
            rw [← hg]
            exact List.get_mem _ _ _
          have hmem1 : (t1, l1) ∈ ts.zip ls := by
            rw [hzipE1] at hmem1E
            exact List.eraseIdx_subset _ _ hmem1E
          obtain ⟨hnd1, hsh1, hst1⟩ := hrep _ hmem1
          obtain ⟨hnd2, hsh2, hst2⟩ := hrep _ hmem2
          have hl1mem : l1 ∈ ls := (List.of_mem_zip hmem1).2
          have hl2mem : l2 ∈ ls := (List.of_mem_zip hmem2).2
          -- the summed-label set
          have hndS : (List.filter (fun c => !olabels.contains c)
              (List.filter (fun c => l2.contains c) l1).dedup).Nodup :=
            (List.nodup_dedup _).filter _
          have hSiff : ∀ c, c ∈ List.filter (fun c => !olabels.contains c)
                (List.filter (fun c => l2.contains c) l1).dedup
              ↔ (c ∈ l1 ∧ c ∈ l2 ∧ c ∉ olabels) := by
            intro c
            rw [List.mem_filter, List.mem_dedup, List.mem_filter, Bool.not_eq_true',
              contains_eq_false_iff]
            constructor
            · rintro ⟨⟨h1, h2⟩, h3⟩
              exact ⟨h1, (contains_eq_true_iff _ _).mp h2, h3⟩
            · rintro ⟨h1, h2, h3⟩
              exact ⟨⟨h1, (contains_eq_true_iff _ _).mpr h2⟩, h3⟩
          have hS0 : ∀ c ∈ List.filter (fun c => !olabels.contains c)
              (List.filter (fun c => l2.contains c) l1).dedup, c ∈ l1 :=
            fun c hc => ((hSiff c).mp hc).1
          have hS1 : ∀ c ∈ List.filter (fun c => !olabels.contains c)
              (List.filter (fun c => l2.contains c) l1).dedup, c ∈ l2 :=
            fun c hc => ((hSiff c).mp hc).2.1
          -- the reduction step semantics
          obtain ⟨tR, hredR, hshR, hstR, hdataR⟩ :=
            einsumReduction_sem sz t1 t2 l1 l2
              (List.filter (fun c => !olabels.contains c)
                (List.filter (fun c => l2.contains c) l1).dedup)
              hnd1 hnd2 hndS hS0 hS1 hpos hsh1 hsh2 hst1 hst2
          have hcomb := hredR.symm.trans heq
          rw [Except.ok.injEq, Prod.mk.injEq] at hcomb
          obtain ⟨ht3, hl3⟩ := hcomb
          subst ht3
          subst hl3
          -- abbreviations for the new live lists
          have hcountK := fun (c : Char) => countP_eraseIdx (fun l => l.contains c) ls
            (max j0 k0) hkKl
          have hcountJ := fun (c : Char) => countP_eraseIdx (fun l => l.contains c)
            (ls.eraseIdx (max j0 k0)) (min j0 k0) hjJl
          have hgetKl : ls.get ⟨max j0 k0, hkKl⟩ = l2 := hgl2
          have hgetJl : (ls.eraseIdx (max j0 k0)).get ⟨min j0 k0, hjJl⟩ = l1 := hgl1
          have hcount : ∀ c : Char, ls.countP (fun l => l.contains c)
              = ((ls.eraseIdx (max j0 k0)).eraseIdx (min j0 k0)).countP (fun l => l.contains c)
                + (if c ∈ l1 then 1 else 0) + (if c ∈ l2 then 1 else 0) := by
            intro c
            have h1 := hcountK c
            have h2 := hcountJ c
            rw [hgetKl] at h1
            rw [hgetJl] at h2
            rw [h1, h2]
            by_cases hc1 : c ∈ l1 <;> by_cases hc2 : c ∈ l2
            · rw [if_pos ((contains_eq_true_iff _ _).mpr hc1),
                if_pos ((contains_eq_true_iff _ _).mpr hc2), if_pos hc1, if_pos hc2]
            · rw [if_pos ((contains_eq_true_iff _ _).mpr hc1),
                if_neg (fun h => hc2 ((contains_eq_true_iff _ _).mp h)),
                if_pos hc1, if_neg hc2]
            · rw [if_neg (fun h => hc1 ((contains_eq_true_iff _ _).mp h)),
                if_pos ((contains_eq_true_iff _ _).mpr hc2), if_neg hc1, if_pos hc2]
            · rw [if_neg (fun h => hc1 ((contains_eq_true_iff _ _).mp h)),
                if_neg (fun h => hc2 ((contains_eq_true_iff _ _).mp h)),
                if_neg hc1, if_neg hc2]
          -- shared summed labels occur nowhere else
          have hSgone : ∀ c ∈ List.filter (fun c => !olabels.contains c)
                (List.filter (fun c => l2.contains c) l1).dedup,
              ((ls.eraseIdx (max j0 k0)).eraseIdx (min j0 k0)).countP
                (fun l => l.contains c) = 0 := by
            intro c hc
            rcases (hSiff c).mp hc with ⟨h1, h2, h3⟩
            have := hocc c h3
            have hcnt := hcount c
            rw [if_pos h1, if_pos h2] at hcnt
            omega
          have hSnotE2l : ∀ c ∈ List.filter (fun c => !olabels.contains c)
                (List.filter (fun c => l2.contains c) l1).dedup,
              ∀ l ∈ (ls.eraseIdx (max j0 k0)).eraseIdx (min j0 k0), c ∉ l := by
            intro c hc l hl hcl
            have h0 := hSgone c hc
            rw [List.countP_eq_zero] at h0
            have := h0 l hl
            exact this ((contains_eq_true_iff _ _).mpr hcl)
          -- establish the inductive preconditions for the reduced state
          have hpre1 : (tR :: (ts.eraseIdx (max j0 k0)).eraseIdx (min j0 k0)).length
              = (redOut l1 l2 (List.filter (fun c => !olabels.contains c)
                  (List.filter (fun c => l2.contains c) l1).dedup)
                :: (ls.eraseIdx (max j0 k0)).eraseIdx (min j0 k0)).length := by
            simp only [List.length_cons]
            omega
          have hpre2 : ∀ p ∈ (tR :: (ts.eraseIdx (max j0 k0)).eraseIdx (min j0 k0)).zip
                (redOut l1 l2 (List.filter (fun c => !olabels.contains c)
                    (List.filter (fun c => l2.contains c) l1).dedup)
                  :: (ls.eraseIdx (max j0 k0)).eraseIdx (min j0 k0)),
              p.2.Nodup ∧ p.1.shape = p.2.map sz ∧ p.1.static = p.1.shape.map some := by
            intro p hp
            rw [List.zip_cons_cons] at hp
            rcases List.mem_cons.mp hp with hp | hp
            · subst hp
              exact ⟨redOut_nodup hnd1 hnd2, hshR, hstR⟩
            · rw [hzipE2] at hp
              exact hrep _ (List.eraseIdx_subset _ _ (List.eraseIdx_subset _ _ hp))
          have hpre3 : ∀ c, c ∉ olabels →
              (redOut l1 l2 (List.filter (fun c => !olabels.contains c)
                  (List.filter (fun c => l2.contains c) l1).dedup)
                :: (ls.eraseIdx (max j0 k0)).eraseIdx (min j0 k0)).countP
                (fun l => l.contains c) ≤ 2 := by
            intro c hco
            rw [List.countP_cons]
            have hcnt := hcount c
            have hocc' := hocc c hco
            by_cases h1 : c ∈ l1 <;> by_cases h2 : c ∈ l2
            · -- summed away
              have hcS : c ∈ List.filter (fun c => !olabels.contains c)
                  (List.filter (fun c => l2.contains c) l1).dedup :=
                (hSiff c).mpr ⟨h1, h2, hco⟩
              have hnotR : c ∉ redOut l1 l2 _ := fun h =>
                ((redOut_mem hS0 hS1).mp h).2 hcS
              rw [if_neg (fun h => hnotR ((contains_eq_true_iff _ _).mp h))]
              rw [if_pos h1, if_pos h2] at hcnt
              omega
            · have hcR : c ∈ redOut l1 l2 _ := (redOut_mem hS0 hS1).mpr
                ⟨Or.inl h1, fun h => h2 (hS1 c h)⟩
              rw [if_pos ((contains_eq_true_iff _ _).mpr hcR)]
              rw [if_pos h1, if_neg h2] at hcnt
              omega
            · have hcR : c ∈ redOut l1 l2 _ := (redOut_mem hS0 hS1).mpr
                ⟨Or.inr h2, fun h => h1 (hS0 c h)⟩
              rw [if_pos ((contains_eq_true_iff _ _).mpr hcR)]
              rw [if_neg h1, if_pos h2] at hcnt
              omega
            · have hnotR : c ∉ redOut l1 l2 _ := fun h => by
                rcases ((redOut_mem hS0 hS1).mp h).1 with h' | h'
                · exact h1 h'
                · exact h2 h'
              rw [if_neg (fun h => hnotR ((contains_eq_true_iff _ _).mp h))]
              rw [if_neg h1, if_neg h2] at hcnt
              omega
          obtain ⟨ihlen, ihcnt, ihrep, ihval⟩ := ih _ _ res hrun hpre1 hpre2 hpre3
          refine ⟨ihlen, ?_, ihrep, ?_⟩
          · simp only [List.length_cons] at ihcnt ⊢
            omega
          · intro σ hσ
            rw [ihval σ hσ]
            -- one Fubini step
            have hpermZ : (ts.zip ls).Perm ((t2, l2) :: (t1, l1) ::
                ((ts.eraseIdx (max j0 k0)).eraseIdx (min j0 k0)).zip
                  ((ls.eraseIdx (max j0 k0)).eraseIdx (min j0 k0))) := by
              have hp1 : (ts.zip ls).Perm ((t2, l2) :: (ts.zip ls).eraseIdx (max j0 k0)) := by
                have := perm_getElem_eraseIdx (ts.zip ls) (max j0 k0) hzk
                rw [show (ts.zip ls)[max j0 k0] = (t2, l2) from by
                  rw [List.getElem_zip]
                  rw [show ts[max j0 k0] = t2 from hgt2, show ls[max j0 k0] = l2 from hgl2]]
                  at this
                exact this
              have hp2 : ((ts.zip ls).eraseIdx (max j0 k0)).Perm ((t1, l1) ::
                  ((ts.eraseIdx (max j0 k0)).eraseIdx (min j0 k0)).zip
                    ((ls.eraseIdx (max j0 k0)).eraseIdx (min j0 k0))) := by
                rw [← hzipE1, hzipE2, ← hzipE1]
                have hzj' : min j0 k0 < ((ts.eraseIdx (max j0 k0)).zip
                    (ls.eraseIdx (max j0 k0))).length := hzj
                have := perm_getElem_eraseIdx ((ts.eraseIdx (max j0 k0)).zip
                  (ls.eraseIdx (max j0 k0))) (min j0 k0) hzj'
                rw [show ((ts.eraseIdx (max j0 k0)).zip
                    (ls.eraseIdx (max j0 k0)))[min j0 k0] = (t1, l1) from by
                  rw [List.getElem_zip]
                  rw [show (ts.eraseIdx (max j0 k0))[min j0 k0] = t1 from hgt1,
                    show (ls.eraseIdx (max j0 k0))[min j0 k0] = l1 from hgl1]] at this
                exact this
              exact hp1.trans (List.Perm.cons _ hp2)
            have hprodOld : ∀ ρ : Char → Nat,
                ((ts.zip ls).map fun p => p.1.data (p.2.map ρ)).prod
                = (t1.data (l1.map ρ) * t2.data (l2.map ρ))
                  * ((((ts.eraseIdx (max j0 k0)).eraseIdx (min j0 k0)).zip
                      ((ls.eraseIdx (max j0 k0)).eraseIdx (min j0 k0))).map
                    fun p => p.1.data (p.2.map ρ)).prod := by
              intro ρ
              rw [(hpermZ.map fun p => p.1.data (p.2.map ρ)).prod_eq]
              rw [List.map_cons, List.map_cons, List.prod_cons, List.prod_cons]
              ring
            -- set identity for the summed labels
            have hpermNO : (nonOutL olabels ls).Perm
                (nonOutL olabels (redOut l1 l2 (List.filter (fun c => !olabels.contains c)
                    (List.filter (fun c => l2.contains c) l1).dedup)
                  :: (ls.eraseIdx (max j0 k0)).eraseIdx (min j0 k0))
                ++ List.filter (fun c => !olabels.contains c)
                    (List.filter (fun c => l2.contains c) l1).dedup) := by
              refine (List.perm_ext_iff_of_nodup (nonOutL_nodup _ _) ?_).mpr ?_
              · rw [List.nodup_append]
                refine ⟨nonOutL_nodup _ _, hndS, ?_⟩
                intro c hcN hcS
                rcases mem_nonOutL.mp hcN with ⟨⟨l, hl, hcl⟩, _⟩
                rcases List.mem_cons.mp hl with hl | hl
                · subst hl
                  exact ((redOut_mem hS0 hS1).mp hcl).2 hcS
                · exact hSnotE2l c hcS l hl hcl
              · intro c
                rw [List.mem_append, mem_nonOutL, mem_nonOutL]
                constructor
                · rintro ⟨⟨l, hl, hcl⟩, hco⟩
                  by_cases hcS : c ∈ List.filter (fun c => !olabels.contains c)
                      (List.filter (fun c => l2.contains c) l1).dedup
                  · exact Or.inr hcS
                  · refine Or.inl ⟨?_, hco⟩
                    by_cases h1 : c ∈ l1 <;> by_cases h2 : c ∈ l2
                    · exact absurd ((hSiff c).mpr ⟨h1, h2, hco⟩) hcS
                    · exact ⟨_, List.mem_cons_self _ _,
                        (redOut_mem hS0 hS1).mpr ⟨Or.inl h1, hcS⟩⟩
                    · exact ⟨_, List.mem_cons_self _ _,
                        (redOut_mem hS0 hS1).mpr ⟨Or.inr h2, hcS⟩⟩
                    · have hpos' : 0 < ls.countP (fun l => l.contains c) := by
                        rw [List.countP_pos_iff]
                        exact ⟨l, hl, (contains_eq_true_iff _ _).mpr hcl⟩
                      have hcnt := hcount c
                      rw [if_neg h1, if_neg h2] at hcnt
                      have hpos2 : 0 < ((ls.eraseIdx (max j0 k0)).eraseIdx
                          (min j0 k0)).countP (fun l => l.contains c) := by omega
                      rw [List.countP_pos_iff] at hpos2
                      rcases hpos2 with ⟨l', hl', hcl'⟩
                      exact ⟨l', List.mem_cons_of_mem _ hl',
                        (contains_eq_true_iff _ _).mp hcl'⟩
                · rintro (⟨⟨l, hl, hcl⟩, hco⟩ | hcS)
                  · rcases List.mem_cons.mp hl with hl | hl
                    · subst hl
                      rcases ((redOut_mem hS0 hS1).mp hcl).1 with h | h
                      · exact ⟨⟨l1, hl1mem, h⟩, hco⟩
                      · exact ⟨⟨l2, hl2mem, h⟩, hco⟩
                    · exact ⟨⟨l, List.eraseIdx_subset _ _ (List.eraseIdx_subset _ _ hl),
                        hcl⟩, hco⟩
                  · rcases (hSiff c).mp hcS with ⟨h1, _, h3⟩
                    exact ⟨⟨l1, hl1mem, h1⟩, h3⟩
            rw [sumAssign_perm sz _ hpermNO σ, sumAssign_append]
            refine sumAssign_congr_bounded sz _ _ _ σ hσ ?_
            intro τ hτ
            rw [sumAssign_ext sz _ _ _ τ hprodOld]
            have hdepRest : DependsOn (fun ρ => ((((ts.eraseIdx (max j0 k0)).eraseIdx
                (min j0 k0)).zip ((ls.eraseIdx (max j0 k0)).eraseIdx (min j0 k0))).map
                  fun p => p.1.data (p.2.map ρ)).prod)
                ((ls.eraseIdx (max j0 k0)).eraseIdx (min j0 k0)).flatten :=
              dependsOn_prodZip _ _ _ (fun l hl c hc => List.mem_flatten.mpr ⟨l, hl, hc⟩)
            have hswap : ∀ ρ : Char → Nat,
                (t1.data (l1.map ρ) * t2.data (l2.map ρ))
                  * ((((ts.eraseIdx (max j0 k0)).eraseIdx (min j0 k0)).zip
                      ((ls.eraseIdx (max j0 k0)).eraseIdx (min j0 k0))).map
                    fun p => p.1.data (p.2.map ρ)).prod
                = ((((ts.eraseIdx (max j0 k0)).eraseIdx (min j0 k0)).zip
                      ((ls.eraseIdx (max j0 k0)).eraseIdx (min j0 k0))).map
                    fun p => p.1.data (p.2.map ρ)).prod
                  * (t1.data (l1.map ρ) * t2.data (l2.map ρ)) := by
              intro ρ
              ring
            rw [sumAssign_ext sz _ _ _ τ hswap]
            rw [sumAssign_mul_left sz _ _ _ hdepRest _ τ ?hdisj]
            case hdisj =>
              intro c hcS hcF
              rcases List.mem_flatten.mp hcF with ⟨l, hl, hcl⟩
              exact hSnotE2l c hcS l hl hcl
            rw [← hdataR τ (fun c _ => hτ c)]
            rw [List.zip_cons_cons, List.map_cons, List.prod_cons]
            ring
        · exact Except.noConfusion hrun
      · exact Except.noConfusion hrun
    · exact Except.noConfusion hrun

/-- Whatever safe strategy returns, the sequence has exactly `N - 1` steps. -/
theorem einsumOptimize_length (ishapes : List (List Nat)) (ilabels : List (List Char))
    (olabels : List Char) (strat : Strategy) (limit : Option Nat) (seq : List (Nat × Nat))
    (hok : einsumOptimize ishapes ilabels olabels strat limit = .ok seq)
    (hlen : ilabels.length = ishapes.length) :
    seq.length = ishapes.length - 1 := by
  cases strat with
  | sFalse =>
    have h : Except.ok (List.replicate (ishapes.length - 1) ((0 : Nat), (1 : Nat)))
        = (Except.ok seq : Except Err (List (Nat × Nat))) := hok
    cases h
    simp
  | sTrue =>
    have hok' : einsumOptimizeDp ishapes ilabels olabels limit = .ok seq := hok
    obtain ⟨tree, hperm, hseq⟩ :=
      einsumOptimizeDp_spec ishapes ilabels olabels limit seq hok' hlen
    subst hseq
    rw [treeToSequence_length]
    have h1 := CTree.isize_eq tree
    have h2 := hperm.length_eq
    rw [List.length_range] at h2
    omega
  | sDp =>
    have hok' : einsumOptimizeDp ishapes ilabels olabels limit = .ok seq := hok
    obtain ⟨tree, hperm, hseq⟩ :=
      einsumOptimizeDp_spec ishapes ilabels olabels limit seq hok' hlen
    subst hseq
    rw [treeToSequence_length]
    have h1 := CTree.isize_eq tree
    have h2 := hperm.length_eq
    rw [List.length_range] at h2
    omega
  | sGreedy =>
    exact (greedyGo_wf olabels ishapes.length ishapes ilabels seq hok).2

/-- Taking the pairwise route bounds every non-output label's operand count
by two. -/
theorem pairwiseR_occ (equation : List Char) (ilabels : List (List Char))
    (olabels : List Char)
    (hroute : einsumRoute equation ilabels olabels = .pairwiseR) :
    ∀ c, c ∉ olabels → ilabels.countP (fun l => l.contains c) ≤ 2 := by
  intro c hco
  rw [einsumRoute] at hroute
  split at hroute
  · exact Route.noConfusion hroute
  · exact Route.noConfusion hroute
  · by_cases hany : ((pySet (ilabels.flatten ++ olabels)).any
        fun a => decide ((ilabels.filter (·.contains a)).length > 2)
          && !olabels.contains a) = true
    · rw [if_pos hany] at hroute
      exact Route.noConfusion hroute
    · by_cases hcAx : c ∈ pySet (ilabels.flatten ++ olabels)
      · by_contra hgt
        refine hany ?_
        rw [List.any_eq_true]
        refine ⟨c, hcAx, ?_⟩
        rw [Bool.and_eq_true, decide_eq_true_eq, Bool.not_eq_true', contains_eq_false_iff]
        refine ⟨?_, hco⟩
        rw [← List.countP_eq_length_filter]
        omega
      · have h0 : ilabels.countP (fun l => l.contains c) = 0 := by
          rw [List.countP_eq_zero]
          intro l hl hcl
          refine hcAx ?_
          rw [pySet, mem_pySorted, List.mem_dedup, List.mem_append]
          exact Or.inl (List.mem_flatten.mpr ⟨l, hl, (contains_eq_true_iff _ _).mp hcl⟩)
        omega

/-- The semantics of the final check-and-transpose on a single survivor. -/
theorem einsumFinish_sem (sz : Char → Nat) (t : Tensor) (l : List Char)
    (olabels : List Char) (tF : Tensor)
    (hfin : einsumFinish [t] [l] olabels = .ok tF)
    (hnd : l.Nodup) (hsh : t.shape = l.map sz) :
    olabels.Perm l ∧ tF.shape = olabels.map sz ∧
      ∀ σ : Char → Nat, tF.data (olabels.map σ) = t.data (l.map σ) := by
  have hfin' : (if pySorted charLe l ≠ pySorted charLe olabels then
      (.error .invalidEquation : Except Err Tensor)
    else .ok (transposeIfNecessary t (olabels.map (l.indexOf ·)))) = .ok tF := hfin
  by_cases hne : pySorted charLe l ≠ pySorted charLe olabels
  · rw [if_pos hne] at hfin'
    exact Except.noConfusion hfin'
  · rw [if_neg hne] at hfin'
    have heq : pySorted charLe l = pySorted charLe olabels := not_ne_iff.mp hne
    have hperm : olabels.Perm l := by
      have h1 := perm_pySorted charLe olabels
      have h2 := perm_pySorted charLe l
      rw [heq] at h2
      exact h1.symm.trans h2
    have htF : tF = transposeT t (olabels.map (l.indexOf ·)) := by
      have h : Except.ok (transposeIfNecessary t (olabels.map (l.indexOf ·)))
          = (Except.ok tF : Except Err Tensor) := hfin'
      cases h
      rfl
    subst htF
    exact ⟨hperm, transposeT_shape t l olabels sz hperm hsh,
      fun σ => transposeT_data t l olabels hnd hperm σ (by rw [hsh]; simp)⟩

/-- A successful pairwise-route run of `einsum` computes the canonical
contraction value: the sum over all assignments of the non-output labels of
the product of the operands' entries, arranged in output-label order. -/
theorem einsum_pairwise_run (strategy : Strategy) (equation : List Char)
    (inputs : List Tensor) (ilabels : List (List Char)) (olabels : List Char)
    (sz : Char → Nat) (r : Tensor) (w : Bool)
    (hparse : parseEq equation (inputs.map (·.static)) = .ok (ilabels, olabels))
    (hroute : einsumRoute equation ilabels olabels = .pairwiseR)
    (hlen : ilabels.length = inputs.length)
    (hrep : ∀ p ∈ inputs.zip ilabels, p.2.Nodup ∧ p.1.shape = p.2.map sz ∧
      p.1.static = p.1.shape.map some)
    (hpos : ∀ c, 1 ≤ sz c)
    (hrun : einsum strategy equation inputs = .ok (r, w)) :
    w = false ∧ olabels.Nodup ∧ r.shape = olabels.map sz ∧
      ∀ σ : Char → Nat, (∀ c, σ c < sz c) →
        r.data (olabels.map σ) = sumAssign sz (nonOutL olabels ilabels)
          (fun ρ => ((inputs.zip ilabels).map fun p => p.1.data (p.2.map ρ)).prod) σ := by
  rw [einsum, hparse, except_bind_ok] at hrun
  simp only [] at hrun
  rw [hroute] at hrun
  simp only [] at hrun
  cases hopt : einsumOptimize (inputs.map (·.shape)) ilabels olabels
      (if (inputs.any fun t => t.static.any Option.isNone) = true then Strategy.sFalse
        else strategy) none with
  | error e =>
    rw [hopt] at hrun
    exact Except.noConfusion hrun
  | ok seq =>
    rw [hopt, except_bind_ok] at hrun
    cases hloop : einsumLoop olabels seq inputs ilabels with
    | error e =>
      rw [hloop] at hrun
      exact Except.noConfusion hrun
    | ok pr =>
      rw [hloop, except_bind_ok] at hrun
      cases hfin : einsumFinish pr.1 pr.2 olabels with
      | error e =>
        rw [hfin] at hrun
        exact Except.noConfusion hrun
      | ok tF =>
        rw [hfin, except_bind_ok] at hrun
        rw [Except.ok.injEq, Prod.mk.injEq] at hrun
        obtain ⟨hr, hw⟩ := hrun
        subst hr
        subst hw
        have hseqlen : seq.length = (inputs.map (fun t => t.shape)).length - 1 :=
          einsumOptimize_length _ ilabels olabels _ none seq hopt
            (by rw [List.length_map]; exact hlen)
        rw [List.length_map] at hseqlen
        have hocc := pairwiseR_occ equation ilabels olabels hroute
        obtain ⟨Llen, Lcnt, Lrep, Lval⟩ := einsumLoop_sem olabels sz hpos seq inputs
          ilabels pr hloop hlen.symm hrep hocc
        cases hp1 : pr.1 with
        | nil =>
          rw [hp1] at hfin
          exact Except.noConfusion (show (Except.error Err.indexErr : Except Err Tensor)
            = Except.ok tF from hfin)
        | cons t rest =>
          cases rest with
          | cons t' rest' =>
            rw [hp1] at Lcnt
            simp only [List.length_cons] at Lcnt
            omega
          | nil =>
            have hp2len : pr.2.length = 1 := by
              rw [← Llen, hp1]
              rfl
            obtain ⟨l, hp2⟩ := List.length_eq_one.mp hp2len
            obtain ⟨hnd, hsh, hst⟩ := Lrep (t, l) (by
              rw [hp1, hp2, List.zip_cons_cons]
              exact List.mem_cons_self _ _)
            rw [hp1, hp2] at hfin
            obtain ⟨hperm, hshF, hdataF⟩ := einsumFinish_sem sz t l olabels tF hfin hnd hsh
            refine ⟨rfl, hperm.symm.nodup hnd, hshF, ?_⟩
            intro σ hσ
            rw [hdataF σ]
            rw [hp1, hp2] at Lval
            have hNOnil : nonOutL olabels [l] = [] := by
              rw [List.eq_nil_iff_forall_not_mem]
              intro c hc
              rcases mem_nonOutL.mp hc with ⟨⟨l', hl', hcl⟩, hco⟩
              rw [List.mem_singleton] at hl'
              subst hl'
              exact hco (hperm.mem_iff.mpr hcl)
            have hL := Lval σ hσ
            rw [hNOnil] at hL
            have hone : (([t].zip [l]).map fun p => p.1.data (p.2.map σ)).prod
                = t.data (l.map σ) := by
              simp
            rw [show sumAssign sz [] (fun ρ => (([t].zip [l]).map
                fun p => p.1.data (p.2.map ρ)).prod) σ
              = (([t].zip [l]).map fun p => p.1.data (p.2.map σ)).prod from rfl] at hL
            rw [hone] at hL
            exact hL

/-- **C1.** On the pairwise-reduction route (parse succeeds and no label both
occurs in more than two operands and is missing from the output), with every
operand fully statically known and the shapes consistent under one strictly
positive per-label size assignment, `einsum` produces the same numeric result
whatever `optimize` strategy is chosen: whenever two strategies both return,
the fallback-warning flags agree, the result shapes agree, and the result
tensors agree at every valid multi-index — each equals the canonical
contraction (the sum over assignments of the non-output labels of the product
of operand entries, in output-label order), so the contraction sequence
returned by `einsum_optimize` affects only cost, never the value. -/
theorem einsum_strategy_independence (s1 s2 : Strategy) (equation : List Char)
    (inputs : List Tensor) (ilabels : List (List Char)) (olabels : List Char)
    (sz : Char → Nat) (r1 r2 : Tensor) (w1 w2 : Bool)
    (hparse : parseEq equation (inputs.map (·.static)) = .ok (ilabels, olabels))
    (hroute : einsumRoute equation ilabels olabels = .pairwiseR)
    (hlen : ilabels.length = inputs.length)
    (hrep : ∀ p ∈ inputs.zip ilabels, p.2.Nodup ∧ p.1.shape = p.2.map sz ∧
      p.1.static = p.1.shape.map some)
    (hpos : ∀ c, 1 ≤ sz c)
    (hrun1 : einsum s1 equation inputs = .ok (r1, w1))
    (hrun2 : einsum s2 equation inputs = .ok (r2, w2)) :
    w1 = w2 ∧ r1.shape = r2.shape ∧
      ∀ idx : Idx, idxOk r1.shape idx = true → r1.data idx = r2.data idx := by
  obtain ⟨hw1, hndo, hsh1, hdata1⟩ := einsum_pairwise_run s1 equation inputs ilabels
    olabels sz r1 w1 hparse hroute hlen hrep hpos hrun1
  obtain ⟨hw2, _, hsh2, hdata2⟩ := einsum_pairwise_run s2 equation inputs ilabels
    olabels sz r2 w2 hparse hroute hlen hrep hpos hrun2
  refine ⟨hw1.trans hw2.symm, hsh1.trans hsh2.symm, ?_⟩
  intro idx hok
  rw [hsh1] at hok
  have hlenidx : idx.length = olabels.length := by
    rw [idxOk, Bool.and_eq_true, beq_iff_eq] at hok
    simpa using hok.1
  have hmapσ : olabels.map (updList (fun _ => 0) olabels idx) = idx :=
    map_updList _ olabels idx hndo hlenidx
  have hbσ : ∀ c, updList (fun _ => 0) olabels idx c < sz c := by
    intro c
    by_cases hc : c ∈ olabels
    · exact updList_lt sz _ olabels idx hndo hok c hc
    · rw [updList_notMem _ _ _ _ hc]
      exact hpos c
  calc r1.data idx = r1.data (olabels.map (updList (fun _ => 0) olabels idx)) := by
        rw [hmapσ]
    _ = sumAssign sz (nonOutL olabels ilabels)
          (fun ρ => ((inputs.zip ilabels).map fun p => p.1.data (p.2.map ρ)).prod)
          (updList (fun _ => 0) olabels idx) := hdata1 _ hbσ
    _ = r2.data (olabels.map (updList (fun _ => 0) olabels idx)) := (hdata2 _ hbσ).symm
    _ = r2.data idx := by rw [hmapσ]

/-- Witness for C1: `'ij,jk->ik'` on concrete 2×2 matrices, strict
left-to-right order against the greedy optimizer's order: both runs succeed
without the fallback warning and agree everywhere. -/
theorem einsum_strategy_independence_witness :
    ∃ (r1 r2 : Tensor) (w1 w2 : Bool),
      einsum .sFalse ['i', 'j', ',', 'j', 'k', '-', '>', 'i', 'k']
          [mkTensor [2, 2] [1, 2, 3, 4], mkTensor [2, 2] [5, 6, 7, 8]] = .ok (r1, w1) ∧
      einsum .sGreedy ['i', 'j', ',', 'j', 'k', '-', '>', 'i', 'k']
          [mkTensor [2, 2] [1, 2, 3, 4], mkTensor [2, 2] [5, 6, 7, 8]] = .ok (r2, w2) ∧
      (w1 = w2 ∧ r1.shape = r2.shape ∧
        ∀ idx : Idx, idxOk r1.shape idx = true → r1.data idx = r2.data idx) :=
  ⟨_, _, _, _, rfl, rfl,
    einsum_strategy_independence .sFalse .sGreedy
      ['i', 'j', ',', 'j', 'k', '-', '>', 'i', 'k']
      [mkTensor [2, 2] [1, 2, 3, 4], mkTensor [2, 2] [5, 6, 7, 8]]
      [['i', 'j'], ['j', 'k']] ['i', 'k'] (fun _ => 2) _ _ _ _
      (by rfl) (by rfl) (by rfl)
      (by
        intro p hp
        rcases List.mem_cons.mp hp with rfl | hp
        · exact ⟨by decide, rfl, rfl⟩
        · rcases List.mem_cons.mp hp with rfl | hp
          · exact ⟨by decide, rfl, rfl⟩
          · cases hp)
      (fun _ => one_le_two) rfl rfl⟩
